import Mathlib

/-!
# Bulletworm: behaviour bytecode engine and Fenwick-tree weighted index

A shallow embedding of

* `ObjectBehavior::validateValueExpression`, `ObjectBehavior::computeValueExpression`,
  `ObjectBehavior::compile` (src/src/ObjectBehavior.cpp),
* `FenwickTree` (src/lib/include/bw_ext/FenwickTree.hpp) and `fwkCreate`
  (src/src/BlockSnake.cpp),

followed by the properties proved about them.

Conventions.  A 32-bit word is a natural number below `2 ^ 32`, a 64-bit word a natural
number below `2 ^ 64`; arithmetic that can wrap is written with an explicit `%`.
Behaviour the C++ standard leaves undefined is a `Fault` of the interpreter.
-/

namespace Bulletworm

/-! ## Enumerations of ObjectBehavior.hpp -/

/-- Modelled from the spec: the opcode enumeration `ObjectBehaviorKeyword`, whose declaration
(ObjectBehavior.hpp) is absent.  One constructor per case label of the two switches in
ObjectBehavior.cpp; `Unlisted` stands for every word value that has no case label of its own
and therefore reaches `default:`. -/
inductive ObjectBehaviorKeyword where
  | AccelerationDefault | AccelerationDown | AccelerationUp
  | RandomAcceleration | RandomCombinedDirection | RandomDirection | RandomDoubleDirection
  | IntRandomValue | RememberedInt | Not | OppositeDirection | OppositeAcceleration
  | Or | And | Equal | Select | IsDirExitOfDoubleDir | GetCombDirExit
  | SnakeAcceleration | SnakeDirection | PreviousSnakeDirection
  | ParamAcceleration | ParamDirection | ParamDoubleDirection | ParamCombinedDirection
  | Int | IntAdd | IntSubtract | IntAddOverflow | IntBitAnd | IntBitNot | IntBitOr | IntBitXor
  | IntCountOfOnes | IntCyclicLeftShift | IntCyclicRightShift | IntDivideAndFloor | IntLess
  | IntLogicalLeftShift | IntLogicalRightShift | IntMinus | IntModulo | IntMultiply
  | IntMultiplyOverflow | ExpressionEnd | Unlisted
  deriving DecidableEq, Repr

/-- Modelled from the spec: `StackValueType` (ObjectBehavior.hpp, absent), the kinds tracked by
the validator. -/
inductive StackValueType where
  | Integer | Direction | Acceleration | DoubleDirection | CombinedDirection
  deriving DecidableEq, Repr

/-- Modelled from the spec: `ObjectParameterType` (ObjectBehavior.hpp, absent). -/
inductive ObjectParameterType where
  | NoParameter | Acceleration | Direction | DoubleDirection | CombinedDirection
  deriving DecidableEq, Repr

/-- Modelled from the spec: `ObjectCommand` (ObjectBehavior.hpp, absent).  `NoOp` stands for
every enumerator that has no case label in `compile` and `activate`. -/
inductive ObjectCommand where
  | KillSnake | StopSnake | ModifyAcceleration | ModifyDirection | Remember | NoOp
  deriving DecidableEq, Repr

/-- Modelled from the spec: `EffectAttributeStates` (ObjectBehavior.hpp, absent): the
attributes accumulated over all expressions of one program. -/
structure EffectAttributeStates where
  requiresRandom : Bool
  paramType : ObjectParameterType
  deriving DecidableEq, Repr

/-- Modelled from the spec: the default-constructed `EffectAttributeStates states;` of
`compile`: no randomness required, "no parameter". -/
def EffectAttributeStates.initial : EffectAttributeStates :=
  { requiresRandom := false, paramType := ObjectParameterType.NoParameter }

/-- Modelled from the spec: what ObjectBehavior.cpp takes from the absent headers
ObjectBehavior.hpp, ObjectParameterEnums.hpp and ObjParamEnumUtility.hpp.  The numbering of the
opcodes, the numeric values of the enumerators and the four lookup functions are parameters of
the embedding; every function on words maps the raw 32-bit word to the 32-bit word that the
interpreter stores. -/
structure Declarations where
  /-- The cast `(ObjectBehaviorKeyword)word`. -/
  keywordOf : Nat → ObjectBehaviorKeyword
  accelerationDefault : Nat
  accelerationDown : Nat
  accelerationUp : Nat
  accelerationCount : Nat
  combinedTubeCount : Nat
  directionCount : Nat
  doubleDirectionCount : Nat
  oppositeDirection : Nat → Nat
  oppositeAcceleration : Nat → Nat
  /-- Word stored by `directionIsExit(doubleDirection, direction)`. -/
  directionIsExit : Nat → Nat → Nat
  /-- Word stored by `getCombinedTubeExit(combinedDirection, direction)`. -/
  getCombinedTubeExit : Nat → Nat → Nat

deriving instance DecidableEq for Except

/-- An expression: the words `expression[0 .. keywordCount)`. -/
abbrev Expression := List Nat

/-! ## The validator: `ObjectBehavior::validateValueExpression` -/

/-- The `if (stack.empty() || stack.front() != kind) return message;` guard. -/
def frontIs (stack : List StackValueType) (kind : StackValueType) : Bool :=
  match stack with
  | [] => false
  | t :: _ => decide (t = kind)

/-- Body of the `ParamX` cases. -/
def validateParam (own : ObjectParameterType) (kind : StackValueType) (message : String)
    (stack : List StackValueType) (states : EffectAttributeStates) :
    Except String (List StackValueType) × EffectAttributeStates :=
  if states.paramType ≠ own ∧ states.paramType ≠ ObjectParameterType.NoParameter then
    (.error message, states)
  else
    (.ok (kind :: stack), { states with paramType := own })

/-- The second half of the integer cases (reached directly by the unary operators and by
fall-through from the binary ones). -/
def validateIntTop (stack : List StackValueType) (states : EffectAttributeStates) :
    Except String (List StackValueType) × EffectAttributeStates :=
  if frontIs stack .Integer then (.ok stack, states)
  else (.error "Lack of value in the stack (Int)", states)

/-- The binary integer cases: check, `pop_front`, `[[fallthrough]]`. -/
def validateIntBinary (stack : List StackValueType) (states : EffectAttributeStates) :
    Except String (List StackValueType) × EffectAttributeStates :=
  if frontIs stack .Integer then validateIntTop stack.tail states
  else (.error "Lack of value in the stack (Int)", states)

/-- One pass through the `switch` of `validateValueExpression` for an opcode other than `Int`,
`ExpressionEnd` and the default case (those only touch the loop flags and are handled by
`validateLoop`).  The result is the early `return` message or the new stack, together with the
`states` object as the step leaves it. -/
def validateStep (kw : ObjectBehaviorKeyword) (stack : List StackValueType)
    (states : EffectAttributeStates) :
    Except String (List StackValueType) × EffectAttributeStates :=
  match kw with
  | .AccelerationDown | .AccelerationDefault | .AccelerationUp =>
      (.ok (.Acceleration :: stack), states)
  | .RandomAcceleration =>
      (.ok (.Acceleration :: stack), { states with requiresRandom := true })
  | .IntRandomValue =>
      if frontIs stack .Integer then (.ok stack, { states with requiresRandom := true })
      else (.error "TODO", states)
  | .RandomCombinedDirection =>
      (.ok (.CombinedDirection :: stack), { states with requiresRandom := true })
  | .RandomDirection =>
      (.ok (.Direction :: stack), { states with requiresRandom := true })
  | .RandomDoubleDirection =>
      (.ok (.DoubleDirection :: stack), { states with requiresRandom := true })
  | .RememberedInt => (.ok (.Integer :: stack), states)
  | .OppositeDirection =>
      if frontIs stack .Direction then (.ok stack, states)
      else (.error "Lack of value in the stack (Direction)", states)
  | .OppositeAcceleration =>
      if frontIs stack .Acceleration then (.ok stack, states)
      else (.error "Lack of value in the stack (Acceleration)", states)
  | .Or | .And | .IntAdd | .IntAddOverflow | .IntBitAnd | .IntBitOr | .IntBitXor
  | .IntCyclicLeftShift | .IntCyclicRightShift | .IntDivideAndFloor | .IntLogicalLeftShift
  | .IntLogicalRightShift | .IntModulo | .IntMultiply | .IntMultiplyOverflow | .IntSubtract
  | .IntLess => validateIntBinary stack states
  | .Not | .IntBitNot | .IntCountOfOnes | .IntMinus => validateIntTop stack states
  | .Equal =>
      match stack with
      | [] => (.error "Lack of value in the stack (empty)", states)
      | currentType :: stack1 =>
          if frontIs stack1 currentType then
            if currentType ≠ .Integer then (.ok (.Integer :: stack1.tail), states)
            else (.ok stack1, states)
          else (.error "Lack of value in the stack: wrong type", states)
  | .Select =>
      if frontIs stack .Integer then
        match stack.tail with
        | [] => (.error "Lack of value in the stack (empty)", states)
        | currentType :: stack2 =>
            if frontIs stack2 currentType then
              if currentType ≠ .Integer then (.ok (currentType :: stack2.tail), states)
              else (.ok stack2, states)
            else (.error "Lack of value in the stack: wrong type", states)
      else (.error "Lack of value in the stack (Boolean)", states)
  | .IsDirExitOfDoubleDir =>
      if frontIs stack .Direction then
        if frontIs stack.tail .DoubleDirection then (.ok (.Integer :: stack.tail.tail), states)
        else (.error "Lack of value in the stack (DoubleDirection)", states)
      else (.error "Lack of value in the stack (direction)", states)
  | .GetCombDirExit =>
      if frontIs stack .CombinedDirection then
        if frontIs stack.tail .Direction then (.ok stack.tail, states)
        else (.error "Lack of value in the stack (direction)", states)
      else (.error "Lack of value in the stack (CombinedDirection)", states)
  | .SnakeAcceleration => (.ok (.Acceleration :: stack), states)
  | .SnakeDirection | .PreviousSnakeDirection => (.ok (.Direction :: stack), states)
  | .ParamAcceleration =>
      validateParam .Acceleration .Acceleration "Parameter corruption (acceleration)"
        stack states
  | .ParamDirection =>
      validateParam .Direction .Direction "Parameter corruption (direction)" stack states
  | .ParamDoubleDirection =>
      validateParam .DoubleDirection .DoubleDirection "Parameter corruption (double direction)"
        stack states
  | .ParamCombinedDirection =>
      validateParam .CombinedDirection .CombinedDirection
        "Parameter corruption (combined direction)" stack states
  | .Int | .ExpressionEnd | .Unlisted => (.ok stack, states)

/-- The `while (again)` loop of `validateValueExpression`, on the words from `pointer` on, with
the current `isInteger` flag, stack and `states`.  It ends at the end of the buffer, at
`ExpressionEnd` or an unlisted word (`again = false`), or at the first early `return`. -/
def validateLoop (d : Declarations) :
    Expression → Bool → List StackValueType → EffectAttributeStates →
      Except String (List StackValueType) × EffectAttributeStates
  | [], _, stack, states => (.ok stack, states)
  | _ :: rest, true, stack, states => validateLoop d rest false (.Integer :: stack) states
  | w :: rest, false, stack, states =>
      match d.keywordOf w with
      | .Int => validateLoop d rest true stack states
      | .ExpressionEnd => (.ok stack, states)
      | .Unlisted => (.ok stack, states)
      | kw =>
          match validateStep kw stack states with
          | (.error message, states1) => (.error message, states1)
          | (.ok stack1, states1) => validateLoop d rest false stack1 states1

/-- The function `ObjectBehavior::validateValueExpression`: the returned
`std::optional<std::string>` (`none` = accepted) and the `states` object after the call. -/
def validateValueExpression (d : Declarations) (type : StackValueType)
    (expression : Expression) (states : EffectAttributeStates) :
    Option String × EffectAttributeStates :=
  match validateLoop d expression false [] states with
  | (.error message, states1) => (some message, states1)
  | (.ok stack, states1) =>
      if frontIs stack type then (none, states1)
      else (some "Expression is invalid: stack is empty or returns wrong type", states1)

/-! ## The interpreter: `ObjectBehavior::computeValueExpression` -/

/-- The mutable snake state handed to a behaviour program (`ExecutionTarget`); the two
enumeration fields hold the numeric value of the enumerator, and the casts between the
enumerations and `std::uint32_t` keep that value. -/
structure ExecutionTarget where
  alive : Bool
  moving : Bool
  snakeAcceleration : Nat
  snakeDirection : Nat
  remembered : Nat
  deriving DecidableEq, Repr

/-- The requests `get(least, greatest)` made to a randomizer so far, newest first. -/
abbrev Draws := List (Nat × Nat)

/-- The injected `Randomizer` capability.  A randomizer is a stateful object with the single
method `get(least, greatest)`; it is represented by the function that maps the requests made
so far (newest first, the current one included) to the 64-bit value returned for the current
request. -/
abbrev Randomizer := Draws → Nat

/-- The read-only context of one invocation (`ExecutionArguments`). -/
structure ExecutionArguments where
  randomizer : Randomizer
  previousSnakeDirection : Nat
  parameter : Nat

/-- What the interpreter does where C++ leaves the behaviour undefined. -/
inductive Fault where
  /-- The functions `front()`, `pop_front()` or `erase_after(begin())` reach for an element the
  stack does not have. -/
  | emptyStack
  /-- The opcodes `IntLogicalLeftShift` and `IntLogicalRightShift` shift a 32-bit operand by
  32 bits or more: the word stored depends on the machine. -/
  | shiftCount
  /-- The subscript `operator[]` of a vector is applied past its end. -/
  | outOfRange
  deriving DecidableEq, Repr

/-- The conversion `static_cast<bool>(word)`. -/
def toBool (w : Nat) : Bool := decide (w ≠ 0)

/-- The conversion of a `bool` to a 32-bit word. -/
def ofBool (b : Bool) : Nat := if b then 1 else 0

/-- The loop `for (std::uint32_t i = 1; i; i <<= 1) if (word & i) ++howmany;`. -/
def countOfOnes (w : Nat) : Nat :=
  ((List.range 32).filter (fun k => decide (w &&& 2 ^ k ≠ 0))).length

/-- The call `(std::uint32_t)arguments.randomizer->get(least, greatest)`: the stored word and
the extended request log. -/
def draw (arguments : ExecutionArguments) (draws : Draws) (least greatest : Nat) : Nat × Draws :=
  (arguments.randomizer ((least, greatest) :: draws) % 2 ^ 32, (least, greatest) :: draws)

/-- A case that replaces `stack.front()` by a function of it. -/
def onFront (f : Nat → Nat) (stack : List Nat) (draws : Draws) :
    Except Fault (List Nat × Draws) :=
  match stack with
  | a :: rest => .ok (f a :: rest, draws)
  | [] => .error .emptyStack

/-- A case of the shape `x = stack.front(); stack.pop_front(); stack.front() = f(front, x);`:
`f below top` is stored. -/
def onTwo (f : Nat → Nat → Nat) (stack : List Nat) (draws : Draws) :
    Except Fault (List Nat × Draws) :=
  match stack with
  | top :: below :: rest => .ok (f below top :: rest, draws)
  | _ => .error .emptyStack

/-- One pass through the `switch` of `computeValueExpression` for an opcode other than `Int`,
`ExpressionEnd` and the default case.

In the two cyclic shifts the second shift has the count `32 - intmod`, which is 32 when
`intmod` is 0.  A machine either shifts every bit out (the word 0, as `below / 2 ^ 32` and
`(below * 2 ^ 32) % 2 ^ 32` are for a 32-bit `below`) or masks the count to five bits (the
operand itself); or-ed into the operand shifted by 0, both give the operand, so the word stored
does not depend on the machine.

In `Select`, `pop_front()` removes the nearer branch and `erase_after(begin())` the farther
one. -/
def computeStep (d : Declarations) (target : ExecutionTarget) (arguments : ExecutionArguments)
    (kw : ObjectBehaviorKeyword) (stack : List Nat) (draws : Draws) :
    Except Fault (List Nat × Draws) :=
  match kw with
  | .AccelerationDefault => .ok (d.accelerationDefault :: stack, draws)
  | .AccelerationDown => .ok (d.accelerationDown :: stack, draws)
  | .AccelerationUp => .ok (d.accelerationUp :: stack, draws)
  | .RandomAcceleration =>
      let r := draw arguments draws 0 ((d.accelerationCount + (2 ^ 64 - 1)) % 2 ^ 64)
      .ok (r.1 :: stack, r.2)
  | .RandomCombinedDirection =>
      let r := draw arguments draws 0 ((d.combinedTubeCount + (2 ^ 64 - 1)) % 2 ^ 64)
      .ok (r.1 :: stack, r.2)
  | .RandomDirection =>
      let r := draw arguments draws 0 ((d.directionCount + (2 ^ 64 - 1)) % 2 ^ 64)
      .ok (r.1 :: stack, r.2)
  | .RandomDoubleDirection =>
      let r := draw arguments draws 0 ((d.doubleDirectionCount + (2 ^ 64 - 1)) % 2 ^ 64)
      .ok (r.1 :: stack, r.2)
  | .IntRandomValue =>
      match stack with
      | a :: rest =>
          let r := draw arguments draws 0 a
          .ok (r.1 :: rest, r.2)
      | [] => .error .emptyStack
  | .RememberedInt => .ok (target.remembered :: stack, draws)
  | .Not => onFront (fun a => ofBool (!toBool a)) stack draws
  | .OppositeDirection => onFront d.oppositeDirection stack draws
  | .OppositeAcceleration => onFront d.oppositeAcceleration stack draws
  | .Or => onTwo (fun below top => ofBool (toBool top || toBool below)) stack draws
  | .And => onTwo (fun below top => ofBool (toBool top && toBool below)) stack draws
  | .Equal => onTwo (fun below top => ofBool (decide (below = top))) stack draws
  | .Select =>
      match stack with
      | selectFarther :: stack1 =>
          if toBool selectFarther then
            match stack1 with
            | _ :: stack2 => .ok (stack2, draws)
            | [] => .error .emptyStack
          else
            match stack1 with
            | nearer :: _ :: stack2 => .ok (nearer :: stack2, draws)
            | _ => .error .emptyStack
      | [] => .error .emptyStack
  | .IsDirExitOfDoubleDir =>
      onTwo (fun below top => d.directionIsExit below top) stack draws
  | .GetCombDirExit =>
      onTwo (fun below top => d.getCombinedTubeExit top below) stack draws
  | .SnakeAcceleration => .ok (target.snakeAcceleration :: stack, draws)
  | .SnakeDirection => .ok (target.snakeDirection :: stack, draws)
  | .PreviousSnakeDirection => .ok (arguments.previousSnakeDirection :: stack, draws)
  | .ParamAcceleration | .ParamDirection | .ParamDoubleDirection | .ParamCombinedDirection =>
      .ok (arguments.parameter :: stack, draws)
  | .IntAdd => onTwo (fun below top => (below + top) % 2 ^ 32) stack draws
  | .IntSubtract => onTwo (fun below top => (below + (2 ^ 32 - top)) % 2 ^ 32) stack draws
  | .IntAddOverflow =>
      onTwo (fun below top => ofBool (decide (2 ^ 32 - 1 - top < below))) stack draws
  | .IntBitAnd => onTwo (fun below top => below &&& top) stack draws
  | .IntBitNot => onFront (fun a => 2 ^ 32 - 1 - a) stack draws
  | .IntBitOr => onTwo (fun below top => below ||| top) stack draws
  | .IntBitXor => onTwo (fun below top => below ^^^ top) stack draws
  | .IntCountOfOnes => onFront countOfOnes stack draws
  | .IntCyclicLeftShift =>
      match stack with
      | top :: below :: rest =>
          let intmod := top % 32
          .ok (((below * 2 ^ intmod) % 2 ^ 32 ||| below / 2 ^ (32 - intmod)) :: rest, draws)
      | _ => .error .emptyStack
  | .IntCyclicRightShift =>
      match stack with
      | top :: below :: rest =>
          let intmod := top % 32
          .ok ((below / 2 ^ intmod ||| (below * 2 ^ (32 - intmod)) % 2 ^ 32) :: rest, draws)
      | _ => .error .emptyStack
  | .IntDivideAndFloor =>
      onTwo (fun below divisor => if divisor = 0 then 0 else below / divisor) stack draws
  | .IntLess => onTwo (fun below rightVal => ofBool (decide (below < rightVal))) stack draws
  | .IntLogicalLeftShift =>
      match stack with
      | top :: below :: rest =>
          if top ≥ 32 then .error .shiftCount
          else .ok ((below * 2 ^ top) % 2 ^ 32 :: rest, draws)
      | _ => .error .emptyStack
  | .IntLogicalRightShift =>
      match stack with
      | top :: below :: rest =>
          if top ≥ 32 then .error .shiftCount
          else .ok (below / 2 ^ top :: rest, draws)
      | _ => .error .emptyStack
  | .IntMinus => onFront (fun a => 2 ^ 32 - 1 - a) stack draws
  | .IntModulo =>
      onTwo (fun below divisor => if divisor = 0 then 0 else below % divisor) stack draws
  | .IntMultiply => onTwo (fun below top => (below * top) % 2 ^ 32) stack draws
  | .IntMultiplyOverflow =>
      onTwo (fun below top => ofBool (decide ((top * below) % 2 ^ 64 > 2 ^ 32 - 1))) stack draws
  | .Int | .ExpressionEnd | .Unlisted => .ok (stack, draws)

/-- The `while (again)` loop of `computeValueExpression`, on the words from `pointer` on, with
the current `isInteger` flag, stack and request log. -/
def computeLoop (d : Declarations) (target : ExecutionTarget) (arguments : ExecutionArguments) :
    Expression → Bool → List Nat → Draws → Except Fault (List Nat × Draws)
  | [], _, stack, draws => .ok (stack, draws)
  | w :: rest, true, stack, draws => computeLoop d target arguments rest false (w :: stack) draws
  | w :: rest, false, stack, draws =>
      match d.keywordOf w with
      | .Int => computeLoop d target arguments rest true stack draws
      | .ExpressionEnd => .ok (stack, draws)
      | .Unlisted => .ok (stack, draws)
      | kw =>
          match computeStep d target arguments kw stack draws with
          | .error fault => .error fault
          | .ok (stack1, draws1) => computeLoop d target arguments rest false stack1 draws1

/-- The function `ObjectBehavior::computeValueExpression`, started with the request log
`draws`: the returned word `stack.front()` and the request log after the call, or the fault. -/
def computeValueExpression (d : Declarations) (expression : Expression)
    (target : ExecutionTarget) (arguments : ExecutionArguments) (draws : Draws) :
    Except Fault (Nat × Draws) :=
  match computeLoop d target arguments expression false [] draws with
  | .error fault => .error fault
  | .ok ([], _) => .error .emptyStack
  | .ok (value :: _, draws1) => .ok (value, draws1)

/-! ## The Fenwick tree: `FenwickTree<Iter, ConstIter, Idx, Value>`

Instantiated as in `fwkCreate`: `Idx = std::ptrdiff_t`, `Value = std::uintmax_t`, the data a
`std::vector<std::uintmax_t>`.  Indices are non-negative throughout and are natural numbers
here; a read or write outside the vector, which C++ leaves undefined, makes the function return
`none`.  Loops whose trip count is not fixed in advance carry a fuel argument that bounds the
number of iterations; running out of fuel also gives `none`. -/

namespace FenwickTree

/-- The expression `i & (-i)` on a 64-bit two's complement `Idx` with `0 ≤ i`. -/
def lowBit (i : Nat) : Nat := i &&& ((2 ^ 64 - i) % 2 ^ 64)

/-- The function `getParent`. -/
def getParent (i : Nat) : Nat := i - lowBit i

/-- The function `getNext`. -/
def getNext (i : Nat) : Nat := i + lowBit i

/-- The loop `while (i != 0)` of `getSum`. -/
def getSumLoop (data : List Nat) : Nat → Nat → Nat → Option Nat
  | 0, i, sum => if i ≠ 0 then none else some sum
  | fuel + 1, i, sum =>
      if i ≠ 0 then
        match data[i]? with
        | none => none
        | some x => getSumLoop data fuel (getParent i) ((sum + x) % 2 ^ 64)
      else some sum

/-- The function `getSum`. -/
def getSum (data : List Nat) (i : Nat) : Option Nat :=
  match data[0]? with
  | none => none
  | some x => getSumLoop data (i + 1) i x

/-- The loop `while (i < size)` of `update`. -/
def updateLoop (v : Nat) : Nat → Nat → List Nat → Option (List Nat)
  | 0, i, data => if i < data.length then none else some data
  | fuel + 1, i, data =>
      if i < data.length then
        updateLoop v fuel (getNext i) (data.set i ((data.getD i 0 + v) % 2 ^ 64))
      else some data

/-- The function `update`. -/
def update (data : List Nat) (i : Nat) (v : Nat) : Option (List Nat) :=
  if i = 0 then
    match data with
    | [] => none
    | x :: rest => some ((x + v) % 2 ^ 64 :: rest)
  else updateLoop v data.length i data

/-- The loop `while (j > i)` of `rangeSum`; returns `j` and `sum` at its exit. -/
def rangeSumUpper (data : List Nat) (i : Nat) : Nat → Nat → Nat → Option (Nat × Nat)
  | 0, j, sum => if j > i then none else some (j, sum)
  | fuel + 1, j, sum =>
      if j > i then
        match data[j]? with
        | none => none
        | some x => rangeSumUpper data i fuel (getParent j) ((sum + x) % 2 ^ 64)
      else some (j, sum)

/-- The loop `while (i > j)` of `rangeSum`; returns `sum` at its exit. -/
def rangeSumLower (data : List Nat) (j : Nat) : Nat → Nat → Nat → Option Nat
  | 0, i, sum => if i > j then none else some sum
  | fuel + 1, i, sum =>
      if i > j then
        match data[i]? with
        | none => none
        | some x => rangeSumLower data j fuel (getParent i) ((sum + (2 ^ 64 - x)) % 2 ^ 64)
      else some sum

/-- The function `rangeSum`. -/
def rangeSum (data : List Nat) (i j : Nat) : Option Nat :=
  match rangeSumUpper data i (j + 1) j 0 with
  | none => none
  | some (j1, sum) => rangeSumLower data j1 (i + 1) i sum

/-- The body of the loop of `init` for one `i`. -/
def initStep (data : List Nat) (i : Nat) : List Nat :=
  let j := getNext i
  if j < data.length then data.set j ((data.getD j 0 + data.getD i 0) % 2 ^ 64) else data

/-- The function `init`: `for (Idx i = 1; i < size; ++i)`. -/
def init (data : List Nat) : List Nat :=
  (List.range' 1 (data.length - 1)).foldl initStep data

/-- The body of the loop of `fini` for one `i`. -/
def finiStep (data : List Nat) (i : Nat) : List Nat :=
  let j := getNext i
  if j < data.length then data.set j ((data.getD j 0 + (2 ^ 64 - data.getD i 0)) % 2 ^ 64)
  else data

/-- The function `fini`: `for (Idx i = size - 1; i > 0; --i)`. -/
def fini (data : List Nat) : List Nat :=
  (List.range' 1 (data.length - 1)).reverse.foldl finiStep data

/-- The function `get`. -/
def get (data : List Nat) (i : Nat) : Option Nat := rangeSum data i (i + 1)

/-- The function `set`. -/
def set (data : List Nat) (i : Nat) (value : Nat) : Option (List Nat) :=
  match get data i with
  | none => none
  | some old => update data i ((value + (2 ^ 64 - old)) % 2 ^ 64)

/-- The loop `for (; j > 0; j >>= 1)` of `rankQuery`. -/
def rankQueryLoop (data : List Nat) : Nat → Nat → Nat → Nat → Option Nat
  | 0, j, i, _ => if j > 0 then none else some i
  | fuel + 1, j, i, value =>
      if j > 0 then
        if i + j < data.length then
          if data.getD (i + j) 0 ≤ value then
            rankQueryLoop data fuel (j / 2) (i + j) (value - data.getD (i + j) 0)
          else rankQueryLoop data fuel (j / 2) i value
        else rankQueryLoop data fuel (j / 2) i value
      else some i

/-- The function `rankQuery`. -/
def rankQuery (data : List Nat) (value : Nat) : Option Nat :=
  match data with
  | [] => none
  | x :: _ => rankQueryLoop data data.length (data.length - 1) 0 ((value + (2 ^ 64 - x)) % 2 ^ 64)

end FenwickTree

/-! ## `fwkCreate` (BlockSnake.cpp) -/

/-- The loop `while (tval) { tval >>= 1; ++bitlog; }` of the lambda `realsize`; a 64-bit
`std::size_t` leaves the loop after at most 64 iterations. -/
def bitlogLoop : Nat → Nat → Nat → Nat
  | 0, _, bitlog => bitlog
  | fuel + 1, tval, bitlog => if tval ≠ 0 then bitlogLoop fuel (tval / 2) (bitlog + 1) else bitlog

/-- The lambda `realsize` of `fwkCreate`. -/
def realsize (val : Nat) : Nat :=
  let bitlog := bitlogLoop 64 (if val ≠ 0 then val - 1 else 0) 0
  1 + (if val ≠ 0 then 2 ^ bitlog else 0)

/-- The vector as `fwkCreate` leaves it just before the call of `init`: slot 0 is zero, slots
`1 .. sz` hold the values, the remaining slots up to `realsize(sz)` are zero-filled. -/
def fwkLayout (values : List Nat) : List Nat :=
  0 :: (values ++ List.replicate (realsize values.length - (values.length + 1)) 0)

/-- The function `fwkCreate`: the contents of `vec` on return. -/
def fwkCreate (values : List Nat) : List Nat :=
  FenwickTree.init (fwkLayout values)

/-! ## The compiler: `ObjectBehavior::compile` -/

/-- The parallel arrays handed to `compile` (`CompileParameters`).  An array is the function
from index to element; `condExpressions i` is the word sequence
`condExpressions[i][0 .. condExpressionSizes[i])`, and likewise for `modifyExpressions`. -/
structure CompileParameters where
  conditionCount : Nat
  condExpressions : Nat → Expression
  commands : Nat → ObjectCommand
  modifyExpressions : Nat → Expression

/-- The bits of `m_properties` that `compile` writes, named after their `ObjectProperty`
index. -/
structure Properties where
  ImpactsToSnake : Bool
  IsDangerous : Bool
  RequiresRandom : Bool
  deriving DecidableEq, Repr

/-- The data members of an `ObjectBehavior`. -/
structure ObjectBehavior where
  m_properties : Properties
  m_parameterType : ObjectParameterType
  m_commands : List ObjectCommand
  m_conditionExpressions : List Expression
  m_modifyExpressions : List Expression
  deriving DecidableEq, Repr

/-- The default constructor `ObjectBehavior::ObjectBehavior()`. -/
def ObjectBehavior.default : ObjectBehavior :=
  { m_properties := { ImpactsToSnake := false, IsDangerous := false, RequiresRandom := false },
    m_parameterType := .NoParameter, m_commands := [], m_conditionExpressions := [],
    m_modifyExpressions := [] }

/-- The first loop of `compile` over the indices still to visit: every condition is validated
against `StackValueType::Integer`; the first log is returned. -/
def compileConditions (d : Declarations) (parameters : CompileParameters) :
    List Nat → EffectAttributeStates → Option String × EffectAttributeStates
  | [], states => (none, states)
  | i :: rest, states =>
      match validateValueExpression d .Integer (parameters.condExpressions i) states with
      | (some log, states1) => (some log, states1)
      | (none, states1) => compileConditions d parameters rest states1

/-- The `switch` that picks `checkType` in the second loop of `compile`.  The value-initialised
`StackValueType checkType{}` of the `default:` label is never used: the switch is entered only
for the three commands that have a label. -/
def checkTypeOf (command : ObjectCommand) : StackValueType :=
  match command with
  | .ModifyAcceleration => .Acceleration
  | .ModifyDirection => .Direction
  | .Remember => .Integer
  | _ => .Integer

/-- The second loop of `compile` over the indices still to visit, with the current `states`,
`impacts` and `dangerous`. -/
def compileCommands (d : Declarations) (parameters : CompileParameters) :
    List Nat → EffectAttributeStates → Bool → Bool →
      Option String × EffectAttributeStates × Bool × Bool
  | [], states, impacts, dangerous => (none, states, impacts, dangerous)
  | i :: rest, states, impacts, dangerous =>
      let currentCommandModifies : Bool :=
        parameters.commands i == .ModifyAcceleration || parameters.commands i == .ModifyDirection
      let checked : Option String × EffectAttributeStates :=
        if currentCommandModifies || parameters.commands i == .Remember then
          validateValueExpression d (checkTypeOf (parameters.commands i))
            (parameters.modifyExpressions i) states
        else (none, states)
      match checked with
      | (some log, states1) => (some log, states1, impacts, dangerous)
      | (none, states1) =>
          compileCommands d parameters rest states1
            (if currentCommandModifies || parameters.commands i == .StopSnake then true
              else impacts)
            (if parameters.commands i == .KillSnake then true else dangerous)

/-- The function `ObjectBehavior::compile`: the returned log (`none` = success) and the object
after the call. -/
def compile (d : Declarations) (self : ObjectBehavior) (parameters : CompileParameters) :
    Option String × ObjectBehavior :=
  match compileConditions d parameters (List.range parameters.conditionCount) .initial with
  | (some log, _) => (some log, self)
  | (none, states) =>
      match compileCommands d parameters (List.range (parameters.conditionCount + 1))
          states false false with
      | (some log, _) => (some log, self)
      | (none, states1, impacts, dangerous) =>
          (none,
            { m_properties :=
                { ImpactsToSnake := impacts, IsDangerous := dangerous,
                  RequiresRandom := states1.requiresRandom },
              m_parameterType := states1.paramType,
              m_commands := (List.range (parameters.conditionCount + 1)).map parameters.commands,
              m_conditionExpressions :=
                (List.range parameters.conditionCount).map parameters.condExpressions,
              m_modifyExpressions :=
                (List.range (parameters.conditionCount + 1)).map parameters.modifyExpressions })

/-- The functions `getParameterType` and `getProperty`. -/
def getParameterType (self : ObjectBehavior) : ObjectParameterType := self.m_parameterType

/-! ## The interpreter: `ObjectBehavior::activate` -/

/-- The loop `while (commandIndex < m_conditionExpressions.size())` of `activate`, on the
conditions from `commandIndex` on: the value of `commandIndex` (and the request log) at the
exit of the loop. -/
def selectCommandIndex (d : Declarations) (target : ExecutionTarget)
    (arguments : ExecutionArguments) : List Expression → Nat → Draws → Except Fault (Nat × Draws)
  | [], commandIndex, draws => .ok (commandIndex, draws)
  | currentExpression :: rest, commandIndex, draws =>
      match computeValueExpression d currentExpression target arguments draws with
      | .error fault => .error fault
      | .ok (value, draws1) =>
          if toBool value then .ok (commandIndex, draws1)
          else selectCommandIndex d target arguments rest (commandIndex + 1) draws1

/-- The `switch (m_commands[commandIndex])` of `activate`. -/
def applyCommand (d : Declarations) (command : ObjectCommand)
    (activeModifyExpression : Expression) (target : ExecutionTarget)
    (arguments : ExecutionArguments) (draws : Draws) : Except Fault (ExecutionTarget × Draws) :=
  match command with
  | .KillSnake => .ok ({ target with alive := false }, draws)
  | .StopSnake => .ok ({ target with moving := false }, draws)
  | .ModifyAcceleration =>
      match computeValueExpression d activeModifyExpression target arguments draws with
      | .error fault => .error fault
      | .ok (value, draws1) => .ok ({ target with snakeAcceleration := value }, draws1)
  | .ModifyDirection =>
      match computeValueExpression d activeModifyExpression target arguments draws with
      | .error fault => .error fault
      | .ok (value, draws1) => .ok ({ target with snakeDirection := value }, draws1)
  | .Remember =>
      match computeValueExpression d activeModifyExpression target arguments draws with
      | .error fault => .error fault
      | .ok (value, draws1) => .ok ({ target with remembered := value }, draws1)
  | .NoOp => .ok (target, draws)

/-- The function `ObjectBehavior::activate`, started with the request log `draws`: the target
and the request log after the call, or the fault. -/
def activate (d : Declarations) (self : ObjectBehavior) (target : ExecutionTarget)
    (arguments : ExecutionArguments) (draws : Draws) : Except Fault (ExecutionTarget × Draws) :=
  if self.m_commands.isEmpty then .ok (target, draws)
  else
    match selectCommandIndex d target arguments self.m_conditionExpressions 0 draws with
    | .error fault => .error fault
    | .ok (commandIndex, draws1) =>
        if commandIndex ≥ self.m_commands.length then .ok (target, draws1)
        else
          match self.m_modifyExpressions[commandIndex]? with
          | none => .error .outOfRange
          | some activeModifyExpression =>
              applyCommand d (self.m_commands.getD commandIndex .NoOp) activeModifyExpression
                target arguments draws1

/-! ## Specification-level notions used to state the properties -/

/-- Whether a command has its modify-expression validated. -/
def commandIsValidated (command : ObjectCommand) : Bool :=
  match command with
  | .ModifyAcceleration | .ModifyDirection | .Remember => true
  | _ => false

/-- The kind a validated command expects of its modify-expression: Acceleration for
ModifyAcceleration, Direction for ModifyDirection, Integer for Remember. -/
def expectedKind (command : ObjectCommand) : Option StackValueType :=
  match command with
  | .ModifyAcceleration => some .Acceleration
  | .ModifyDirection => some .Direction
  | .Remember => some .Integer
  | _ => none

/-- The validated expressions of a program in checking order, each with its expected kind: the
`conditionCount` conditions (Integer), then the modify-expressions of the command slots
`0 .. conditionCount` whose command is ModifyAcceleration, ModifyDirection or Remember. -/
def validatedExpressions (parameters : CompileParameters) :
    List (StackValueType × Expression) :=
  (List.range parameters.conditionCount).map
      (fun i => (StackValueType.Integer, parameters.condExpressions i)) ++
    (List.range (parameters.conditionCount + 1)).filterMap
      (fun i => (expectedKind (parameters.commands i)).map
        (fun kind => (kind, parameters.modifyExpressions i)))

/-- Validation of a list of expressions in order with one shared `EffectAttributeStates`:
the message of the first rejected expression, if any, and the states at that point. -/
def validateAll (d : Declarations) :
    List (StackValueType × Expression) → EffectAttributeStates →
      Option String × EffectAttributeStates
  | [], states => (none, states)
  | (kind, expression) :: rest, states =>
      match validateValueExpression d kind expression states with
      | (some log, states1) => (some log, states1)
      | (none, states1) => validateAll d rest states1

/-- Every expression of the list is accepted for its expected kind, each validated with the
`EffectAttributeStates` left by the one before it. -/
def AllAccepted (d : Declarations) :
    List (StackValueType × Expression) → EffectAttributeStates → Prop
  | [], _ => True
  | (kind, expression) :: rest, states =>
      (validateValueExpression d kind expression states).1 = none ∧
        AllAccepted d rest (validateValueExpression d kind expression states).2

/-- Whether a command sets `impacts`. -/
def commandImpacts (command : ObjectCommand) : Bool :=
  command == .ModifyAcceleration || command == .ModifyDirection || command == .StopSnake

/-- The object `compile` stores on success, given the final `states`. -/
def compiledObject (parameters : CompileParameters) (states : EffectAttributeStates) :
    ObjectBehavior :=
  { m_properties :=
      { ImpactsToSnake := (List.range (parameters.conditionCount + 1)).any
          (fun i => commandImpacts (parameters.commands i)),
        IsDangerous := (List.range (parameters.conditionCount + 1)).any
          (fun i => parameters.commands i == .KillSnake),
        RequiresRandom := states.requiresRandom },
    m_parameterType := states.paramType,
    m_commands := (List.range (parameters.conditionCount + 1)).map parameters.commands,
    m_conditionExpressions :=
      (List.range parameters.conditionCount).map parameters.condExpressions,
    m_modifyExpressions :=
      (List.range (parameters.conditionCount + 1)).map parameters.modifyExpressions }

/-- Every condition of the list evaluates, in order and on a shared request log, to zero;
the result is the request log after the last of them. -/
def conditionsAllZero (d : Declarations) (target : ExecutionTarget)
    (arguments : ExecutionArguments) : List Expression → Draws → Option Draws
  | [], draws => some draws
  | expression :: rest, draws =>
      match computeValueExpression d expression target arguments draws with
      | .ok (value, draws1) =>
          if value = 0 then conditionsAllZero d target arguments rest draws1 else none
      | .error _ => none

/-- The objects reachable from default construction by a sequence of `compile` calls,
successful or failed. -/
inductive Reachable (d : Declarations) : ObjectBehavior → Prop where
  | default : Reachable d ObjectBehavior.default
  | compile (self : ObjectBehavior) (parameters : CompileParameters) :
      Reachable d self → Reachable d (compile d self parameters).2

/-- The binary opcodes whose two operands must be Integer. -/
def isBinaryIntegerOpcode (kw : ObjectBehaviorKeyword) : Bool :=
  match kw with
  | .Or | .And | .IntAdd | .IntAddOverflow | .IntBitAnd | .IntBitOr | .IntBitXor
  | .IntCyclicLeftShift | .IntCyclicRightShift | .IntDivideAndFloor | .IntLogicalLeftShift
  | .IntLogicalRightShift | .IntModulo | .IntMultiply | .IntMultiplyOverflow | .IntSubtract
  | .IntLess => true
  | _ => false

/-- The opcodes at the scanned opcode positions of an expression: the words before the first
`ExpressionEnd` (or unlisted word) that do not follow an `Int` opcode as its literal. -/
def scannedOpcodes (d : Declarations) : Expression → Bool → List ObjectBehaviorKeyword
  | [], _ => []
  | _ :: rest, true => scannedOpcodes d rest false
  | w :: rest, false =>
      match d.keywordOf w with
      | .Int => .Int :: scannedOpcodes d rest true
      | .ExpressionEnd => []
      | .Unlisted => []
      | kw => kw :: scannedOpcodes d rest false

/-- All opcodes scanned in the validated expressions of a program, in scan order. -/
def programOpcodes (d : Declarations) (parameters : CompileParameters) :
    List ObjectBehaviorKeyword :=
  (validatedExpressions parameters).flatMap (fun e => scannedOpcodes d e.2 false)

/-- The parameter kind named by a `ParamX` opcode. -/
def paramKindOf (kw : ObjectBehaviorKeyword) : Option ObjectParameterType :=
  match kw with
  | .ParamAcceleration => some .Acceleration
  | .ParamDirection => some .Direction
  | .ParamDoubleDirection => some .DoubleDirection
  | .ParamCombinedDirection => some .CombinedDirection
  | _ => none

/-- The random-generator opcodes. -/
def isRandomOpcode (kw : ObjectBehaviorKeyword) : Bool :=
  match kw with
  | .RandomAcceleration | .RandomDirection | .RandomDoubleDirection
  | .RandomCombinedDirection | .IntRandomValue => true
  | _ => false

/-- The four "Parameter corruption" messages of the validator. -/
def isParameterCorruption (message : String) : Bool :=
  message == "Parameter corruption (acceleration)" ||
  message == "Parameter corruption (direction)" ||
  message == "Parameter corruption (double direction)" ||
  message == "Parameter corruption (combined direction)"

/-- A parameter-kind conflict: somewhere in the list an opcode `ParamX` of one kind is followed
(not necessarily immediately) by a `ParamX` opcode of a different kind. -/
def HasParamConflict (opcodes : List ObjectBehaviorKeyword) : Prop :=
  ∃ (before between after : List ObjectBehaviorKeyword) (kw1 kw2 : ObjectBehaviorKeyword)
    (k1 k2 : ObjectParameterType),
    opcodes = before ++ kw1 :: (between ++ kw2 :: after) ∧
    paramKindOf kw1 = some k1 ∧ paramKindOf kw2 = some k2 ∧ k1 ≠ k2

/-- How a run of accepted validator steps over the opcodes `scanned` relates the
`EffectAttributeStates` before and after it. -/
def StatesAfter (scanned : List ObjectBehaviorKeyword)
    (before after : EffectAttributeStates) : Prop :=
  after.requiresRandom = (before.requiresRandom || scanned.any isRandomOpcode) ∧
  (∀ kw ∈ scanned, ∀ k, paramKindOf kw = some k → after.paramType = k) ∧
  ((∀ kw ∈ scanned, paramKindOf kw = none) → after.paramType = before.paramType) ∧
  (before.paramType = .NoParameter ∨ after.paramType = before.paramType)


/-- Whether the scan of `words` runs through to their end: `some isInteger` with the flag the
loop holds there, `none` when the scan stops inside `words` (at `ExpressionEnd` or an unlisted
word). -/
def scanReaches (d : Declarations) : Expression → Bool → Option Bool
  | [], isInteger => some isInteger
  | _ :: rest, true => scanReaches d rest false
  | w :: rest, false =>
      match d.keywordOf w with
      | .Int => scanReaches d rest true
      | .ExpressionEnd => none
      | .Unlisted => none
      | _ => scanReaches d rest false

/-! ## A concrete set of declarations, used to evaluate the definitions -/

/-- Modelled from the spec: a concrete numbering of the opcodes (the enumeration is absent
from the sources; the numbering follows the order of the constructors above), used only to
evaluate the embedding on concrete programs. -/
def demoKeywordOf : Nat → ObjectBehaviorKeyword
  | 0 => .AccelerationDefault | 1 => .AccelerationDown | 2 => .AccelerationUp
  | 3 => .RandomAcceleration | 4 => .RandomCombinedDirection | 5 => .RandomDirection
  | 6 => .RandomDoubleDirection | 7 => .IntRandomValue | 8 => .RememberedInt | 9 => .Not
  | 10 => .OppositeDirection | 11 => .OppositeAcceleration | 12 => .Or | 13 => .And
  | 14 => .Equal | 15 => .Select | 16 => .IsDirExitOfDoubleDir | 17 => .GetCombDirExit
  | 18 => .SnakeAcceleration | 19 => .SnakeDirection | 20 => .PreviousSnakeDirection
  | 21 => .ParamAcceleration | 22 => .ParamDirection | 23 => .ParamDoubleDirection
  | 24 => .ParamCombinedDirection | 25 => .Int | 26 => .IntAdd | 27 => .IntSubtract
  | 28 => .IntAddOverflow | 29 => .IntBitAnd | 30 => .IntBitNot | 31 => .IntBitOr
  | 32 => .IntBitXor | 33 => .IntCountOfOnes | 34 => .IntCyclicLeftShift
  | 35 => .IntCyclicRightShift | 36 => .IntDivideAndFloor | 37 => .IntLess
  | 38 => .IntLogicalLeftShift | 39 => .IntLogicalRightShift | 40 => .IntMinus
  | 41 => .IntModulo | 42 => .IntMultiply | 43 => .IntMultiplyOverflow | 44 => .ExpressionEnd
  | _ => .Unlisted

/-- Modelled from the spec: concrete values for the absent declarations (three accelerations,
four directions numbered clockwise with the opposite two steps away), used only to evaluate
the embedding on concrete programs. -/
def demoDeclarations : Declarations where
  keywordOf := demoKeywordOf
  accelerationDefault := 0
  accelerationDown := 1
  accelerationUp := 2
  accelerationCount := 3
  combinedTubeCount := 4
  directionCount := 4
  doubleDirectionCount := 2
  oppositeDirection := fun w => (w + 2) % 4
  oppositeAcceleration := fun w => if w = 1 then 2 else if w = 2 then 1 else 0
  directionIsExit := fun dd dir => if dir % 2 = dd % 2 then 1 else 0
  getCombinedTubeExit := fun cd dir => (dir + cd + 1) % 4

/-- A target used to evaluate the embedding. -/
def demoTarget : ExecutionTarget :=
  { alive := true, moving := true, snakeAcceleration := 0, snakeDirection := 2, remembered := 7 }

/-- Arguments used to evaluate the embedding: the randomizer answers every request with its
lower bound. -/
def demoArguments : ExecutionArguments :=
  { randomizer := fun draws => (draws.headD (0, 0)).1, previousSnakeDirection := 1,
    parameter := 3 }

/-- The program of concrete scenario 1: the condition `[SnakeDirection, Int, 2, Equal]`, the
commands `[ModifyAcceleration, NoOp]` and the modify-expression `[AccelerationUp]`. -/
def scenarioOneParameters : CompileParameters :=
  { conditionCount := 1
    condExpressions := fun _ => [19, 25, 2, 14]
    commands := fun i => if i = 0 then .ModifyAcceleration else .NoOp
    modifyExpressions := fun i => if i = 0 then [2] else [] }

/-- The program of concrete scenario 3: no condition, the only command is `KillSnake`. -/
def killParameters : CompileParameters :=
  { conditionCount := 0
    condExpressions := fun _ => []
    commands := fun _ => .KillSnake
    modifyExpressions := fun _ => [] }

/-- The object compiled from the program of concrete scenario 3. -/
def killCompiled : ObjectBehavior :=
  { m_properties := { ImpactsToSnake := false, IsDangerous := true, RequiresRandom := false },
    m_parameterType := .NoParameter, m_commands := [.KillSnake],
    m_conditionExpressions := [], m_modifyExpressions := [[]] }

/-- A program whose expressions use `ParamDirection` and `RandomDirection`: the condition
`[ParamDirection, RandomDirection, Equal]`, the commands `[ModifyDirection, NoOp]` and the
modify-expression `[ParamDirection]`. -/
def parameterProgram : CompileParameters :=
  { conditionCount := 1
    condExpressions := fun _ => [22, 5, 14]
    commands := fun i => if i = 0 then .ModifyDirection else .NoOp
    modifyExpressions := fun i => if i = 0 then [22] else [] }

/-- The object compiled from `parameterProgram`. -/
def parameterProgramCompiled : ObjectBehavior :=
  { m_properties := { ImpactsToSnake := true, IsDangerous := false, RequiresRandom := true },
    m_parameterType := .Direction, m_commands := [.ModifyDirection, .NoOp],
    m_conditionExpressions := [[22, 5, 14]], m_modifyExpressions := [[22], []] }

/-- A program with a parameter-kind conflict behind a kind error: no condition, the command
`Remember` with the modify-expression `[ParamAcceleration, Not, ParamDirection]`. -/
def conflictBehindError : CompileParameters :=
  { conditionCount := 0
    condExpressions := fun _ => []
    commands := fun _ => .Remember
    modifyExpressions := fun _ => [21, 9, 22] }

/-- A program with a parameter-kind conflict across two expressions: the condition
`[ParamDirection, SnakeDirection, Equal]`, the commands `[ModifyAcceleration, NoOp]` and the
modify-expression `[ParamAcceleration]`. -/
def conflictAcross : CompileParameters :=
  { conditionCount := 1
    condExpressions := fun _ => [22, 19, 14]
    commands := fun i => if i = 0 then .ModifyAcceleration else .NoOp
    modifyExpressions := fun i => if i = 0 then [21] else [] }

/-- A program with two conditions, `[Int, 0]` and `[Int, 1]`, the commands
`[KillSnake, ModifyAcceleration, StopSnake]` and the modify-expression `[AccelerationUp]` for
the second command. -/
def branchProgram : CompileParameters :=
  { conditionCount := 2
    condExpressions := fun i => if i = 0 then [25, 0] else [25, 1]
    commands := fun i =>
      if i = 0 then .KillSnake else if i = 1 then .ModifyAcceleration else .StopSnake
    modifyExpressions := fun i => if i = 1 then [2] else [] }

/-- The object compiled from `branchProgram`. -/
def branchProgramCompiled : ObjectBehavior :=
  { m_properties := { ImpactsToSnake := true, IsDangerous := true, RequiresRandom := false },
    m_parameterType := .NoParameter,
    m_commands := [.KillSnake, .ModifyAcceleration, .StopSnake],
    m_conditionExpressions := [[25, 0], [25, 1]], m_modifyExpressions := [[], [2], []] }

/-- An object that holds the program of concrete scenario 1 (no `compile` call produces it:
the validator rejects the condition). -/
def scenarioOneStored : ObjectBehavior :=
  { m_properties := { ImpactsToSnake := true, IsDangerous := false, RequiresRandom := false },
    m_parameterType := .NoParameter, m_commands := [.ModifyAcceleration, .NoOp],
    m_conditionExpressions := [[19, 25, 2, 14]], m_modifyExpressions := [[2], []] }

/-! ## Notions used in the proofs about the Fenwick tree -/

namespace FenwickTree

/-- Sum of slots `1 .. k` of a vector, as a 64-bit word. -/
def slotSum (orig : List Nat) (k : Nat) : ZMod (2 ^ 64) :=
  ∑ m in Finset.range k, ((orig.getD (m + 1) 0 : Nat) : ZMod (2 ^ 64))

/-- What node `j` of the tree built from `orig` holds: the slots after the parent of `j` up to
`j`. -/
def nodeVal (orig : List Nat) (j : Nat) : ZMod (2 ^ 64) :=
  slotSum orig j - slotSum orig (getParent j)

/-- The tree built by `init` from the vector `orig`: same length, every entry a 64-bit word,
and node `j ≥ 1` holds `nodeVal orig j`. -/
def IsTree (orig tree : List Nat) : Prop :=
  tree.length = orig.length ∧
  (∀ j, j < tree.length → tree.getD j 0 < 2 ^ 64) ∧
  ∀ j, 0 < j → j < tree.length → ((tree.getD j 0 : Nat) : ZMod (2 ^ 64)) = nodeVal orig j

end FenwickTree

/-- The shape of the three stored vectors: all empty, or one command and one modify-expression
more than there are conditions. -/
def StoredShape (self : ObjectBehavior) : Prop :=
  (self.m_commands = [] ∧ self.m_conditionExpressions = []) ∨
    (self.m_commands.length = self.m_conditionExpressions.length + 1 ∧
      self.m_modifyExpressions.length = self.m_conditionExpressions.length + 1)

/-! ## Validator soundness -/

theorem step_sound (d : Declarations) (target : ExecutionTarget) (arguments : ExecutionArguments)
    (kw : ObjectBehaviorKeyword) (kinds kinds1 : List StackValueType)
    (states states1 : EffectAttributeStates) (stack : List Nat) (draws : Draws)
    (hlen : stack.length = kinds.length)
    (hv : validateStep kw kinds states = (.ok kinds1, states1)) :
    computeStep d target arguments kw stack draws = .error .shiftCount ∨
      ∃ stack1 draws1, computeStep d target arguments kw stack draws = .ok (stack1, draws1) ∧
        stack1.length = kinds1.length := by
  rcases kinds with _ | ⟨k1, _ | ⟨k2, _ | ⟨k3, kinds⟩⟩⟩ <;>
  rcases stack with _ | ⟨s1, _ | ⟨s2, _ | ⟨s3, stack⟩⟩⟩ <;>
  simp at hlen <;>
  cases kw <;>
  simp [validateStep, validateIntBinary, validateIntTop, validateParam, frontIs] at hv <;>
  (try split_ifs at hv) <;>
  (try simp at hv) <;>
  (try (obtain ⟨rfl, rfl⟩ := hv)) <;>
  simp [computeStep, onFront, onTwo, draw] <;>
  (try split_ifs) <;>
  (try simp_all)


theorem validateLoop_cons_false (d : Declarations) (w : Nat) (rest : Expression)
    (kinds : List StackValueType) (states : EffectAttributeStates) :
    validateLoop d (w :: rest) false kinds states =
      if d.keywordOf w = .Int then validateLoop d rest true kinds states
      else if d.keywordOf w = .ExpressionEnd ∨ d.keywordOf w = .Unlisted then (.ok kinds, states)
      else
        match validateStep (d.keywordOf w) kinds states with
        | (.error message, states1) => (.error message, states1)
        | (.ok kinds1, states1) => validateLoop d rest false kinds1 states1 := by
  cases h : d.keywordOf w <;> simp [validateLoop, h]

theorem computeLoop_cons_false (d : Declarations) (target : ExecutionTarget)
    (arguments : ExecutionArguments) (w : Nat) (rest : Expression)
    (stack : List Nat) (draws : Draws) :
    computeLoop d target arguments (w :: rest) false stack draws =
      if d.keywordOf w = .Int then computeLoop d target arguments rest true stack draws
      else if d.keywordOf w = .ExpressionEnd ∨ d.keywordOf w = .Unlisted then .ok (stack, draws)
      else
        match computeStep d target arguments (d.keywordOf w) stack draws with
        | .error fault => .error fault
        | .ok (stack1, draws1) => computeLoop d target arguments rest false stack1 draws1 := by
  cases h : d.keywordOf w <;> simp [computeLoop, h]

theorem loop_sound (d : Declarations) (target : ExecutionTarget) (arguments : ExecutionArguments)
    (expression : Expression) :
    ∀ (isInteger : Bool) (kinds kindsF : List StackValueType)
      (states statesF : EffectAttributeStates) (stack : List Nat) (draws : Draws),
      stack.length = kinds.length →
      validateLoop d expression isInteger kinds states = (.ok kindsF, statesF) →
      computeLoop d target arguments expression isInteger stack draws = .error .shiftCount ∨
        ∃ stackF drawsF,
          computeLoop d target arguments expression isInteger stack draws = .ok (stackF, drawsF) ∧
          stackF.length = kindsF.length := by
  induction expression with
  | nil =>
      intro isInteger kinds kindsF states statesF stack draws hlen hv
      simp [validateLoop] at hv
      simp [computeLoop, ← hv.1, hlen]
  | cons w rest ih =>
      intro isInteger kinds kindsF states statesF stack draws hlen hv
      cases isInteger with
      | true =>
          simp only [validateLoop] at hv
          simp only [computeLoop]
          exact ih false _ _ _ _ _ _ (by simp [hlen]) hv
      | false =>
          rw [validateLoop_cons_false] at hv
          rw [computeLoop_cons_false]
          by_cases h1 : d.keywordOf w = .Int
          · simp only [h1, if_true] at hv ⊢
            exact ih true _ _ _ _ _ _ hlen hv
          · simp only [h1, if_false] at hv ⊢
            by_cases h2 : d.keywordOf w = .ExpressionEnd ∨ d.keywordOf w = .Unlisted
            · simp only [h2, if_true] at hv ⊢
              simp at hv
              simp [← hv.1, hlen]
            · simp only [h2, if_false] at hv ⊢
              rcases hs : validateStep (d.keywordOf w) kinds states with ⟨_ | kinds1, states1⟩
              · simp [hs] at hv
              · simp only [hs] at hv
                rcases step_sound d target arguments _ _ _ _ _ stack draws hlen hs with
                  hc | ⟨stack1, draws1, hc, hlen1⟩
                · left; simp [hc]
                · simp only [hc]
                  exact ih false _ _ _ _ _ _ hlen1 hv

/-- C1 (validator soundness).  If `validateValueExpression` accepts an expression for some
expected kind, then `computeValueExpression` on the same words, with any randomizer, target,
arguments and request log, never reaches for an element of an empty stack: no step reads or
pops an empty stack and the stack is non-empty when the top value is returned.  (The only other
way the interpreter can leave defined behaviour is a logical shift by 32 bits or more.) -/
theorem validator_soundness (d : Declarations) (type : StackValueType)
    (expression : Expression) (states : EffectAttributeStates) (target : ExecutionTarget)
    (arguments : ExecutionArguments) (draws : Draws)
    (h : (validateValueExpression d type expression states).1 = none) :
    (∃ value draws1,
        computeValueExpression d expression target arguments draws = .ok (value, draws1)) ∨
      computeValueExpression d expression target arguments draws = .error .shiftCount := by
  unfold validateValueExpression at h
  rcases hv : validateLoop d expression false [] states with ⟨_ | kindsF, statesF⟩
  · simp [hv] at h
  · simp only [hv] at h
    have hfront : frontIs kindsF type = true := by
      by_contra hf
      simp [hf] at h
    rcases loop_sound d target arguments expression false [] kindsF states statesF [] draws rfl hv
      with hc | ⟨stackF, drawsF, hc, hlen⟩
    · simp [computeValueExpression, hc]
    · rcases stackF with _ | ⟨v, stackF⟩
      · rcases kindsF with _ | ⟨k, kindsF⟩
        · simp [frontIs] at hfront
        · simp at hlen
      · simp [computeValueExpression, hc]


theorem validator_soundness_witness :
    (validateValueExpression demoDeclarations .Integer [25, 2, 25, 3, 26] .initial).1 = none ∧
      ((∃ value draws1,
          computeValueExpression demoDeclarations [25, 2, 25, 3, 26] demoTarget demoArguments
            [] = .ok (value, draws1)) ∨
        computeValueExpression demoDeclarations [25, 2, 25, 3, 26] demoTarget demoArguments [] =
          .error .shiftCount) ∧
      computeValueExpression demoDeclarations [25, 2, 25, 3, 26] demoTarget demoArguments [] =
        .ok (5, []) :=
  ⟨by decide,
    validator_soundness demoDeclarations .Integer [25, 2, 25, 3, 26] .initial demoTarget
      demoArguments [] (by decide),
    by decide⟩

/-! ## The Fenwick tree: index arithmetic -/

namespace FenwickTree

theorem lowBit_eq_and_pred (i : Nat) (h0 : 0 < i) (h : i < 2 ^ 64) :
    lowBit i = i &&& (2 ^ 64 - ((i - 1) + 1)) := by
  unfold lowBit
  have : i - 1 + 1 = i := by omega
  rw [this, Nat.mod_eq_of_lt (by omega)]

theorem lowBit_two_pow_mul_odd (t m : Nat) (h : 2 ^ t * (2 * m + 1) < 2 ^ 64) :
    lowBit (2 ^ t * (2 * m + 1)) = 2 ^ t := by
  have hpos : 0 < 2 ^ t * (2 * m + 1) := by positivity
  have ht : t < 64 := by
    have h1 : 2 ^ t ≤ 2 ^ t * (2 * m + 1) := Nat.le_mul_of_pos_right _ (by omega)
    exact (Nat.pow_lt_pow_iff_right (by norm_num)).1 (lt_of_le_of_lt h1 h)
  rw [lowBit_eq_and_pred _ hpos h]
  have hpred : 2 ^ t * (2 * m + 1) - 1 = 2 ^ t * (2 * m) + (2 ^ t - 1) := by
    have : 0 < 2 ^ t := by positivity
    have e : 2 ^ t * (2 * m + 1) = 2 ^ t * (2 * m) + 2 ^ t := by ring
    omega
  have hlt : 2 ^ t * (2 * m + 1) - 1 < 2 ^ 64 := by omega
  apply Nat.eq_of_testBit_eq
  intro b
  rw [Nat.testBit_and, Nat.testBit_two_pow_sub_succ hlt, hpred,
    Nat.testBit_mul_pow_two_add _ (by have : 0 < 2 ^ t := by positivity
                                      omega),
    Nat.testBit_two_pow]
  have e : 2 ^ t * (2 * m + 1) = 2 ^ t * (2 * m + 1) + 0 := by ring
  rw [e, Nat.testBit_mul_pow_two_add _ (by positivity)]
  rcases lt_trichotomy b t with hb | hb | hb
  · simp [hb, Nat.ne_of_gt hb]
  · subst hb
    simp [ht]
    omega
  · have h1 : ¬ b < t := by omega
    have h2 : t ≠ b := by omega
    obtain ⟨k, hk⟩ : ∃ k, b - t = k + 1 := ⟨b - t - 1, by omega⟩
    simp only [h1, if_false, hk, Nat.testBit_succ, h2, decide_False]
    have e1 : (2 * m + 1) / 2 = m := by omega
    have e2 : 2 * m / 2 = m := by omega
    rw [e1, e2]
    cases Nat.testBit m k <;> simp

theorem exists_two_pow_mul_odd (i : Nat) (h : 0 < i) : ∃ t m, i = 2 ^ t * (2 * m + 1) := by
  obtain ⟨k, m, hm, rfl⟩ := Nat.exists_eq_two_pow_mul_odd (Nat.pos_iff_ne_zero.1 h)
  obtain ⟨r, rfl⟩ := hm
  exact ⟨k, r, rfl⟩

theorem lowBit_pos (i : Nat) (h0 : 0 < i) (h : i < 2 ^ 64) : 0 < lowBit i := by
  obtain ⟨t, m, rfl⟩ := exists_two_pow_mul_odd i h0
  rw [lowBit_two_pow_mul_odd t m h]
  positivity

theorem lowBit_le (i : Nat) : lowBit i ≤ i := Nat.and_le_left

/-- Index `j - 2 ^ s` with `s < t` is a child of `j = 2 ^ t * (2 * m + 1)`. -/
theorem child_decomp (t m s : Nat) (hs : s < t) :
    2 ^ t * (2 * m + 1) - 2 ^ s = 2 ^ s * (2 * (2 ^ (t - s - 1) * (2 * m + 1) - 1) + 1) := by
  have e : 2 ^ t = 2 ^ s * (2 * 2 ^ (t - s - 1)) := by
    rw [← pow_succ', ← pow_add]; congr 1; omega
  have hp : 0 < 2 ^ (t - s - 1) * (2 * m + 1) := by positivity
  rw [e]
  have : 2 ^ s * (2 * 2 ^ (t - s - 1)) * (2 * m + 1) =
      2 ^ s * (2 * (2 ^ (t - s - 1) * (2 * m + 1) - 1) + 1) + 2 ^ s := by
    have h2 : 2 * (2 ^ (t - s - 1) * (2 * m + 1) - 1) + 1 + 1 =
        2 * (2 ^ (t - s - 1) * (2 * m + 1)) := by omega
    calc 2 ^ s * (2 * 2 ^ (t - s - 1)) * (2 * m + 1)
        = 2 ^ s * (2 * (2 ^ (t - s - 1) * (2 * m + 1))) := by ring
      _ = 2 ^ s * (2 * (2 ^ (t - s - 1) * (2 * m + 1) - 1) + 1 + 1) := by rw [h2]
      _ = _ := by ring
  omega

theorem getNext_child (t m s : Nat) (hs : s < t) (h : 2 ^ t * (2 * m + 1) < 2 ^ 64) :
    getNext (2 ^ t * (2 * m + 1) - 2 ^ s) = 2 ^ t * (2 * m + 1) := by
  have hle : 2 ^ s ≤ 2 ^ t * (2 * m + 1) := by
    calc 2 ^ s ≤ 2 ^ t := Nat.pow_le_pow_right (by norm_num) hs.le
      _ ≤ _ := Nat.le_mul_of_pos_right _ (by omega)
  unfold getNext
  have hd := child_decomp t m s hs
  have hlt : 2 ^ s * (2 * (2 ^ (t - s - 1) * (2 * m + 1) - 1) + 1) < 2 ^ 64 := by
    rw [← hd]; exact lt_of_le_of_lt (Nat.sub_le _ _) h
  rw [hd, lowBit_two_pow_mul_odd _ _ hlt, ← hd]
  omega

theorem getParent_child (t m s : Nat) (hs : s < t) (h : 2 ^ t * (2 * m + 1) < 2 ^ 64) :
    getParent (2 ^ t * (2 * m + 1) - 2 ^ s) = 2 ^ t * (2 * m + 1) - 2 ^ (s + 1) := by
  unfold getParent
  have hd := child_decomp t m s hs
  have hlt : 2 ^ s * (2 * (2 ^ (t - s - 1) * (2 * m + 1) - 1) + 1) < 2 ^ 64 := by
    rw [← hd]; exact lt_of_le_of_lt (Nat.sub_le _ _) h
  rw [hd, lowBit_two_pow_mul_odd _ _ hlt, ← hd, pow_succ]
  omega

theorem getParent_two_pow_mul_odd (t m : Nat) (h : 2 ^ t * (2 * m + 1) < 2 ^ 64) :
    getParent (2 ^ t * (2 * m + 1)) = 2 ^ t * (2 * m + 1) - 2 ^ t := by
  unfold getParent
  rw [lowBit_two_pow_mul_odd _ _ h]

/-- The children of `j = 2 ^ t * (2 * m + 1)` are exactly the indices `j - 2 ^ s`, `s < t`. -/
theorem getNext_eq_iff (t m x : Nat) (h : 2 ^ t * (2 * m + 1) < 2 ^ 64) (hx : 0 < x) :
    getNext x = 2 ^ t * (2 * m + 1) ↔ ∃ s, s < t ∧ x = 2 ^ t * (2 * m + 1) - 2 ^ s := by
  constructor
  · intro hn
    have hxj : x ≤ 2 ^ t * (2 * m + 1) := by rw [← hn]; unfold getNext; omega
    obtain ⟨s, u, rfl⟩ := exists_two_pow_mul_odd x hx
    have hlow := lowBit_two_pow_mul_odd s u (by omega)
    unfold getNext at hn
    rw [hlow] at hn
    have hn2 : 2 ^ (s + 1) * (u + 1) = 2 ^ t * (2 * m + 1) := by rw [← hn]; ring
    have hdvd : 2 ^ (s + 1) ∣ 2 ^ t := by
      have hc : Nat.Coprime (2 ^ (s + 1)) (2 * m + 1) := by
        apply Nat.Coprime.pow_left
        rw [Nat.coprime_comm, Nat.coprime_two_right]
        exact ⟨m, rfl⟩
      exact hc.dvd_of_dvd_mul_right ⟨u + 1, hn2.symm⟩
    have hst : s + 1 ≤ t := (Nat.pow_dvd_pow_iff_le_right (by norm_num)).1 hdvd
    exact ⟨s, hst, by omega⟩
  · rintro ⟨s, hs, rfl⟩
    exact getNext_child t m s hs h


theorem two_pow_le_of_lt (t m s : Nat) (hs : s < t) : 2 ^ s < 2 ^ t * (2 * m + 1) := by
  calc 2 ^ s < 2 ^ t := Nat.pow_lt_pow_right (by norm_num) hs
    _ ≤ _ := Nat.le_mul_of_pos_right _ (by omega)

/-- The nodes pushed into node `j` by `init` add up to the weights strictly between the parent
of `j` and `j` itself. -/
theorem children_sum {G : Type} [AddCommGroup G] (P : Nat → G) (j : Nat) (hj : 0 < j)
    (hlt : j < 2 ^ 64) :
    (∑ c in Finset.range (j - 1),
        if getNext (c + 1) = j then P (c + 1) - P (getParent (c + 1)) else 0) =
      P (j - 1) - P (getParent j) := by
  obtain ⟨t, m, rfl⟩ := exists_two_pow_mul_odd j hj
  rw [← Finset.sum_filter]
  have hset : (Finset.range (2 ^ t * (2 * m + 1) - 1)).filter
        (fun c => getNext (c + 1) = 2 ^ t * (2 * m + 1)) =
      (Finset.range t).image (fun s => 2 ^ t * (2 * m + 1) - 2 ^ s - 1) := by
    ext c
    simp only [Finset.mem_filter, Finset.mem_range, Finset.mem_image]
    constructor
    · rintro ⟨_, hn⟩
      obtain ⟨s, hs, hx⟩ := (getNext_eq_iff t m (c + 1) hlt (by omega)).1 hn
      exact ⟨s, hs, by omega⟩
    · rintro ⟨s, hs, rfl⟩
      have h1 := two_pow_le_of_lt t m s hs
      have h2 : 0 < 2 ^ s := by positivity
      have e : 2 ^ t * (2 * m + 1) - 2 ^ s - 1 + 1 = 2 ^ t * (2 * m + 1) - 2 ^ s := by omega
      refine ⟨by omega, ?_⟩
      rw [e]
      exact getNext_child t m s hs hlt
  rw [hset, Finset.sum_image]
  · have hterm : ∀ s ∈ Finset.range t,
        P (2 ^ t * (2 * m + 1) - 2 ^ s - 1 + 1) -
            P (getParent (2 ^ t * (2 * m + 1) - 2 ^ s - 1 + 1)) =
          P (2 ^ t * (2 * m + 1) - 2 ^ s) - P (2 ^ t * (2 * m + 1) - 2 ^ (s + 1)) := by
      intro s hs
      have hs := Finset.mem_range.1 hs
      have h1 := two_pow_le_of_lt t m s hs
      have h2 : 0 < 2 ^ s := by positivity
      have e : 2 ^ t * (2 * m + 1) - 2 ^ s - 1 + 1 = 2 ^ t * (2 * m + 1) - 2 ^ s := by omega
      rw [e, getParent_child t m s hs hlt]
    rw [Finset.sum_congr rfl hterm,
      Finset.sum_range_sub' (fun s => P (2 ^ t * (2 * m + 1) - 2 ^ s)) t,
      getParent_two_pow_mul_odd t m hlt]
    simp
  · intro a ha b hb hab
    have ha := Finset.mem_range.1 (Finset.mem_coe.1 ha)
    have hb := Finset.mem_range.1 (Finset.mem_coe.1 hb)
    have h1 := two_pow_le_of_lt t m a ha
    have h2 := two_pow_le_of_lt t m b hb
    have h3 : 0 < 2 ^ a := by positivity
    have h4 : 0 < 2 ^ b := by positivity
    have : 2 ^ a = 2 ^ b := by
      simp only at hab
      omega
    exact Nat.pow_right_injective (le_refl 2) this

end FenwickTree

/-! ## The Fenwick tree: `init` builds the tree -/

namespace FenwickTree

theorem getNext_gt (x : Nat) (h0 : 0 < x) (h : x < 2 ^ 64) : x < getNext x := by
  have := lowBit_pos x h0 h
  unfold getNext; omega

theorem slotSum_succ (orig : List Nat) (k : Nat) :
    slotSum orig (k + 1) = slotSum orig k + ((orig.getD (k + 1) 0 : Nat) : ZMod (2 ^ 64)) := by
  unfold slotSum
  rw [Finset.sum_range_succ]

theorem initStep_length (data : List Nat) (i : Nat) : (initStep data i).length = data.length := by
  unfold initStep
  simp only
  split <;> simp

theorem initStep_getD (data : List Nat) (i j : Nat) :
    (initStep data i).getD j 0 =
      if getNext i = j ∧ j < data.length then (data.getD j 0 + data.getD i 0) % 2 ^ 64
      else data.getD j 0 := by
  unfold initStep
  simp only
  by_cases h : getNext i < data.length
  · simp only [h, if_true]
    by_cases hj : getNext i = j
    · subst hj
      simp [h, List.getD_eq_getElem?_getD]
    · simp [hj, List.getD_eq_getElem?_getD, List.getElem?_set_ne hj]
  · simp only [h, if_false]
    by_cases hj : getNext i = j
    · subst hj; simp [h]
    · simp [hj]

theorem init_fold_inv (orig : List Nat) (hN : orig.length ≤ 2 ^ 63) (k : Nat)
    (hk : k + 1 ≤ orig.length) :
    ((List.range' 1 k).foldl initStep orig).length = orig.length ∧
    ∀ j, j < orig.length →
      ((((List.range' 1 k).foldl initStep orig).getD j 0 : Nat) : ZMod (2 ^ 64)) =
        ((orig.getD j 0 : Nat) : ZMod (2 ^ 64)) +
          ∑ c in Finset.range k, if getNext (c + 1) = j then nodeVal orig (c + 1) else 0 := by
  induction k with
  | zero => simp
  | succ k ih =>
      obtain ⟨hlen, hval⟩ := ih (by omega)
      rw [List.range'_concat, List.foldl_append, show 1 + 1 * k = k + 1 by omega]
      simp only [List.foldl_cons, List.foldl_nil]
      refine ⟨by rw [initStep_length, hlen], ?_⟩
      intro j hj
      rw [initStep_getD, Finset.sum_range_succ, hlen]
      have hnode : ((((List.range' 1 k).foldl initStep orig).getD (k + 1) 0 : Nat) :
          ZMod (2 ^ 64)) = nodeVal orig (k + 1) := by
        rw [hval (k + 1) (by omega)]
        have hc := children_sum (slotSum orig) (k + 1) (by omega) (by omega)
        simp only [Nat.add_sub_cancel] at hc
        simp only [nodeVal]
        rw [hc, slotSum_succ]
        ring
      by_cases hc : getNext (k + 1) = j
      · simp only [hc, hj, and_self, if_true]
        rw [ZMod.natCast_mod, Nat.cast_add, hval j hj, hnode]
        ring
      · simp only [hc, false_and, if_false, add_zero]
        exact hval j hj

theorem init_fold_bound (orig : List Nat) (hb : ∀ j, j < orig.length → orig.getD j 0 < 2 ^ 64)
    (l : List Nat) :
    ∀ j, j < orig.length → (l.foldl initStep orig).getD j 0 < 2 ^ 64 := by
  induction l generalizing orig with
  | nil => simpa using hb
  | cons i l ih =>
      simp only [List.foldl_cons]
      intro j hj
      apply ih
      · intro j hj
        rw [initStep_getD]
        rw [initStep_length] at hj
        split
        · exact Nat.mod_lt _ (by norm_num)
        · exact hb j hj
      · rw [initStep_length]; exact hj

theorem init_isTree (orig : List Nat) (h1 : 1 ≤ orig.length) (hN : orig.length ≤ 2 ^ 63)
    (hb : ∀ j, j < orig.length → orig.getD j 0 < 2 ^ 64) : IsTree orig (init orig) := by
  unfold init
  obtain ⟨hlen, hval⟩ := init_fold_inv orig hN (orig.length - 1) (by omega)
  refine ⟨hlen, ?_, ?_⟩
  · intro j hj
    rw [hlen] at hj
    exact init_fold_bound orig hb _ j hj
  · intro j hj0 hj
    rw [hlen] at hj
    rw [hval j hj]
    have hsplit : (∑ c in Finset.range (orig.length - 1),
          if getNext (c + 1) = j then nodeVal orig (c + 1) else 0) =
        ∑ c in Finset.range (j - 1),
          if getNext (c + 1) = j then nodeVal orig (c + 1) else 0 := by
      symm
      apply Finset.sum_subset
      · intro c hc
        simp only [Finset.mem_range] at hc ⊢
        omega
      · intro c hc hnc
        simp only [Finset.mem_range] at hc hnc
        have := getNext_gt (c + 1) (by omega) (by omega)
        rw [if_neg (by omega)]
    have hc := children_sum (slotSum orig) j hj0 (by omega)
    rw [hsplit]
    simp only [nodeVal]
    rw [hc]
    obtain ⟨k, rfl⟩ : ∃ k, j = k + 1 := ⟨j - 1, by omega⟩
    rw [slotSum_succ]
    simp only [Nat.add_sub_cancel]
    ring

theorem init_getD_zero (orig : List Nat) :
    (init orig).getD 0 0 = orig.getD 0 0 := by
  unfold init
  have key : ∀ (l : List Nat) (data : List Nat), (∀ i ∈ l, 0 < i) →
      (l.foldl initStep data).getD 0 0 = data.getD 0 0 := by
    intro l
    induction l with
    | nil => intro data _; rfl
    | cons i l ih =>
        intro data hl
        simp only [List.foldl_cons]
        rw [ih _ (fun x hx => hl x (List.mem_cons_of_mem _ hx)), initStep_getD]
        have hi : 0 < i := hl i (List.mem_cons_self _ _)
        have : getNext i ≠ 0 := by unfold getNext; omega
        simp [this]
  apply key
  intro i hi
  rw [List.mem_range'_1] at hi
  omega

end FenwickTree

/-! ## The Fenwick tree: `get` on a tree -/

namespace FenwickTree

theorem lowBit_add (q a r : Nat) (hr0 : 0 < r) (hr : r < 2 ^ q) (h : 2 ^ q * a + r < 2 ^ 64) :
    lowBit (2 ^ q * a + r) = lowBit r := by
  obtain ⟨t, m, rfl⟩ := exists_two_pow_mul_odd r hr0
  have htq : t < q := by
    have h1 : 2 ^ t ≤ 2 ^ t * (2 * m + 1) := Nat.le_mul_of_pos_right _ (by omega)
    exact (Nat.pow_lt_pow_iff_right (by norm_num)).1 (lt_of_le_of_lt h1 hr)
  have e : 2 ^ q = 2 ^ t * (2 * 2 ^ (q - t - 1)) := by
    rw [← pow_succ', ← pow_add]; congr 1; omega
  have e2 : 2 ^ q * a + 2 ^ t * (2 * m + 1) = 2 ^ t * (2 * (2 ^ (q - t - 1) * a + m) + 1) := by
    rw [e]; ring
  rw [lowBit_two_pow_mul_odd t m (by omega), e2, lowBit_two_pow_mul_odd _ _ (by rw [← e2]; exact h)]

theorem getElem?_eq_some_getD (l : List Nat) (i : Nat) (h : i < l.length) :
    l[i]? = some (l.getD i 0) := by
  simp [List.getD_eq_getElem?_getD, List.getElem?_eq_getElem h]

theorem cast_sub_word (sum x : Nat) (hx : x < 2 ^ 64) :
    (((sum + (2 ^ 64 - x)) % 2 ^ 64 : Nat) : ZMod (2 ^ 64)) =
      (sum : ZMod (2 ^ 64)) - (x : ZMod (2 ^ 64)) := by
  rw [ZMod.natCast_mod, Nat.cast_add, Nat.cast_sub hx.le]
  have : ((2 ^ 64 : Nat) : ZMod (2 ^ 64)) = 0 := ZMod.natCast_self _
  rw [this]
  ring

/-- The second loop of `rangeSum`, started inside the block of `2 ^ q` indices above `lo`,
walks down to `lo` and subtracts the slots between. -/
theorem rangeSumLower_spec (orig tree : List Nat) (ht : IsTree orig tree)
    (hN : tree.length ≤ 2 ^ 63) (q a : Nat) :
    ∀ (fuel i sum : Nat), 2 ^ q * a ≤ i → i < 2 ^ q * a + 2 ^ q → i < tree.length → i < fuel →
      sum < 2 ^ 64 →
      ∃ s, rangeSumLower tree (2 ^ q * a) fuel i sum = some s ∧ s < 2 ^ 64 ∧
        (s : ZMod (2 ^ 64)) = (sum : ZMod (2 ^ 64)) -
          (slotSum orig i - slotSum orig (2 ^ q * a)) := by
  intro fuel
  induction fuel with
  | zero => intro i sum _ _ _ h; omega
  | succ fuel ih =>
      intro i sum hlo hhi hi hfuel hsum
      unfold rangeSumLower
      by_cases hgt : i > 2 ^ q * a
      · simp only [hgt, if_true]
        rw [getElem?_eq_some_getD tree i hi]
        simp only
        obtain ⟨r, rfl⟩ : ∃ r, i = 2 ^ q * a + r := ⟨i - 2 ^ q * a, by omega⟩
        have hr0 : 0 < r := by omega
        have hr : r < 2 ^ q := by omega
        have hlow := lowBit_add q a r hr0 hr (by omega)
        have hle := lowBit_le r
        have hpos := lowBit_pos r hr0 (by omega)
        have hpar : getParent (2 ^ q * a + r) = 2 ^ q * a + (r - lowBit r) := by
          unfold getParent; rw [hlow]; omega
        obtain ⟨s, hs, hs64, hcast⟩ := ih (getParent (2 ^ q * a + r))
          ((sum + (2 ^ 64 - tree.getD (2 ^ q * a + r) 0)) % 2 ^ 64)
          (by rw [hpar]; omega) (by rw [hpar]; omega) (by rw [hpar]; omega)
          (by rw [hpar]; omega) (Nat.mod_lt _ (by norm_num))
        refine ⟨s, hs, hs64, ?_⟩
        rw [hcast, cast_sub_word _ _ (ht.2.1 _ hi), ht.2.2 _ (by omega) hi]
        unfold nodeVal
        ring
      · have : i = 2 ^ q * a := by omega
        subst this
        simp only [gt_iff_lt, lt_self_iff_false, if_false]
        exact ⟨sum, rfl, hsum, by ring⟩

/-- On a tree built by `init`, `get(i)` returns slot `i + 1` of the original vector. -/
theorem get_isTree (orig tree : List Nat) (ht : IsTree orig tree) (hN : tree.length ≤ 2 ^ 63)
    (hb : ∀ j, j < orig.length → orig.getD j 0 < 2 ^ 64)
    (i : Nat) (hi : i + 1 < tree.length) : get tree i = some (orig.getD (i + 1) 0) := by
  obtain ⟨t, m, htm⟩ := exists_two_pow_mul_odd (i + 1) (by omega)
  have hpar : getParent (i + 1) = 2 ^ t * (2 * m) := by
    rw [htm, getParent_two_pow_mul_odd t m (by rw [← htm]; omega)]
    have : 2 ^ t * (2 * m + 1) = 2 ^ t * (2 * m) + 2 ^ t := by ring
    omega
  have hpos : 0 < 2 ^ t := by positivity
  have hi2 : i = 2 ^ t * (2 * m) + (2 ^ t - 1) := by
    have : 2 ^ t * (2 * m + 1) = 2 ^ t * (2 * m) + 2 ^ t := by ring
    omega
  unfold get rangeSum
  have hup : rangeSumUpper tree i (i + 1 + 1) (i + 1) 0 =
      some (getParent (i + 1), tree.getD (i + 1) 0 % 2 ^ 64) := by
    rw [rangeSumUpper]
    simp only [gt_iff_lt, Nat.lt_succ_self, if_true, getElem?_eq_some_getD tree (i + 1) hi,
      Nat.zero_add]
    have hle : ¬ getParent (i + 1) > i := by rw [hpar]; omega
    cases h : i + 1 with
    | zero => omega
    | succ n =>
        rw [← h]
        rw [rangeSumUpper]
        simp only [hle, if_false]
  rw [hup]
  simp only
  rw [hpar]
  obtain ⟨s, hs, hs64, hcast⟩ := rangeSumLower_spec orig tree ht hN t (2 * m) (i + 1) i
    (tree.getD (i + 1) 0 % 2 ^ 64) (by omega) (by omega) (by omega) (by omega)
    (Nat.mod_lt _ (by norm_num))
  rw [hs]
  congr 1
  have hb1 := hb (i + 1) (by rw [← ht.1]; exact hi)
  have hcast2 : (s : ZMod (2 ^ 64)) = ((orig.getD (i + 1) 0 : Nat) : ZMod (2 ^ 64)) := by
    rw [hcast, ZMod.natCast_mod, ht.2.2 (i + 1) (by omega) hi]
    unfold nodeVal
    rw [hpar, slotSum_succ]
    ring
  have := (ZMod.natCast_eq_natCast_iff' _ _ _).1 hcast2
  rw [Nat.mod_eq_of_lt hs64, Nat.mod_eq_of_lt hb1] at this
  exact this

end FenwickTree

/-! ## `fwkCreate` builds a tree -/

open FenwickTree

theorem bitlogLoop_spec (fuel : Nat) :
    ∀ (tval bitlog : Nat), tval < 2 ^ fuel →
      ∃ b, bitlogLoop fuel tval bitlog = bitlog + b ∧ tval < 2 ^ b ∧
        (b = 0 ∨ 2 ^ (b - 1) ≤ tval) := by
  induction fuel with
  | zero =>
      intro tval bitlog h
      exact ⟨0, rfl, by simpa using h, Or.inl rfl⟩
  | succ fuel ih =>
      intro tval bitlog h
      unfold bitlogLoop
      by_cases h0 : tval = 0
      · subst h0
        exact ⟨0, by simp, by simp, Or.inl rfl⟩
      · simp only [ne_eq, h0, not_false_eq_true, if_true]
        obtain ⟨b, hb, hlt, hge⟩ := ih (tval / 2) (bitlog + 1) (by rw [pow_succ] at h; omega)
        refine ⟨b + 1, by rw [hb]; omega, by rw [pow_succ]; omega, Or.inr ?_⟩
        simp only [Nat.add_sub_cancel]
        rcases hge with rfl | hge
        · simp; omega
        · obtain ⟨c, rfl⟩ : ∃ c, b = c + 1 := ⟨b - 1, by
            rcases b with _ | b
            · simp at hlt; omega
            · simp⟩
          simp only [Nat.add_sub_cancel] at hge
          rw [pow_succ]; omega

/-- The length chosen by `realsize`: one more than the least power of two that is at least
`val`. -/
theorem realsize_spec (val : Nat) (h1 : 1 ≤ val) (h : val ≤ 2 ^ 64) :
    ∃ b, realsize val = 1 + 2 ^ b ∧ val ≤ 2 ^ b ∧ (b = 0 ∨ 2 ^ (b - 1) < val) := by
  unfold realsize
  have hv : val ≠ 0 := by omega
  simp only [ne_eq, hv, not_false_eq_true, if_true]
  obtain ⟨b, hb, hlt, hge⟩ := bitlogLoop_spec 64 (val - 1) 0 (by omega)
  refine ⟨b, by rw [hb]; simp, by omega, ?_⟩
  rcases hge with h0 | hge
  · exact Or.inl h0
  · exact Or.inr (by omega)

theorem fwkLayout_length (values : List Nat) (h1 : 1 ≤ values.length)
    (h : values.length ≤ 2 ^ 64) : (fwkLayout values).length = realsize values.length := by
  obtain ⟨b, hb, hle, _⟩ := realsize_spec values.length h1 h
  unfold fwkLayout
  simp only [List.length_cons, List.length_append, List.length_replicate]
  omega

theorem fwkLayout_getD_succ (values : List Nat) (m : Nat) :
    (fwkLayout values).getD (m + 1) 0 = values.getD m 0 := by
  unfold fwkLayout
  simp only [List.getD_eq_getElem?_getD, List.getElem?_cons_succ]
  by_cases hm : m < values.length
  · rw [List.getElem?_append_left hm]
  · rw [List.getElem?_append_right (by omega)]
    rw [List.getElem?_eq_none (by omega : values.length ≤ m)]
    simp only [Option.getD_none]
    rcases h : (List.replicate (realsize values.length - (values.length + 1)) 0)[m - values.length]?
      with _ | x
    · rfl
    · rw [List.getElem?_replicate] at h
      split at h <;> simp at h
      simp [← h]

theorem fwkLayout_getD_zero (values : List Nat) : (fwkLayout values).getD 0 0 = 0 := rfl

theorem fwkLayout_bound (values : List Nat) (hW : ∀ w ∈ values, w < 2 ^ 64) :
    ∀ j, j < (fwkLayout values).length → (fwkLayout values).getD j 0 < 2 ^ 64 := by
  intro j _
  rcases j with _ | m
  · rw [fwkLayout_getD_zero]; norm_num
  · rw [fwkLayout_getD_succ]
    by_cases hm : m < values.length
    · rw [List.getD_eq_getElem _ _ hm]
      exact hW _ (List.getElem_mem _)
    · rw [List.getD_eq_default _ _ (by omega)]; norm_num

theorem fwkCreate_isTree (values : List Nat) (h1 : 1 ≤ values.length)
    (hlen : values.length < 2 ^ 60) (hW : ∀ w ∈ values, w < 2 ^ 64) :
    IsTree (fwkLayout values) (fwkCreate values) ∧ (fwkCreate values).length ≤ 2 ^ 63 ∧
      ∃ b, (fwkCreate values).length = 1 + 2 ^ b ∧ values.length ≤ 2 ^ b := by
  obtain ⟨b, hb, hle, hsm⟩ := realsize_spec values.length h1 (by omega)
  have hl := fwkLayout_length values h1 (by omega)
  have hb60 : 2 ^ b ≤ 2 ^ 60 := by
    rcases hsm with rfl | hsm
    · norm_num
    · have h2 : 2 ^ (b - 1) < 2 ^ 60 := lt_trans hsm hlen
      have : b - 1 < 60 := (Nat.pow_lt_pow_iff_right (by norm_num : 1 < 2)).1 h2
      exact Nat.pow_le_pow_right (by norm_num) (by omega)
  have ht := init_isTree (fwkLayout values) (by omega) (by omega) (fwkLayout_bound values hW)
  refine ⟨ht, ?_, b, ?_, hle⟩
  · rw [fwkCreate, ht.1]; omega
  · rw [fwkCreate, ht.1]; omega

/-! ## `rankQuery` on the tree of `fwkCreate` -/

theorem sum_take_succ_getD (W : List Nat) (k : Nat) :
    (W.take (k + 1)).sum = (W.take k).sum + W.getD k 0 := by
  by_cases hk : k < W.length
  · rw [List.sum_take_succ W k hk, List.getD_eq_getElem _ _ hk]
  · rw [List.take_of_length_le (by omega), List.take_of_length_le (by omega),
      List.getD_eq_default _ _ (by omega)]
    rfl

theorem sum_take_mono (W : List Nat) (a b : Nat) (h : a ≤ b) :
    (W.take a).sum ≤ (W.take b).sum := by
  induction b with
  | zero =>
      have : a = 0 := by omega
      subst this; exact le_refl _
  | succ b ih =>
      rcases Nat.eq_or_lt_of_le h with rfl | hlt
      · exact le_refl _
      · rw [sum_take_succ_getD]
        exact le_trans (ih (by omega)) (Nat.le_add_right _ _)

theorem sum_take_le_sum (W : List Nat) (a : Nat) : (W.take a).sum ≤ W.sum := by
  have := sum_take_mono W a (max a W.length) (le_max_left _ _)
  rwa [List.take_of_length_le (le_max_right _ _)] at this

theorem slotSum_fwkLayout (W : List Nat) (k : Nat) :
    slotSum (fwkLayout W) k = (((W.take k).sum : Nat) : ZMod (2 ^ 64)) := by
  induction k with
  | zero => simp [slotSum]
  | succ k ih =>
      rw [slotSum_succ, ih, fwkLayout_getD_succ, sum_take_succ_getD, Nat.cast_add]

/-- Without overflow, node `x = 2 ^ e * (2 * a + 1)` of the tree holds, as a natural number,
the weights with indices from `2 ^ e * (2 * a)` up to `x - 1`. -/
theorem fwkCreate_node (W : List Nat) (h1 : 1 ≤ W.length) (hlen : W.length < 2 ^ 60)
    (hsum : W.sum < 2 ^ 64) (e a : Nat) (hx : 2 ^ e * (2 * a + 1) < (fwkCreate W).length) :
    (fwkCreate W).getD (2 ^ e * (2 * a + 1)) 0 =
      (W.take (2 ^ e * (2 * a + 1))).sum - (W.take (2 ^ e * (2 * a))).sum := by
  have hW64 : ∀ w ∈ W, w < 2 ^ 64 := fun w hw =>
    lt_of_le_of_lt (List.single_le_sum (fun _ _ => Nat.zero_le _) w hw) hsum
  obtain ⟨ht, hN, -⟩ := fwkCreate_isTree W h1 hlen hW64
  have hpos : 0 < 2 ^ e * (2 * a + 1) := by positivity
  have hnode := ht.2.2 _ hpos hx
  have hpar : getParent (2 ^ e * (2 * a + 1)) = 2 ^ e * (2 * a) := by
    rw [getParent_two_pow_mul_odd e a (by omega)]
    have : 2 ^ e * (2 * a + 1) = 2 ^ e * (2 * a) + 2 ^ e := by ring
    omega
  have hmono := sum_take_mono W (2 ^ e * (2 * a)) (2 ^ e * (2 * a + 1))
    (Nat.mul_le_mul_left _ (by omega))
  unfold nodeVal at hnode
  rw [hpar, slotSum_fwkLayout, slotSum_fwkLayout, ← Nat.cast_sub hmono] at hnode
  have := (ZMod.natCast_eq_natCast_iff' _ _ _).1 hnode
  rw [Nat.mod_eq_of_lt (ht.2.1 _ hx), Nat.mod_eq_of_lt] at this
  · exact this
  · have := sum_take_le_sum W (2 ^ e * (2 * a + 1))
    omega

theorem rankQueryLoop_zero (data : List Nat) (fuel i value : Nat) :
    rankQueryLoop data fuel 0 i value = some i := by
  cases fuel <;> simp [rankQueryLoop]

/-- The binary descent of `rankQuery`: with `e` halvings left and the answer known to lie in
the block of `2 ^ e` indices starting at `2 ^ e * a`, the loop returns the largest index `r` of
the block whose first `r` weights sum to at most `v`. -/
theorem rankQueryLoop_spec (W : List Nat) (h1 : 1 ≤ W.length) (hlen : W.length < 2 ^ 60)
    (hsum : W.sum < 2 ^ 64) (K : Nat) (hK : (fwkCreate W).length = 1 + 2 ^ K) (v : Nat) :
    ∀ (e fuel a : Nat), e ≤ fuel → 2 ^ e * a ≤ 2 ^ K → (W.take (2 ^ e * a)).sum ≤ v →
      (2 ^ e * a + 2 ^ e ≤ 2 ^ K → v < (W.take (2 ^ e * a + 2 ^ e)).sum) →
      ∃ r, rankQueryLoop (fwkCreate W) fuel (2 ^ e / 2) (2 ^ e * a)
            (v - (W.take (2 ^ e * a)).sum) = some r ∧
        r ≤ 2 ^ K ∧ (W.take r).sum ≤ v ∧ (r + 1 ≤ 2 ^ K → v < (W.take (r + 1)).sum) := by
  intro e
  induction e with
  | zero =>
      intro fuel a _ hi hle hwin
      simp only [pow_zero, one_mul] at *
      exact ⟨a, by rw [show (1 : Nat) / 2 = 0 by norm_num, rankQueryLoop_zero], hi, hle, hwin⟩
  | succ e ih =>
      intro fuel a hfuel hi hle hwin
      obtain ⟨fuel, rfl⟩ : ∃ f, fuel = f + 1 := ⟨fuel - 1, by omega⟩
      have hj : 2 ^ (e + 1) / 2 = 2 ^ e := by rw [pow_succ]; omega
      have hpos : 0 < 2 ^ e := by positivity
      have hi2 : 2 ^ (e + 1) * a = 2 ^ e * (2 * a) := by rw [pow_succ]; ring
      have hij : 2 ^ e * (2 * a) + 2 ^ e = 2 ^ e * (2 * a + 1) := by ring
      have hwin2 : 2 ^ e * (2 * a + 1) + 2 ^ e = 2 ^ (e + 1) * a + 2 ^ (e + 1) := by
        rw [pow_succ]; ring
      rw [hj, rankQueryLoop]
      simp only [gt_iff_lt, hpos, if_true, hi2, hij, hK]
      have hlow : 2 ^ e / 2 = 2 ^ e / 2 := rfl
      by_cases hin : 2 ^ e * (2 * a + 1) < 1 + 2 ^ K
      · simp only [hin, if_true]
        rw [fwkCreate_node W h1 hlen hsum e a (by rw [hK]; exact hin)]
        have hmono := sum_take_mono W (2 ^ e * (2 * a)) (2 ^ e * (2 * a + 1))
          (Nat.mul_le_mul_left _ (by omega))
        rw [hi2] at hle
        by_cases hcmp : (W.take (2 ^ e * (2 * a + 1))).sum - (W.take (2 ^ e * (2 * a))).sum ≤
            v - (W.take (2 ^ e * (2 * a))).sum
        · simp only [hcmp, if_true]
          have hv : v - (W.take (2 ^ e * (2 * a))).sum -
              ((W.take (2 ^ e * (2 * a + 1))).sum - (W.take (2 ^ e * (2 * a))).sum) =
              v - (W.take (2 ^ e * (2 * a + 1))).sum := by omega
          rw [hv]
          exact ih fuel (2 * a + 1) (by omega) (by omega) (by omega)
            (by rw [hwin2]; exact hwin)
        · simp only [hcmp, if_false]
          exact ih fuel (2 * a) (by omega) (by omega) hle (by rw [hij]; intro _; omega)
      · simp only [hin, if_false]
        rw [hi2] at hle
        exact ih fuel (2 * a) (by omega) (by omega) hle (by rw [hij]; intro h; omega)

/-! ## Claims on the weighted index -/

/-- C2.  For every weight array `W` of 32-bit weights (of a length a vector can have) and
every index `i` with `0 ≤ i < n`, `get(i)` on the tree that `fwkCreate` builds from `W` (copy
to slots `1 .. n`, zero slot 0 and the padding, then `init`) returns `W[i]`. -/
theorem fwkCreate_get (W : List Nat) (hlen : W.length < 2 ^ 60) (hW : ∀ w ∈ W, w < 2 ^ 32)
    (i : Nat) (hi : i < W.length) : FenwickTree.get (fwkCreate W) i = some W[i] := by
  have hW64 : ∀ w ∈ W, w < 2 ^ 64 := fun w hw => lt_trans (hW w hw) (by norm_num)
  obtain ⟨ht, hN, b, hb, hle⟩ := fwkCreate_isTree W (by omega) hlen hW64
  rw [get_isTree (fwkLayout W) (fwkCreate W) ht hN (fwkLayout_bound W hW64) i (by omega),
    fwkLayout_getD_succ, List.getD_eq_getElem _ _ hi]

theorem fwkCreate_get_witness :
    [3, 0, 5, 2].length < 2 ^ 60 ∧ (∀ w ∈ [3, 0, 5, 2], w < 2 ^ 32) ∧ 2 < [3, 0, 5, 2].length ∧
      FenwickTree.get (fwkCreate [3, 0, 5, 2]) 2 = some 5 :=
  ⟨by decide, by decide, by decide,
    fwkCreate_get [3, 0, 5, 2] (by decide) (by decide) 2 (by decide)⟩

theorem rankQuery_eq (data : List Nat) (value : Nat) (h : 1 ≤ data.length) :
    rankQuery data value =
      rankQueryLoop data data.length (data.length - 1) 0
        ((value + (2 ^ 64 - data.getD 0 0)) % 2 ^ 64) := by
  rcases data with _ | ⟨x, rest⟩
  · simp at h
  · rfl

/-- C3.  For every array `W` of non-negative weights whose total fits the 64-bit `Value` type
and every `v` with `0 ≤ v < sum(W)`, `rankQuery(v)` on the tree created from `W` returns the
unique index `i` in `[0, n)` with `prefixSum(i-1) ≤ v < prefixSum(i)`, where
`prefixSum(i-1) = W[0] + ... + W[i-1]` is `(W.take i).sum`; it is the smallest index whose
inclusive prefix sum exceeds `v`. -/
theorem fwkCreate_rankQuery (W : List Nat) (hlen : W.length < 2 ^ 60) (hsum : W.sum < 2 ^ 64)
    (v : Nat) (hv : v < W.sum) :
    ∃ i, FenwickTree.rankQuery (fwkCreate W) v = some i ∧ i < W.length ∧
      (W.take i).sum ≤ v ∧ v < (W.take (i + 1)).sum ∧
      (∀ k, k < W.length → (W.take k).sum ≤ v → v < (W.take (k + 1)).sum → k = i) ∧
      ∀ k, k < i → (W.take (k + 1)).sum ≤ v := by
  have h1 : 1 ≤ W.length := by
    rcases W with _ | ⟨w, W⟩
    · simp at hv
    · simp
  have hW64 : ∀ w ∈ W, w < 2 ^ 64 := fun w hw =>
    lt_of_le_of_lt (List.single_le_sum (fun _ _ => Nat.zero_le _) w hw) hsum
  obtain ⟨ht, hN, K, hK, hle⟩ := fwkCreate_isTree W h1 hlen hW64
  have h0 : (fwkCreate W).getD 0 0 = 0 := by
    rw [fwkCreate, init_getD_zero, fwkLayout_getD_zero]
  obtain ⟨r, hr, hrK, hpre, hnext⟩ := rankQueryLoop_spec W h1 hlen hsum K hK v (K + 1)
    (1 + 2 ^ K) 0 (by have := Nat.lt_two_pow K; omega) (by simp) (by simp)
    (by intro h; rw [pow_succ] at h; have : 0 < 2 ^ K := by positivity
        omega)
  have hfull : ∀ k, W.length ≤ k → (W.take k).sum = W.sum := fun k hk => by
    rw [List.take_of_length_le hk]
  have hrn : r < W.length := by
    by_contra hc
    rw [hfull r (by omega)] at hpre
    omega
  refine ⟨r, ?_, hrn, hpre, hnext (by omega), ?_, fun k hk =>
    le_trans (sum_take_mono W (k + 1) r (by omega)) hpre⟩
  · rw [rankQuery_eq _ _ (by omega), h0, hK]
    have hj : 2 ^ (K + 1) / 2 = 2 ^ K := by rw [pow_succ]; omega
    simp only [Nat.mul_zero, List.take_zero, List.sum_nil, Nat.sub_zero, hj] at hr
    simp only [Nat.add_sub_cancel_left, Nat.sub_zero]
    rw [show (v + 2 ^ 64) % 2 ^ 64 = v by omega]
    exact hr
  · intro k hk hkle hklt
    rcases lt_trichotomy k r with h | h | h
    · have := sum_take_mono W (k + 1) r (by omega)
      omega
    · exact h
    · have := sum_take_mono W (r + 1) k (by omega)
      have := hnext (by omega)
      omega

theorem fwkCreate_rankQuery_witness :
    [3, 0, 5, 2].length < 2 ^ 60 ∧ [3, 0, 5, 2].sum < 2 ^ 64 ∧ 4 < [3, 0, 5, 2].sum ∧
      (∃ i, FenwickTree.rankQuery (fwkCreate [3, 0, 5, 2]) 4 = some i ∧ i < [3, 0, 5, 2].length ∧
        ([3, 0, 5, 2].take i).sum ≤ 4 ∧ 4 < ([3, 0, 5, 2].take (i + 1)).sum ∧
        (∀ k, k < [3, 0, 5, 2].length → ([3, 0, 5, 2].take k).sum ≤ 4 →
          4 < ([3, 0, 5, 2].take (k + 1)).sum → k = i) ∧
        ∀ k, k < i → ([3, 0, 5, 2].take (k + 1)).sum ≤ 4) ∧
      (List.range 10).map (fun v => FenwickTree.rankQuery (fwkCreate [3, 0, 5, 2]) v) =
        [some 0, some 0, some 0, some 2, some 2, some 2, some 2, some 2, some 3, some 3] :=
  ⟨by decide, by decide, by decide, fwkCreate_rankQuery [3, 0, 5, 2] (by decide) (by decide) 4
    (by decide), by decide⟩

/-- C4 (evaluation at the failing input).  On the tree created from `[3, 0, 5, 2]`, after
`set(1, 7)` the call `get(1)` still returns 0 and `get(0)` has changed from 3 to 10: `get(i)`
reads slot `i + 1` of the vector while `update(i, ...)` writes slot `i`. -/
theorem set_then_get_divergence :
    (List.range 4).map (FenwickTree.get (fwkCreate [3, 0, 5, 2])) =
        [some 3, some 0, some 5, some 2] ∧
      (FenwickTree.set (fwkCreate [3, 0, 5, 2]) 1 7).map
          (fun tree => (List.range 4).map (FenwickTree.get tree)) =
        some [some 10, some 0, some 5, some 2] := by
  decide

/-! ## The compiler: `compile` as one pass over the validated expressions -/

theorem validateAll_append (d : Declarations) (l1 l2 : List (StackValueType × Expression)) :
    ∀ states, validateAll d (l1 ++ l2) states =
      match validateAll d l1 states with
      | (some log, states1) => (some log, states1)
      | (none, states1) => validateAll d l2 states1 := by
  induction l1 with
  | nil => intro states; rfl
  | cons e l1 ih =>
      intro states
      obtain ⟨kind, expression⟩ := e
      simp only [List.cons_append, validateAll]
      rcases h : validateValueExpression d kind expression states with ⟨_ | log, states1⟩
      · exact ih states1
      · rfl

theorem compileConditions_eq (d : Declarations) (parameters : CompileParameters)
    (l : List Nat) :
    ∀ states, compileConditions d parameters l states =
      validateAll d (l.map (fun i => (StackValueType.Integer, parameters.condExpressions i)))
        states := by
  induction l with
  | nil => intro states; rfl
  | cons i l ih =>
      intro states
      simp only [compileConditions, List.map_cons, validateAll]
      rcases h : validateValueExpression d .Integer (parameters.condExpressions i) states with
        ⟨_ | log, states1⟩
      · simp only [ih]
      · rfl

theorem compileCommands_cons (d : Declarations) (parameters : CompileParameters) (i : Nat)
    (l : List Nat) (states : EffectAttributeStates) (impacts dangerous : Bool) :
    compileCommands d parameters (i :: l) states impacts dangerous =
      match expectedKind (parameters.commands i) with
      | some kind =>
          match validateValueExpression d kind (parameters.modifyExpressions i) states with
          | (some log, states1) => (some log, states1, impacts, dangerous)
          | (none, states1) =>
              compileCommands d parameters l states1
                (impacts || commandImpacts (parameters.commands i))
                (dangerous || parameters.commands i == .KillSnake)
      | none =>
          compileCommands d parameters l states
            (impacts || commandImpacts (parameters.commands i))
            (dangerous || parameters.commands i == .KillSnake) := by
  have hbeq : ∀ a b : ObjectCommand, (a == b) = decide (a = b) := fun _ _ => rfl
  cases hc : parameters.commands i <;>
    simp [compileCommands, hc, expectedKind, checkTypeOf, commandImpacts, hbeq]

theorem compileCommands_eq (d : Declarations) (parameters : CompileParameters) (l : List Nat) :
    ∀ states impacts dangerous,
      match validateAll d (l.filterMap (fun i => (expectedKind (parameters.commands i)).map
            (fun kind => (kind, parameters.modifyExpressions i)))) states with
      | (some log, _) =>
          (compileCommands d parameters l states impacts dangerous).1 = some log
      | (none, states1) =>
          compileCommands d parameters l states impacts dangerous =
            (none, states1, impacts || l.any (fun i => commandImpacts (parameters.commands i)),
              dangerous || l.any (fun i => parameters.commands i == .KillSnake)) := by
  induction l with
  | nil => intro states impacts dangerous; simp [compileCommands, validateAll]
  | cons i l ih =>
      intro states impacts dangerous
      rw [compileCommands_cons, List.filterMap_cons]
      rcases hk : expectedKind (parameters.commands i) with _ | kind
      · simp only [Option.map_none']
        have := ih states (impacts || commandImpacts (parameters.commands i))
          (dangerous || parameters.commands i == .KillSnake)
        simp only [List.any_cons, Bool.or_assoc] at this ⊢
        exact this
      · simp only [Option.map_some', validateAll]
        rcases hv : validateValueExpression d kind (parameters.modifyExpressions i) states with
          ⟨_ | log, states1⟩
        · simp only
          have := ih states1 (impacts || commandImpacts (parameters.commands i))
            (dangerous || parameters.commands i == .KillSnake)
          simp only [List.any_cons, Bool.or_assoc] at this ⊢
          exact this
        · simp

theorem compile_eq (d : Declarations) (self : ObjectBehavior) (parameters : CompileParameters) :
    compile d self parameters =
      match validateAll d (validatedExpressions parameters) .initial with
      | (some log, _) => (some log, self)
      | (none, states) => (none, compiledObject parameters states) := by
  unfold compile validatedExpressions
  rw [compileConditions_eq, validateAll_append]
  rcases h1 : validateAll d ((List.range parameters.conditionCount).map
      (fun i => (StackValueType.Integer, parameters.condExpressions i)))
      EffectAttributeStates.initial with ⟨_ | log, states⟩
  · simp only
    have h2 := compileCommands_eq d parameters (List.range (parameters.conditionCount + 1))
      states false false
    rcases h3 : validateAll d ((List.range (parameters.conditionCount + 1)).filterMap
        (fun i => (expectedKind (parameters.commands i)).map
          (fun kind => (kind, parameters.modifyExpressions i)))) states with ⟨_ | log, states1⟩
    · rw [h3] at h2
      simp only at h2
      rw [h2]
      simp [compiledObject]
    · rw [h3] at h2
      simp only at h2
      rcases h4 : compileCommands d parameters (List.range (parameters.conditionCount + 1))
        states false false with ⟨_ | log2, rest⟩
      · rw [h4] at h2; simp at h2
      · rw [h4] at h2
        simp only [Option.some.injEq] at h2
        subst h2
        rfl
  · rfl

theorem validateAll_none_iff (d : Declarations) (l : List (StackValueType × Expression)) :
    ∀ states, (validateAll d l states).1 = none ↔ AllAccepted d l states := by
  induction l with
  | nil => intro states; simp [validateAll, AllAccepted]
  | cons e l ih =>
      intro states
      obtain ⟨kind, expression⟩ := e
      simp only [validateAll, AllAccepted]
      rcases h : validateValueExpression d kind expression states with ⟨_ | log, states1⟩
      · simpa using ih states1
      · simp

/-- The first rejection in checking order is what `compile` returns, leaving the object
untouched. -/
theorem compile_first_rejection (d : Declarations) (self : ObjectBehavior)
    (parameters : CompileParameters) (accepted rest : List (StackValueType × Expression))
    (kind : StackValueType) (expression : Expression) (states : EffectAttributeStates)
    (log : String)
    (hsplit : validatedExpressions parameters = accepted ++ (kind, expression) :: rest)
    (haccepted : validateAll d accepted .initial = (none, states))
    (hrejected : (validateValueExpression d kind expression states).1 = some log) :
    compile d self parameters = (some log, self) := by
  rw [compile_eq, hsplit, validateAll_append, haccepted]
  simp only [validateAll]
  rcases h : validateValueExpression d kind expression states with ⟨_ | log2, states1⟩
  · rw [h] at hrejected; simp at hrejected
  · rw [h] at hrejected
    simp only [Option.some.injEq] at hrejected
    subst hrejected
    rfl

/-- C5 (all-or-nothing compile).  If, in checking order, the validated expressions `accepted`
are all accepted and the next one is rejected by `validateValueExpression` with message `log`,
then `compile` returns exactly `log` and the object (commands, condition expressions, modify
expressions, property flags, parameter type) is what it was before the call. -/
theorem compile_all_or_nothing (d : Declarations) (self : ObjectBehavior)
    (parameters : CompileParameters) (accepted rest : List (StackValueType × Expression))
    (kind : StackValueType) (expression : Expression) (states : EffectAttributeStates)
    (log : String)
    (hsplit : validatedExpressions parameters = accepted ++ (kind, expression) :: rest)
    (haccepted : validateAll d accepted .initial = (none, states))
    (hrejected : (validateValueExpression d kind expression states).1 = some log) :
    compile d self parameters = (some log, self) :=
  compile_first_rejection d self parameters accepted rest kind expression states log hsplit
    haccepted hrejected

theorem compile_all_or_nothing_witness :
    validatedExpressions scenarioOneParameters =
        [] ++ (StackValueType.Integer, [19, 25, 2, 14]) :: [(StackValueType.Acceleration, [2])] ∧
      validateAll demoDeclarations [] .initial = (none, .initial) ∧
      (validateValueExpression demoDeclarations .Integer [19, 25, 2, 14] .initial).1 =
        some "Lack of value in the stack: wrong type" ∧
      compile demoDeclarations ObjectBehavior.default scenarioOneParameters =
        (some "Lack of value in the stack: wrong type", ObjectBehavior.default) :=
  ⟨by decide, by decide, by decide,
    compile_all_or_nothing demoDeclarations ObjectBehavior.default scenarioOneParameters []
      [(StackValueType.Acceleration, [2])] .Integer [19, 25, 2, 14] .initial _
      (by decide) (by decide) (by decide)⟩

/-- C6.  `compile` succeeds if and only if, threading one shared `EffectAttributeStates`
through the checks in order, every condition is accepted for Integer and the modify-expression
of every ModifyAcceleration / ModifyDirection / Remember slot is accepted for Acceleration /
Direction / Integer; the modify-expressions of the other slots (KillSnake, StopSnake, NoOp) are
not validated at all: changing them does not change the outcome. -/
theorem compile_succeeds_iff (d : Declarations) (self : ObjectBehavior)
    (parameters : CompileParameters) :
    ((compile d self parameters).1 = none ↔
        AllAccepted d (validatedExpressions parameters) .initial) ∧
      ∀ other : CompileParameters,
        other.conditionCount = parameters.conditionCount →
        other.condExpressions = parameters.condExpressions →
        other.commands = parameters.commands →
        (∀ i, commandIsValidated (parameters.commands i) = true →
          other.modifyExpressions i = parameters.modifyExpressions i) →
        (compile d self other).1 = (compile d self parameters).1 := by
  constructor
  · rw [← validateAll_none_iff, compile_eq]
    rcases validateAll d (validatedExpressions parameters) .initial with ⟨_ | log, states⟩ <;>
      simp
  · intro other hcount hcond hcmd hmod
    have hsame : validatedExpressions other = validatedExpressions parameters := by
      unfold validatedExpressions
      rw [hcount, hcond, hcmd]
      congr 1
      apply List.filterMap_congr
      intro i _
      cases hc : parameters.commands i <;> simp [expectedKind] <;>
        exact hmod i (by simp [hc, commandIsValidated])
    rw [compile_eq, compile_eq, hsame]
    rcases validateAll d (validatedExpressions parameters) .initial with ⟨_ | log, states⟩ <;>
      rfl

theorem compile_succeeds_iff_witness :
    AllAccepted demoDeclarations (validatedExpressions killParameters) .initial ∧
      (compile demoDeclarations ObjectBehavior.default
          { killParameters with modifyExpressions := fun _ => [14] }).1 =
        (compile demoDeclarations ObjectBehavior.default killParameters).1 :=
  ⟨(compile_succeeds_iff demoDeclarations ObjectBehavior.default killParameters).1.1
      (by decide),
    (compile_succeeds_iff demoDeclarations ObjectBehavior.default killParameters).2
      { killParameters with modifyExpressions := fun _ => [14] } rfl rfl rfl
      (fun i h => by simp [killParameters, commandIsValidated] at h)⟩

/-- C7.  After a successful compile with `N = conditionCount` conditions, the ImpactsToSnake
flag is true if and only if one of the `N + 1` commands is ModifyAcceleration, ModifyDirection
or StopSnake, and the IsDangerous flag is true if and only if one of them is KillSnake. -/
theorem compile_flags (d : Declarations) (self compiled : ObjectBehavior)
    (parameters : CompileParameters) (h : compile d self parameters = (none, compiled)) :
    (compiled.m_properties.ImpactsToSnake = true ↔
        ∃ i, i ≤ parameters.conditionCount ∧
          (parameters.commands i = .ModifyAcceleration ∨
            parameters.commands i = .ModifyDirection ∨ parameters.commands i = .StopSnake)) ∧
      (compiled.m_properties.IsDangerous = true ↔
        ∃ i, i ≤ parameters.conditionCount ∧ parameters.commands i = .KillSnake) := by
  rw [compile_eq] at h
  rcases hv : validateAll d (validatedExpressions parameters) .initial with ⟨_ | log, states⟩
  · rw [hv] at h
    simp only [Prod.mk.injEq, true_and] at h
    subst h
    simp only [compiledObject, List.any_eq_true, List.mem_range, commandImpacts, Bool.or_eq_true,
      beq_iff_eq, Nat.lt_succ_iff, or_assoc]
    exact ⟨trivial, trivial⟩
  · rw [hv] at h; simp at h

theorem compile_flags_witness :
    compile demoDeclarations ObjectBehavior.default killParameters = (none, killCompiled) ∧
      killCompiled.m_properties.IsDangerous = true ∧
      killCompiled.m_properties.ImpactsToSnake = false ∧
      ((killCompiled.m_properties.ImpactsToSnake = true ↔
          ∃ i, i ≤ killParameters.conditionCount ∧
            (killParameters.commands i = .ModifyAcceleration ∨
              killParameters.commands i = .ModifyDirection ∨
              killParameters.commands i = .StopSnake)) ∧
        (killCompiled.m_properties.IsDangerous = true ↔
          ∃ i, i ≤ killParameters.conditionCount ∧ killParameters.commands i = .KillSnake)) :=
  ⟨by decide, by decide, by decide,
    compile_flags demoDeclarations ObjectBehavior.default killCompiled killParameters
      (by decide)⟩

/-! ## The compiler: derived attributes -/

theorem paramKindOf_ne_noParameter (kw : ObjectBehaviorKeyword) (k : ObjectParameterType)
    (h : paramKindOf kw = some k) : k ≠ .NoParameter := by
  cases kw <;> simp [paramKindOf] at h <;> subst h <;> simp

theorem statesAfter_nil (states : EffectAttributeStates) : StatesAfter [] states states := by
  simp [StatesAfter]

theorem statesAfter_append (l1 l2 : List ObjectBehaviorKeyword)
    (s1 s2 s3 : EffectAttributeStates) (h1 : StatesAfter l1 s1 s2) (h2 : StatesAfter l2 s2 s3) :
    StatesAfter (l1 ++ l2) s1 s3 := by
  obtain ⟨hr1, hp1, hn1, hk1⟩ := h1
  obtain ⟨hr2, hp2, hn2, hk2⟩ := h2
  refine ⟨?_, ?_, ?_, ?_⟩
  · rw [hr2, hr1, List.any_append, Bool.or_assoc]
  · intro kw hkw k hk
    rcases List.mem_append.1 hkw with h | h
    · have := hp1 kw h k hk
      rcases hk2 with h0 | h0
      · rw [this] at h0
        exact absurd h0 (paramKindOf_ne_noParameter kw k hk)
      · rw [h0, this]
    · exact hp2 kw h k hk
  · intro hall
    rw [hn2 (fun kw h => hall kw (List.mem_append_right _ h)),
      hn1 (fun kw h => hall kw (List.mem_append_left _ h))]
  · rcases hk1 with h0 | h0
    · exact Or.inl h0
    · rcases hk2 with h3 | h3
      · rw [h0] at h3; exact Or.inl h3
      · exact Or.inr (by rw [h3, h0])

theorem validateStep_states (kw : ObjectBehaviorKeyword) (kinds kinds1 : List StackValueType)
    (states states1 : EffectAttributeStates)
    (h : validateStep kw kinds states = (.ok kinds1, states1)) :
    StatesAfter [kw] states states1 := by
  rcases states with ⟨rr, pt⟩
  cases kw <;>
    simp only [validateStep, validateIntBinary, validateIntTop, validateParam] at h <;>
    (try split_ifs at h) <;>
    (try split at h) <;>
    (try split_ifs at h) <;>
    (try simp at h) <;>
    (try (obtain ⟨-, rfl⟩ := h)) <;>
    simp_all [StatesAfter, isRandomOpcode, paramKindOf] <;>
    tauto

theorem scannedOpcodes_cons_false (d : Declarations) (w : Nat) (rest : Expression) :
    scannedOpcodes d (w :: rest) false =
      if d.keywordOf w = .Int then .Int :: scannedOpcodes d rest true
      else if d.keywordOf w = .ExpressionEnd ∨ d.keywordOf w = .Unlisted then []
      else d.keywordOf w :: scannedOpcodes d rest false := by
  cases h : d.keywordOf w <;> simp [scannedOpcodes, h]

theorem statesAfter_cons_neutral (kw : ObjectBehaviorKeyword) (l : List ObjectBehaviorKeyword)
    (s1 s2 : EffectAttributeStates) (hr : isRandomOpcode kw = false)
    (hp : paramKindOf kw = none) (h : StatesAfter l s1 s2) : StatesAfter (kw :: l) s1 s2 := by
  have h1 : StatesAfter [kw] s1 s1 := by simp [StatesAfter, hr, hp]
  exact statesAfter_append [kw] l s1 s1 s2 h1 h

/-- On an accepted scan the validator leaves the attribute states determined by the opcodes at
the scanned positions. -/
theorem validateLoop_states (d : Declarations) (expression : Expression) :
    ∀ (isInteger : Bool) (kinds kindsF : List StackValueType)
      (states statesF : EffectAttributeStates),
      validateLoop d expression isInteger kinds states = (.ok kindsF, statesF) →
      StatesAfter (scannedOpcodes d expression isInteger) states statesF := by
  induction expression with
  | nil =>
      intro isInteger kinds kindsF states statesF h
      simp only [validateLoop, Prod.mk.injEq] at h
      rw [← h.2]
      exact statesAfter_nil states
  | cons w rest ih =>
      intro isInteger kinds kindsF states statesF h
      cases isInteger with
      | true =>
          simp only [validateLoop] at h
          simp only [scannedOpcodes]
          exact ih false _ _ _ _ h
      | false =>
          rw [validateLoop_cons_false] at h
          rw [scannedOpcodes_cons_false]
          by_cases h1 : d.keywordOf w = .Int
          · simp only [h1, if_true] at h ⊢
            exact statesAfter_cons_neutral _ _ _ _ rfl rfl (ih true _ _ _ _ h)
          · simp only [h1, if_false] at h ⊢
            by_cases h2 : d.keywordOf w = .ExpressionEnd ∨ d.keywordOf w = .Unlisted
            · simp only [h2, if_true] at h ⊢
              simp only [Prod.mk.injEq] at h
              rw [← h.2]
              exact statesAfter_nil states
            · simp only [h2, if_false] at h ⊢
              rcases hs : validateStep (d.keywordOf w) kinds states with ⟨_ | kinds1, states1⟩
              · simp [hs] at h
              · simp only [hs] at h
                exact statesAfter_append [d.keywordOf w] _ _ _ _
                  (validateStep_states _ _ _ _ _ hs) (ih false _ _ _ _ h)

theorem validateValueExpression_states (d : Declarations) (kind : StackValueType)
    (expression : Expression) (states states1 : EffectAttributeStates)
    (h : validateValueExpression d kind expression states = (none, states1)) :
    StatesAfter (scannedOpcodes d expression false) states states1 := by
  unfold validateValueExpression at h
  rcases hv : validateLoop d expression false [] states with ⟨_ | kindsF, statesF⟩
  · simp [hv] at h
  · simp only [hv] at h
    split_ifs at h
    · simp only [Prod.mk.injEq, true_and] at h
      rw [← h]
      exact validateLoop_states d expression false [] kindsF states statesF hv
    · simp at h

theorem validateAll_states (d : Declarations) (l : List (StackValueType × Expression)) :
    ∀ (states statesF : EffectAttributeStates),
      validateAll d l states = (none, statesF) →
      StatesAfter (l.flatMap (fun e => scannedOpcodes d e.2 false)) states statesF := by
  induction l with
  | nil =>
      intro states statesF h
      simp only [validateAll, Prod.mk.injEq, true_and] at h
      rw [← h]
      exact statesAfter_nil states
  | cons e l ih =>
      intro states statesF h
      obtain ⟨kind, expression⟩ := e
      simp only [validateAll] at h
      rcases hv : validateValueExpression d kind expression states with ⟨_ | log, states1⟩
      · rw [hv] at h
        simp only [List.flatMap_cons]
        exact statesAfter_append _ _ _ _ _
          (validateValueExpression_states d kind expression states states1 hv) (ih _ _ h)
      · rw [hv] at h; simp at h

theorem compile_states (d : Declarations) (self compiled : ObjectBehavior)
    (parameters : CompileParameters) (h : compile d self parameters = (none, compiled)) :
    ∃ states, compiled = compiledObject parameters states ∧
      StatesAfter (programOpcodes d parameters) .initial states := by
  rw [compile_eq] at h
  rcases hv : validateAll d (validatedExpressions parameters) .initial with ⟨_ | log, states⟩
  · rw [hv] at h
    simp only [Prod.mk.injEq, true_and] at h
    exact ⟨states, h.symm, validateAll_states d _ _ _ hv⟩
  · rw [hv] at h; simp at h

/-- C9.  After a successful compile, `getParameterType()` is NoParameter if no `ParamX` opcode
is scanned in any validated expression, and otherwise it is the kind of every `ParamX` opcode
scanned in the validated expressions; it is the same whatever the object held before the call
(a previous compile's parameter type does not leak into the result). -/
theorem compile_parameterType (d : Declarations) (self compiled : ObjectBehavior)
    (parameters : CompileParameters) (h : compile d self parameters = (none, compiled)) :
    ((∀ kw ∈ programOpcodes d parameters, paramKindOf kw = none) →
        getParameterType compiled = .NoParameter) ∧
      (∀ kw ∈ programOpcodes d parameters, ∀ k, paramKindOf kw = some k →
        getParameterType compiled = k) ∧
      ∀ previous : ObjectBehavior,
        getParameterType (compile d previous parameters).2 = getParameterType compiled := by
  obtain ⟨states, rfl, hr, hp, hn, hk⟩ := compile_states d self compiled parameters h
  refine ⟨fun hall => hn hall, hp, ?_⟩
  intro previous
  rw [compile_eq] at h ⊢
  rcases hv : validateAll d (validatedExpressions parameters) .initial with ⟨_ | log, states2⟩
  · rw [hv] at h
    simp only [Prod.mk.injEq, true_and] at h
    show getParameterType (compiledObject parameters states2) = _
    rw [h]
  · rw [hv] at h; simp at h

/-- C10.  After a successful compile, the RequiresRandom flag is true if and only if some
validated expression has, at a scanned opcode position, one of the random-generator opcodes
RandomAcceleration, RandomDirection, RandomDoubleDirection, RandomCombinedDirection or
IntRandomValue. -/
theorem compile_requiresRandom (d : Declarations) (self compiled : ObjectBehavior)
    (parameters : CompileParameters) (h : compile d self parameters = (none, compiled)) :
    compiled.m_properties.RequiresRandom = true ↔
      ∃ kw ∈ programOpcodes d parameters, isRandomOpcode kw = true := by
  obtain ⟨states, rfl, hr, hp, hn, hk⟩ := compile_states d self compiled parameters h
  simp only [compiledObject, hr, EffectAttributeStates.initial, Bool.false_or,
    List.any_eq_true]

theorem compile_parameterType_witness :
    compile demoDeclarations ObjectBehavior.default parameterProgram =
        (none, parameterProgramCompiled) ∧
      getParameterType parameterProgramCompiled = .Direction ∧
      (((∀ kw ∈ programOpcodes demoDeclarations parameterProgram, paramKindOf kw = none) →
          getParameterType parameterProgramCompiled = .NoParameter) ∧
        (∀ kw ∈ programOpcodes demoDeclarations parameterProgram, ∀ k,
          paramKindOf kw = some k → getParameterType parameterProgramCompiled = k) ∧
        ∀ previous : ObjectBehavior,
          getParameterType (compile demoDeclarations previous parameterProgram).2 =
            getParameterType parameterProgramCompiled) :=
  ⟨by decide, by decide,
    compile_parameterType demoDeclarations ObjectBehavior.default parameterProgramCompiled
      parameterProgram (by decide)⟩

theorem compile_requiresRandom_witness :
    compile demoDeclarations ObjectBehavior.default parameterProgram =
        (none, parameterProgramCompiled) ∧
      parameterProgramCompiled.m_properties.RequiresRandom = true ∧
      (parameterProgramCompiled.m_properties.RequiresRandom = true ↔
        ∃ kw ∈ programOpcodes demoDeclarations parameterProgram, isRandomOpcode kw = true) :=
  ⟨by decide, by decide,
    compile_requiresRandom demoDeclarations ObjectBehavior.default parameterProgramCompiled
      parameterProgram (by decide)⟩

/-! ## The compiler: parameter-kind conflicts -/

theorem scanReaches_cons_false (d : Declarations) (w : Nat) (rest : Expression) :
    scanReaches d (w :: rest) false =
      if d.keywordOf w = .Int then scanReaches d rest true
      else if d.keywordOf w = .ExpressionEnd ∨ d.keywordOf w = .Unlisted then none
      else scanReaches d rest false := by
  cases h : d.keywordOf w <;> simp [scanReaches, h]

/-- When the scan runs through `ws` without a rejection, validating `ws ++ rest` continues on
`rest` from the stack, flag and states reached at the end of `ws`. -/
theorem validateLoop_append (d : Declarations) (ws rest : Expression) :
    ∀ (isInteger reached : Bool) (kinds kinds1 : List StackValueType)
      (states states1 : EffectAttributeStates),
      scanReaches d ws isInteger = some reached →
      validateLoop d ws isInteger kinds states = (.ok kinds1, states1) →
      validateLoop d (ws ++ rest) isInteger kinds states =
        validateLoop d rest reached kinds1 states1 := by
  induction ws with
  | nil =>
      intro isInteger reached kinds kinds1 states states1 hr hv
      simp only [scanReaches, Option.some.injEq] at hr
      simp only [validateLoop, Prod.mk.injEq, Except.ok.injEq] at hv
      rw [List.nil_append, hr, hv.1, hv.2]
  | cons w ws ih =>
      intro isInteger reached kinds kinds1 states states1 hr hv
      cases isInteger with
      | true =>
          simp only [scanReaches] at hr
          simp only [validateLoop, List.cons_append] at hv ⊢
          exact ih false reached _ _ _ _ hr hv
      | false =>
          rw [scanReaches_cons_false] at hr
          rw [validateLoop_cons_false] at hv
          rw [List.cons_append, validateLoop_cons_false]
          by_cases h1 : d.keywordOf w = .Int
          · simp only [h1, if_true] at hr hv ⊢
            exact ih true reached _ _ _ _ hr hv
          · simp only [h1, if_false] at hr hv ⊢
            by_cases h2 : d.keywordOf w = .ExpressionEnd ∨ d.keywordOf w = .Unlisted
            · simp [h2] at hr
            · simp only [h2, if_false] at hr hv ⊢
              rcases hs : validateStep (d.keywordOf w) kinds states with ⟨_ | kinds2, states2⟩
              · simp [hs] at hv
              · simp only [hs] at hv ⊢
                exact ih false reached _ _ _ _ hr hv

theorem validateStep_param_conflict (kw : ObjectBehaviorKeyword) (k : ObjectParameterType)
    (kinds : List StackValueType) (states : EffectAttributeStates)
    (hk : paramKindOf kw = some k) (h1 : states.paramType ≠ k)
    (h2 : states.paramType ≠ .NoParameter) :
    ∃ log, validateStep kw kinds states = (.error log, states) ∧
      isParameterCorruption log = true := by
  cases kw <;> simp [paramKindOf] at hk <;> subst hk <;>
    simp [validateStep, validateParam, h1, h2, isParameterCorruption]

theorem paramKindOf_not_control (kw : ObjectBehaviorKeyword) (k : ObjectParameterType)
    (hk : paramKindOf kw = some k) :
    kw ≠ .Int ∧ ¬ (kw = .ExpressionEnd ∨ kw = .Unlisted) := by
  cases kw <;> simp [paramKindOf] at hk <;> simp

/-- C8 (amended).  For every program whose validated expressions, scanned in order up to
their terminators, contain a `ParamX` opcode of one kind and a later `ParamX` opcode of a
different kind, `compile` fails and leaves the object untouched.  It fails with a "Parameter
corruption" error when the scan reaches the later opcode: the expressions before the one that
holds it are all accepted, and no step of that expression before the opcode is rejected. -/
theorem param_conflict_rejected (d : Declarations) (self : ObjectBehavior)
    (parameters : CompileParameters) :
    (HasParamConflict (programOpcodes d parameters) →
        ∃ log, compile d self parameters = (some log, self)) ∧
      ∀ (accepted rest : List (StackValueType × Expression)) (kind : StackValueType)
        (ws ws1 : Expression) (w : Nat) (earlier : ObjectBehaviorKeyword)
        (k1 k2 : ObjectParameterType) (states states1 : EffectAttributeStates)
        (kinds1 : List StackValueType),
        validatedExpressions parameters = accepted ++ (kind, ws ++ w :: ws1) :: rest →
        scanReaches d ws false = some false →
        earlier ∈ accepted.flatMap (fun e => scannedOpcodes d e.2 false) ++
          scannedOpcodes d ws false →
        paramKindOf earlier = some k1 → paramKindOf (d.keywordOf w) = some k2 → k1 ≠ k2 →
        validateAll d accepted .initial = (none, states) →
        validateLoop d ws false [] states = (.ok kinds1, states1) →
        ∃ log, compile d self parameters = (some log, self) ∧
          isParameterCorruption log = true := by
  constructor
  · rintro ⟨before, between, after, kw1, kw2, k1, k2, hsplit, hk1, hk2, hne⟩
    rw [compile_eq]
    rcases hv : validateAll d (validatedExpressions parameters) .initial with ⟨_ | log, states⟩
    · exfalso
      obtain ⟨-, hp, -, -⟩ := validateAll_states d _ _ _ hv
      have e1 := hp kw1 (by rw [← programOpcodes, hsplit]; simp) k1 hk1
      have e2 := hp kw2 (by rw [← programOpcodes, hsplit]; simp) k2 hk2
      exact hne (e1.symm.trans e2)
    · exact ⟨log, rfl⟩
  · intro accepted rest kind ws ws1 w earlier k1 k2 states states1 kinds1 hsplit hreach hmem
      hk1 hk2 hne hacc hloop
    have hstates : StatesAfter (accepted.flatMap (fun e => scannedOpcodes d e.2 false) ++
        scannedOpcodes d ws false) .initial states1 :=
      statesAfter_append _ _ _ _ _ (validateAll_states d accepted _ _ hacc)
        (validateLoop_states d ws false [] kinds1 states states1 hloop)
    have hpt : states1.paramType = k1 := hstates.2.1 earlier hmem k1 hk1
    obtain ⟨log, hstep, hcorr⟩ := validateStep_param_conflict (d.keywordOf w) k2 kinds1 states1
      hk2 (by rw [hpt]; exact hne) (by rw [hpt]; exact paramKindOf_ne_noParameter _ _ hk1)
    obtain ⟨hc1, hc2⟩ := paramKindOf_not_control _ _ hk2
    have hval : (validateValueExpression d kind (ws ++ w :: ws1) states).1 = some log := by
      unfold validateValueExpression
      rw [validateLoop_append d ws (w :: ws1) false false [] kinds1 states states1 hreach hloop,
        validateLoop_cons_false]
      simp only [hc1, hc2, if_false, hstep]
    exact ⟨log, compile_first_rejection d self parameters accepted rest kind _ states log hsplit
      hacc hval, hcorr⟩

theorem param_conflict_rejected_witness :
    compile demoDeclarations ObjectBehavior.default conflictAcross =
        (some "Parameter corruption (acceleration)", ObjectBehavior.default) ∧
      (∃ log, compile demoDeclarations ObjectBehavior.default conflictAcross =
        (some log, ObjectBehavior.default)) ∧
      ∃ log, compile demoDeclarations ObjectBehavior.default conflictAcross =
          (some log, ObjectBehavior.default) ∧
        isParameterCorruption log = true :=
  ⟨by decide,
    (param_conflict_rejected demoDeclarations ObjectBehavior.default conflictAcross).1
      ⟨[], [.SnakeDirection, .Equal], [], .ParamDirection, .ParamAcceleration, .Direction,
        .Acceleration, by decide, rfl, rfl, by decide⟩,
    (param_conflict_rejected demoDeclarations ObjectBehavior.default conflictAcross).2
      [(.Integer, [22, 19, 14])] [] .Acceleration [] [] 21 .ParamDirection .Direction
      .Acceleration { requiresRandom := false, paramType := .Direction }
      { requiresRandom := false, paramType := .Direction } []
      (by decide) (by decide) (by decide) rfl rfl (by decide) (by decide) (by decide)⟩

/-- C8 (counterexample).  The program with the single command `Remember` and the
modify-expression `[ParamAcceleration, Not, ParamDirection]` has a `ParamX` opcode of one kind
and a later one of a different kind before its terminator, yet `compile` fails with the kind
error of the `Not` step, which is not a "Parameter corruption" error. -/
theorem param_conflict_other_error :
    HasParamConflict (programOpcodes demoDeclarations conflictBehindError) ∧
      compile demoDeclarations ObjectBehavior.default conflictBehindError =
        (some "Lack of value in the stack (Int)", ObjectBehavior.default) ∧
      isParameterCorruption "Lack of value in the stack (Int)" = false :=
  ⟨⟨[], [.Not], [], .ParamAcceleration, .ParamDirection, .Acceleration, .Direction,
      by decide, rfl, rfl, by decide⟩,
    by decide, by decide⟩

/-! ## The interpreter: `activate` -/

theorem toBool_eq_false_iff (w : Nat) : toBool w = false ↔ w = 0 := by
  simp [toBool]

theorem toBool_eq_true_iff (w : Nat) : toBool w = true ↔ w ≠ 0 := by
  simp [toBool]

/-- The loop of `activate` leaves `commandIndex` between its start value and the start value
plus the number of conditions left. -/
theorem selectCommandIndex_bounds (d : Declarations) (target : ExecutionTarget)
    (arguments : ExecutionArguments) (conditions : List Expression) :
    ∀ (start : Nat) (draws : Draws) (k : Nat) (draws1 : Draws),
      selectCommandIndex d target arguments conditions start draws = .ok (k, draws1) →
      start ≤ k ∧ k ≤ start + conditions.length := by
  induction conditions with
  | nil =>
      intro start draws k draws1 h
      simp only [selectCommandIndex, Except.ok.injEq, Prod.mk.injEq] at h
      simp [← h.1]
  | cons e rest ih =>
      intro start draws k draws1 h
      simp only [selectCommandIndex] at h
      rcases hc : computeValueExpression d e target arguments draws with _ | ⟨value, draws2⟩
      · simp [hc] at h
      · simp only [hc] at h
        split_ifs at h
        · simp only [Except.ok.injEq, Prod.mk.injEq] at h
          simp [← h.1]
        · have := ih _ _ _ _ h
          simp only [List.length_cons]
          omega

/-- The loop of `activate` stops at the first condition that is not zero, whatever follows. -/
theorem selectCommandIndex_first (d : Declarations) (target : ExecutionTarget)
    (arguments : ExecutionArguments) (zeros : List Expression) :
    ∀ (start : Nat) (draws draws1 draws2 : Draws) (expression : Expression) (value : Nat)
      (later : List Expression),
      conditionsAllZero d target arguments zeros draws = some draws1 →
      computeValueExpression d expression target arguments draws1 = .ok (value, draws2) →
      value ≠ 0 →
      selectCommandIndex d target arguments (zeros ++ expression :: later) start draws =
        .ok (start + zeros.length, draws2) := by
  induction zeros with
  | nil =>
      intro start draws draws1 draws2 expression value later hz hc hv
      simp only [conditionsAllZero, Option.some.injEq] at hz
      subst hz
      simp [selectCommandIndex, hc, toBool, hv]
  | cons e rest ih =>
      intro start draws draws1 draws2 expression value later hz hc hv
      simp only [conditionsAllZero] at hz
      rcases he : computeValueExpression d e target arguments draws with _ | ⟨v, draws3⟩
      · simp [he] at hz
      · simp only [he] at hz
        split_ifs at hz with hv0
        subst hv0
        simp only [List.cons_append, selectCommandIndex, he, toBool, ne_eq, not_true_eq_false,
          decide_False, Bool.false_eq_true, if_false]
        have hih := ih (start + 1) draws3 draws1 draws2 expression value later hz hc hv
        rw [show rest.append (expression :: later) = rest ++ expression :: later from rfl, hih]
        simp only [List.length_cons]
        congr 2
        omega

/-- The loop of `activate` runs to the end when every condition is zero. -/
theorem selectCommandIndex_none (d : Declarations) (target : ExecutionTarget)
    (arguments : ExecutionArguments) (zeros : List Expression) :
    ∀ (start : Nat) (draws draws1 : Draws),
      conditionsAllZero d target arguments zeros draws = some draws1 →
      selectCommandIndex d target arguments zeros start draws =
        .ok (start + zeros.length, draws1) := by
  induction zeros with
  | nil =>
      intro start draws draws1 hz
      simp only [conditionsAllZero, Option.some.injEq] at hz
      subst hz
      simp [selectCommandIndex]
  | cons e rest ih =>
      intro start draws draws1 hz
      simp only [conditionsAllZero] at hz
      rcases he : computeValueExpression d e target arguments draws with _ | ⟨v, draws3⟩
      · simp [he] at hz
      · simp only [he] at hz
        split_ifs at hz with hv0
        subst hv0
        simp only [selectCommandIndex, he, toBool, ne_eq, not_true_eq_false,
          decide_False, Bool.false_eq_true, if_false]
        rw [ih (start + 1) draws3 draws1 hz]
        simp only [List.length_cons]
        congr 2
        omega

theorem compile_stored (d : Declarations) (self compiled : ObjectBehavior)
    (parameters : CompileParameters) (h : compile d self parameters = (none, compiled)) :
    compiled.m_commands = (List.range (parameters.conditionCount + 1)).map parameters.commands ∧
      compiled.m_conditionExpressions =
        (List.range parameters.conditionCount).map parameters.condExpressions ∧
      compiled.m_modifyExpressions =
        (List.range (parameters.conditionCount + 1)).map parameters.modifyExpressions := by
  obtain ⟨states, rfl, -⟩ := compile_states d self compiled parameters h
  exact ⟨rfl, rfl, rfl⟩

theorem range_map_split (f : Nat → Expression) (n k : Nat) (hk : k < n) :
    (List.range n).map f =
      (List.range k).map f ++ f k :: ((List.range' (k + 1) (n - (k + 1))).map f) := by
  have h1 : List.range n = List.range k ++ List.range' k (n - k) := by
    rw [List.range_eq_range', List.range_eq_range']
    have := List.range'_append 0 k (n - k) 1
    simp only [Nat.one_mul, Nat.mul_one, Nat.zero_add] at this
    rw [this]
    congr 1
    omega
  have h2 : List.range' k (n - k) = k :: List.range' (k + 1) (n - (k + 1)) := by
    obtain ⟨m, hm⟩ : ∃ m, n - k = m + 1 := ⟨n - k - 1, by omega⟩
    rw [hm, List.range'_succ]
    congr 2
    omega
  rw [h1, h2, List.map_append, List.map_cons]

/-- C11.  For every successfully compiled program with `N` conditions, `activate` evaluates
the conditions in index order and leaves its loop with the index `k` of the first condition
whose `computeValueExpression` result is non-zero (the conditions before it evaluate to zero,
each on the request log left by the one before), without evaluating any later condition: the
request log is the one left by condition `k`, and replacing the later conditions by any others
changes nothing.  If every condition evaluates to zero the index is `N`. -/
theorem activate_selects_first (d : Declarations) (self compiled : ObjectBehavior)
    (parameters : CompileParameters) (h : compile d self parameters = (none, compiled))
    (target : ExecutionTarget) (arguments : ExecutionArguments) (draws : Draws) :
    (∀ (k : Nat) (draws1 draws2 : Draws) (value : Nat),
        k < parameters.conditionCount →
        conditionsAllZero d target arguments
          ((List.range k).map parameters.condExpressions) draws = some draws1 →
        computeValueExpression d (parameters.condExpressions k) target arguments draws1 =
          .ok (value, draws2) →
        value ≠ 0 →
        selectCommandIndex d target arguments compiled.m_conditionExpressions 0 draws =
            .ok (k, draws2) ∧
          ∀ later : List Expression,
            selectCommandIndex d target arguments
              (compiled.m_conditionExpressions.take (k + 1) ++ later) 0 draws =
                .ok (k, draws2)) ∧
      ∀ drawsF : Draws,
        conditionsAllZero d target arguments
          ((List.range parameters.conditionCount).map parameters.condExpressions) draws =
            some drawsF →
        selectCommandIndex d target arguments compiled.m_conditionExpressions 0 draws =
          .ok (parameters.conditionCount, drawsF) := by
  obtain ⟨-, hcond, -⟩ := compile_stored d self compiled parameters h
  constructor
  · intro k draws1 draws2 value hk hz hc hv
    have hsplit := range_map_split parameters.condExpressions parameters.conditionCount k hk
    have hfirst := selectCommandIndex_first d target arguments
      ((List.range k).map parameters.condExpressions) 0 draws draws1 draws2
      (parameters.condExpressions k) value
    simp only [List.length_map, List.length_range, Nat.zero_add] at hfirst
    constructor
    · rw [hcond, hsplit]
      exact hfirst _ hz hc hv
    · intro later
      have htake : (compiled.m_conditionExpressions.take (k + 1)) =
          (List.range k).map parameters.condExpressions ++ [parameters.condExpressions k] := by
        rw [hcond, hsplit, List.take_append_eq_append_take]
        simp
      rw [htake, List.append_assoc]
      exact hfirst _ hz hc hv
  · intro drawsF hz
    have := selectCommandIndex_none d target arguments _ 0 draws drawsF hz
    simp only [List.length_map, List.length_range, Nat.zero_add] at this
    rw [hcond]
    exact this

theorem activate_selects_first_witness :
    compile demoDeclarations ObjectBehavior.default branchProgram =
        (none, branchProgramCompiled) ∧
      selectCommandIndex demoDeclarations demoTarget demoArguments
        branchProgramCompiled.m_conditionExpressions 0 [] = .ok (1, []) ∧
      ∀ later : List Expression,
        selectCommandIndex demoDeclarations demoTarget demoArguments
          (branchProgramCompiled.m_conditionExpressions.take (1 + 1) ++ later) 0 [] =
            .ok (1, []) :=
  ⟨by decide,
    ((activate_selects_first demoDeclarations ObjectBehavior.default branchProgramCompiled
      branchProgram (by decide) demoTarget demoArguments []).1 1 [] [] 1 (by decide)
      (by decide) (by decide) (by decide)).1,
    ((activate_selects_first demoDeclarations ObjectBehavior.default branchProgramCompiled
      branchProgram (by decide) demoTarget demoArguments []).1 1 [] [] 1 (by decide)
      (by decide) (by decide) (by decide)).2⟩

theorem range_map_getElem? (α : Type) (f : Nat → α) (n k : Nat) (hk : k < n) :
    ((List.range n).map f)[k]? = some (f k) := by
  simp [List.getElem?_map, List.getElem?_range hk]

theorem activate_of_index (d : Declarations) (self : ObjectBehavior) (target : ExecutionTarget)
    (arguments : ExecutionArguments) (draws draws1 : Draws) (k : Nat)
    (command : ObjectCommand) (expression : Expression)
    (hsel : selectCommandIndex d target arguments self.m_conditionExpressions 0 draws =
      .ok (k, draws1))
    (hcommand : self.m_commands[k]? = some command)
    (hmodify : self.m_modifyExpressions[k]? = some expression) :
    activate d self target arguments draws =
      applyCommand d command expression target arguments draws1 := by
  have hk : k < self.m_commands.length := by
    by_contra hc
    rw [List.getElem?_eq_none (by omega)] at hcommand
    simp at hcommand
  have hne : self.m_commands.isEmpty = false := by
    rcases hm : self.m_commands with _ | ⟨c, cs⟩
    · rw [hm] at hk; simp at hk
    · rfl
  unfold activate
  simp only [hne, Bool.false_eq_true, if_false, hsel, ge_iff_le, Nat.not_le.2 hk, hmodify]
  rw [List.getD_eq_getElem?_getD, hcommand]
  rfl

/-- C12.  For every successfully compiled program, once the loop of `activate` has selected
the index `k`, `activate` applies exactly the effect of command `k` and changes no other field
of the target: KillSnake sets `alive` to false; StopSnake sets `moving` to false;
ModifyAcceleration, ModifyDirection and Remember set `snakeAcceleration`, `snakeDirection` and
`remembered` to the value of the paired expression, evaluated against the target as it was
before the assignment; NoOp leaves the whole target unchanged. -/
theorem activate_effect (d : Declarations) (self compiled : ObjectBehavior)
    (parameters : CompileParameters) (h : compile d self parameters = (none, compiled))
    (target : ExecutionTarget) (arguments : ExecutionArguments) (draws draws1 : Draws) (k : Nat)
    (hsel : selectCommandIndex d target arguments compiled.m_conditionExpressions 0 draws =
      .ok (k, draws1)) :
    activate d compiled target arguments draws =
      match parameters.commands k with
      | .KillSnake => .ok ({ target with alive := false }, draws1)
      | .StopSnake => .ok ({ target with moving := false }, draws1)
      | .ModifyAcceleration =>
          match computeValueExpression d (parameters.modifyExpressions k) target arguments
              draws1 with
          | .error fault => .error fault
          | .ok (value, draws2) => .ok ({ target with snakeAcceleration := value }, draws2)
      | .ModifyDirection =>
          match computeValueExpression d (parameters.modifyExpressions k) target arguments
              draws1 with
          | .error fault => .error fault
          | .ok (value, draws2) => .ok ({ target with snakeDirection := value }, draws2)
      | .Remember =>
          match computeValueExpression d (parameters.modifyExpressions k) target arguments
              draws1 with
          | .error fault => .error fault
          | .ok (value, draws2) => .ok ({ target with remembered := value }, draws2)
      | .NoOp => .ok (target, draws1) := by
  obtain ⟨hcmd, hcond, hmod⟩ := compile_stored d self compiled parameters h
  have hk := (selectCommandIndex_bounds d target arguments _ 0 draws k draws1 hsel).2
  rw [hcond] at hk
  simp only [List.length_map, List.length_range, Nat.zero_add] at hk
  rw [activate_of_index d compiled target arguments draws draws1 k (parameters.commands k)
    (parameters.modifyExpressions k) hsel
    (by rw [hcmd]; exact range_map_getElem? _ _ _ _ (by omega))
    (by rw [hmod]; exact range_map_getElem? _ _ _ _ (by omega))]
  cases parameters.commands k <;> rfl

theorem activate_effect_witness :
    compile demoDeclarations ObjectBehavior.default branchProgram =
        (none, branchProgramCompiled) ∧
      selectCommandIndex demoDeclarations demoTarget demoArguments
        branchProgramCompiled.m_conditionExpressions 0 [] = .ok (1, []) ∧
      activate demoDeclarations branchProgramCompiled demoTarget demoArguments [] =
        .ok ({ demoTarget with snakeAcceleration := 2 }, []) :=
  ⟨by decide, by decide,
    (activate_effect demoDeclarations ObjectBehavior.default branchProgramCompiled
      branchProgram (by decide) demoTarget demoArguments [] [] 1 (by decide)).trans
      (by decide)⟩

theorem compile_failed_unchanged (d : Declarations) (self : ObjectBehavior)
    (parameters : CompileParameters) (log : String)
    (h : (compile d self parameters).1 = some log) : (compile d self parameters).2 = self := by
  rw [compile_eq] at h ⊢
  rcases hv : validateAll d (validatedExpressions parameters) .initial with ⟨_ | log2, states⟩
  · rw [hv] at h; simp at h
  · rfl

theorem reachable_storedShape (d : Declarations) (self : ObjectBehavior)
    (h : Reachable d self) : StoredShape self := by
  induction h with
  | default => exact Or.inl ⟨rfl, rfl⟩
  | compile self parameters _ ih =>
      rcases hc : (compile d self parameters).1 with _ | log
      · have hfull : compile d self parameters = (none, (compile d self parameters).2) := by
          rw [← hc]
        obtain ⟨h1, h2, h3⟩ := compile_stored d self _ parameters hfull
        right
        rw [h1, h2, h3]
        simp
      · rw [compile_failed_unchanged d self parameters log hc]
        exact ih

/-- C14.  For every object reachable from default construction by a sequence of `compile`
calls (successful or failed): the index selected by the loop of `activate` is greater than or
equal to the number of stored commands only if there are no commands; with no commands
`activate` returns at once, leaving the target and the request log unchanged; and a successful
compile with `N` conditions stores exactly `N` condition expressions, `N + 1` commands and
`N + 1` modify-expressions. -/
theorem reachable_index_in_range (d : Declarations) (self : ObjectBehavior)
    (hreach : Reachable d self) :
    (∀ (target : ExecutionTarget) (arguments : ExecutionArguments) (draws draws1 : Draws)
        (k : Nat),
        selectCommandIndex d target arguments self.m_conditionExpressions 0 draws =
          .ok (k, draws1) →
        k ≥ self.m_commands.length → self.m_commands = []) ∧
      (self.m_commands = [] →
        ∀ (target : ExecutionTarget) (arguments : ExecutionArguments) (draws : Draws),
          activate d self target arguments draws = .ok (target, draws)) ∧
      ∀ (parameters : CompileParameters) (compiled : ObjectBehavior),
        compile d self parameters = (none, compiled) →
        compiled.m_conditionExpressions.length = parameters.conditionCount ∧
          compiled.m_commands.length = parameters.conditionCount + 1 ∧
          compiled.m_modifyExpressions.length = parameters.conditionCount + 1 := by
  refine ⟨?_, ?_, ?_⟩
  · intro target arguments draws draws1 k hsel hk
    rcases reachable_storedShape d self hreach with h | h
    · exact h.1
    · have := (selectCommandIndex_bounds d target arguments _ 0 draws k draws1 hsel).2
      omega
  · intro hempty target arguments draws
    simp [activate, hempty]
  · intro parameters compiled hc
    obtain ⟨h1, h2, h3⟩ := compile_stored d self compiled parameters hc
    rw [h1, h2, h3]
    simp

theorem reachable_index_in_range_witness :
    Reachable demoDeclarations
        (compile demoDeclarations ObjectBehavior.default scenarioOneParameters).2 ∧
      (compile demoDeclarations ObjectBehavior.default scenarioOneParameters).2.m_commands =
        [] ∧
      ∀ (target : ExecutionTarget) (arguments : ExecutionArguments) (draws : Draws),
        activate demoDeclarations
          (compile demoDeclarations ObjectBehavior.default scenarioOneParameters).2 target
          arguments draws = .ok (target, draws) :=
  ⟨Reachable.compile _ _ Reachable.default, by decide,
    (reachable_index_in_range demoDeclarations _
      (Reachable.compile ObjectBehavior.default scenarioOneParameters Reachable.default)).2.1
      (by decide)⟩

/-- C13 (amended).  Concrete scenario 1, whatever the numbering of the opcodes: the program
with the single condition `[SnakeDirection, Int, 2, Equal]`, the commands
`[ModifyAcceleration, NoOp]` and the modify-expression `[AccelerationUp]` is rejected by
`compile` (the `Equal` step meets an Integer above a Direction) and the object is left as it
was.  An object that holds these expressions and commands behaves as the scenario describes:
activated on a target whose `snakeDirection` is 2 it sets `snakeAcceleration` to
`Acceleration::Up` and changes nothing else, and on a target whose `snakeDirection` is 3 it
leaves the target unchanged. -/
theorem scenario_one (d : Declarations) (sd int eq up : Nat)
    (hsd : d.keywordOf sd = .SnakeDirection) (hint : d.keywordOf int = .Int)
    (heq : d.keywordOf eq = .Equal) (hup : d.keywordOf up = .AccelerationUp) :
    (∀ (self : ObjectBehavior) (parameters : CompileParameters),
        parameters.conditionCount = 1 →
        parameters.condExpressions 0 = [sd, int, 2, eq] →
        parameters.commands 0 = .ModifyAcceleration → parameters.commands 1 = .NoOp →
        parameters.modifyExpressions 0 = [up] →
        compile d self parameters = (some "Lack of value in the stack: wrong type", self)) ∧
      ∀ (stored : ObjectBehavior) (elseExpression : Expression),
        stored.m_conditionExpressions = [[sd, int, 2, eq]] →
        stored.m_commands = [.ModifyAcceleration, .NoOp] →
        stored.m_modifyExpressions = [[up], elseExpression] →
        ∀ (target : ExecutionTarget) (arguments : ExecutionArguments) (draws : Draws),
          (target.snakeDirection = 2 →
            activate d stored target arguments draws =
              .ok ({ target with snakeAcceleration := d.accelerationUp }, draws)) ∧
          (target.snakeDirection = 3 →
            activate d stored target arguments draws = .ok (target, draws)) := by
  constructor
  · intro self parameters hcount hcond hcmd0 hcmd1 hmod
    apply compile_first_rejection d self parameters [] [(.Acceleration, [up])] .Integer
      [sd, int, 2, eq] .initial
    · simp [validatedExpressions, hcount, List.range_succ, hcond, hcmd0, hcmd1, hmod,
        expectedKind]
    · rfl
    · simp [validateValueExpression, validateLoop, hsd, hint, heq, validateStep, frontIs]
  · intro stored elseExpression hconds hcmds hmods target arguments draws
    constructor
    · intro h2
      simp [activate, hconds, hcmds, hmods, selectCommandIndex, computeValueExpression,
        computeLoop, hsd, hint, heq, hup, computeStep, onTwo, h2, ofBool, toBool, applyCommand]
    · intro h3
      simp [activate, hconds, hcmds, hmods, selectCommandIndex, computeValueExpression,
        computeLoop, hsd, hint, heq, hup, computeStep, onTwo, h3, ofBool, toBool, applyCommand]

theorem scenario_one_witness :
    compile demoDeclarations ObjectBehavior.default scenarioOneParameters =
        (some "Lack of value in the stack: wrong type", ObjectBehavior.default) ∧
      (demoTarget.snakeDirection = 2 →
          activate demoDeclarations scenarioOneStored demoTarget demoArguments [] =
            .ok ({ demoTarget with snakeAcceleration := demoDeclarations.accelerationUp },
              [])) ∧
      (({ demoTarget with snakeDirection := 3 } : ExecutionTarget).snakeDirection = 3 →
          activate demoDeclarations scenarioOneStored { demoTarget with snakeDirection := 3 }
              demoArguments [] =
            .ok ({ demoTarget with snakeDirection := 3 }, [])) ∧
      activate demoDeclarations scenarioOneStored demoTarget demoArguments [] =
        .ok ({ demoTarget with snakeAcceleration := 2 }, []) :=
  ⟨(scenario_one demoDeclarations 19 25 14 2 rfl rfl rfl rfl).1 ObjectBehavior.default
      scenarioOneParameters rfl rfl rfl rfl rfl,
    ((scenario_one demoDeclarations 19 25 14 2 rfl rfl rfl rfl).2 scenarioOneStored [] rfl rfl
      rfl demoTarget demoArguments []).1,
    ((scenario_one demoDeclarations 19 25 14 2 rfl rfl rfl rfl).2 scenarioOneStored [] rfl rfl
      rfl { demoTarget with snakeDirection := 3 } demoArguments []).2,
    by decide⟩

/-- C13 (counterexample).  The program of concrete scenario 1 does not compile: `compile`
returns the validator's message for the condition and stores nothing. -/
theorem scenario_one_not_compiled :
    (compile demoDeclarations ObjectBehavior.default scenarioOneParameters).1 =
        some "Lack of value in the stack: wrong type" ∧
      (compile demoDeclarations ObjectBehavior.default scenarioOneParameters).2 =
        ObjectBehavior.default ∧
      (validateValueExpression demoDeclarations .Integer [19, 25, 2, 14] .initial).1 ≠ none := by
  decide

/-! ## The validator: rejected kind mismatches -/

theorem validateStep_binary_mismatch (kw : ObjectBehaviorKeyword) (kinds : List StackValueType)
    (states : EffectAttributeStates) (hop : isBinaryIntegerOpcode kw = true)
    (hkinds : ¬ ∃ rest, kinds = .Integer :: .Integer :: rest) :
    validateStep kw kinds states = (.error "Lack of value in the stack (Int)", states) := by
  rcases kinds with _ | ⟨k1, _ | ⟨k2, kinds⟩⟩ <;>
    cases kw <;> simp [isBinaryIntegerOpcode] at hop <;>
    simp [validateStep, validateIntBinary, validateIntTop, frontIs] <;>
    (try (intro h1 h2; exact hkinds ⟨kinds, by rw [h1, h2]⟩))

theorem isBinaryIntegerOpcode_not_control (kw : ObjectBehaviorKeyword)
    (hop : isBinaryIntegerOpcode kw = true) :
    kw ≠ .Int ∧ ¬ (kw = .ExpressionEnd ∨ kw = .Unlisted) := by
  cases kw <;> simp [isBinaryIntegerOpcode] at hop <;> simp

/-- C15.  The validator rejects integer-operator kind mismatches: whenever the scan of an
expression reaches, without an earlier rejection, one of the binary Integer-only opcodes while
the abstract stack does not have two Integer entries on top (another kind there, or fewer than
two entries), `validateValueExpression` returns the non-empty message "Lack of value in the
stack (Int)", for every expected kind. -/
theorem integer_operator_mismatch_rejected (d : Declarations) (type : StackValueType)
    (ws ws1 : Expression) (w : Nat) (states states1 : EffectAttributeStates)
    (kinds : List StackValueType)
    (hreach : scanReaches d ws false = some false)
    (hscan : validateLoop d ws false [] states = (.ok kinds, states1))
    (hop : isBinaryIntegerOpcode (d.keywordOf w) = true)
    (hkinds : ¬ ∃ rest, kinds = .Integer :: .Integer :: rest) :
    (validateValueExpression d type (ws ++ w :: ws1) states).1 =
        some "Lack of value in the stack (Int)" ∧
      "Lack of value in the stack (Int)" ≠ "" := by
  refine ⟨?_, by decide⟩
  obtain ⟨hc1, hc2⟩ := isBinaryIntegerOpcode_not_control _ hop
  unfold validateValueExpression
  rw [validateLoop_append d ws (w :: ws1) false false [] kinds states states1 hreach hscan,
    validateLoop_cons_false]
  simp only [hc1, hc2, if_false, validateStep_binary_mismatch _ kinds states1 hop hkinds]

theorem integer_operator_mismatch_rejected_witness :
    scanReaches demoDeclarations [19, 25, 1] false = some false ∧
      validateLoop demoDeclarations [19, 25, 1] false [] .initial =
        (.ok [.Integer, .Direction], .initial) ∧
      isBinaryIntegerOpcode (demoDeclarations.keywordOf 26) = true ∧
      (validateValueExpression demoDeclarations .Integer ([19, 25, 1] ++ 26 :: []) .initial).1 =
        some "Lack of value in the stack (Int)" ∧
      (validateValueExpression demoDeclarations .Integer [19, 25, 1, 26] .initial).1 ≠ none :=
  ⟨by decide, by decide, by decide,
    (integer_operator_mismatch_rejected demoDeclarations .Integer [19, 25, 1] [] 26 .initial
      .initial [.Integer, .Direction] (by decide) (by decide) (by decide)
      (by rintro ⟨rest, h⟩; simp at h)).1,
    by decide⟩

/-! ## `getSum` on the tree of `fwkCreate` -/

namespace FenwickTree

/-- The loop of `getSum` walks from `i` down to 0 and adds the slots `1 .. i`. -/
theorem getSumLoop_spec (orig tree : List Nat) (ht : IsTree orig tree)
    (hN : tree.length ≤ 2 ^ 63) :
    ∀ (fuel i sum : Nat), i < tree.length → i < fuel → sum < 2 ^ 64 →
      ∃ s, getSumLoop tree fuel i sum = some s ∧ s < 2 ^ 64 ∧
        (s : ZMod (2 ^ 64)) = (sum : ZMod (2 ^ 64)) + slotSum orig i := by
  intro fuel
  induction fuel with
  | zero => intro i sum _ h; omega
  | succ fuel ih =>
      intro i sum hi hfuel hsum
      unfold getSumLoop
      by_cases h0 : i = 0
      · subst h0
        simp only [ne_eq, not_true_eq_false, if_false]
        exact ⟨sum, rfl, hsum, by simp [slotSum]⟩
      · simp only [ne_eq, h0, not_false_eq_true, if_true]
        rw [getElem?_eq_some_getD tree i hi]
        simp only
        have hpos := lowBit_pos i (by omega) (by omega)
        have hle := lowBit_le i
        obtain ⟨s, hs, hs64, hcast⟩ := ih (getParent i) ((sum + tree.getD i 0) % 2 ^ 64)
          (by unfold getParent; omega) (by unfold getParent; omega) (Nat.mod_lt _ (by norm_num))
        refine ⟨s, hs, hs64, ?_⟩
        rw [hcast, ZMod.natCast_mod, Nat.cast_add, ht.2.2 i (by omega) hi]
        unfold nodeVal
        ring

end FenwickTree

theorem fwkCreate_nil : fwkCreate [] = [0] := by decide

/-- C16.  For every tree created by `fwkCreate` from a weight array `W` of 32-bit weights
and every index `i` with `0 ≤ i ≤ length - 1`, `getSum(i)` is the sum of the first `i` weights
`W[0] + ... + W[i-1]` (the padding counts as 0), modulo `2 ^ 64`. -/
theorem fwkCreate_getSum (W : List Nat) (hlen : W.length < 2 ^ 60) (hW : ∀ w ∈ W, w < 2 ^ 32)
    (i : Nat) (hi : i ≤ (fwkCreate W).length - 1) :
    FenwickTree.getSum (fwkCreate W) i = some ((W.take i).sum % 2 ^ 64) := by
  rcases Nat.eq_zero_or_pos W.length with h0 | h1
  · have hW0 : W = [] := List.length_eq_zero.1 h0
    subst hW0
    rw [fwkCreate_nil] at hi ⊢
    have : i = 0 := by simpa using hi
    subst this
    decide
  · have hW64 : ∀ w ∈ W, w < 2 ^ 64 := fun w hw => lt_trans (hW w hw) (by norm_num)
    obtain ⟨ht, hN, b, hb, hle⟩ := fwkCreate_isTree W h1 hlen hW64
    have h0 : (fwkCreate W).getD 0 0 = 0 := by
      rw [fwkCreate, init_getD_zero, fwkLayout_getD_zero]
    have hi2 : i < (fwkCreate W).length := by omega
    unfold getSum
    rw [getElem?_eq_some_getD (fwkCreate W) 0 (by omega), h0]
    simp only
    obtain ⟨s, hs, hs64, hcast⟩ := getSumLoop_spec (fwkLayout W) (fwkCreate W) ht hN (i + 1) i 0
      hi2 (by omega) (by norm_num)
    rw [hs]
    congr 1
    rw [slotSum_fwkLayout, Nat.cast_zero, zero_add] at hcast
    have := (ZMod.natCast_eq_natCast_iff' _ _ _).1 hcast
    rw [Nat.mod_eq_of_lt hs64] at this
    exact this

theorem fwkCreate_getSum_witness :
    [3, 0, 5, 2].length < 2 ^ 60 ∧ (∀ w ∈ [3, 0, 5, 2], w < 2 ^ 32) ∧
      3 ≤ (fwkCreate [3, 0, 5, 2]).length - 1 ∧
      FenwickTree.getSum (fwkCreate [3, 0, 5, 2]) 3 = some (([3, 0, 5, 2].take 3).sum % 2 ^ 64) ∧
      (List.range 5).map (FenwickTree.getSum (fwkCreate [3, 0, 5, 2])) =
        [some 0, some 3, some 3, some 8, some 10] :=
  ⟨by decide, by decide, by decide,
    fwkCreate_getSum [3, 0, 5, 2] (by decide) (by decide) 3 (by decide), by decide⟩

/-! ## The layout chosen by `fwkCreate` -/

theorem init_length (data : List Nat) : (FenwickTree.init data).length = data.length := by
  unfold FenwickTree.init
  generalize List.range' 1 (data.length - 1) = l
  induction l generalizing data with
  | nil => rfl
  | cons i l ih => rw [List.foldl_cons, ih, initStep_length]

/-- C17.  For every input length `n ≥ 1` (of a length a vector can have), the array built by
`fwkCreate` has length `2 ^ k + 1` where `2 ^ k` is the smallest power of two with
`2 ^ k ≥ n`; hence the length is greater than `n` and `length - 1` is a power of two.  Before
`init`, slot 0 holds 0, slots `1 .. n` hold the weights and the slots `n + 1 .. length - 1` are
zero. -/
theorem fwkCreate_layout (W : List Nat) (h1 : 1 ≤ W.length) (hlen : W.length < 2 ^ 60) :
    ∃ k, (fwkCreate W).length = 2 ^ k + 1 ∧ (fwkLayout W).length = 2 ^ k + 1 ∧
      W.length ≤ 2 ^ k ∧ (∀ j, W.length ≤ 2 ^ j → k ≤ j) ∧
      W.length < (fwkCreate W).length ∧
      (fwkLayout W)[0]? = some 0 ∧
      (∀ m, m < W.length → (fwkLayout W)[m + 1]? = W[m]?) ∧
      ∀ j, W.length + 1 ≤ j → j < (fwkLayout W).length → (fwkLayout W)[j]? = some 0 := by
  obtain ⟨b, hb, hle, hsm⟩ := realsize_spec W.length h1 (by omega)
  have hl := fwkLayout_length W h1 (by omega)
  have hlay : (fwkLayout W).length = 2 ^ b + 1 := by rw [hl, hb]; omega
  refine ⟨b, by rw [fwkCreate, init_length, hlay], hlay, hle, ?_,
    by rw [fwkCreate, init_length, hlay]; omega, by simp [fwkLayout], ?_, ?_⟩
  · intro j hj
    rcases hsm with rfl | hsm
    · omega
    · by_contra hc
      have : 2 ^ j ≤ 2 ^ (b - 1) := Nat.pow_le_pow_right (by norm_num) (by omega)
      omega
  · intro m hm
    unfold fwkLayout
    rw [List.getElem?_cons_succ, List.getElem?_append_left hm]
  · intro j hj1 hj2
    obtain ⟨m, rfl⟩ : ∃ m, j = m + 1 := ⟨j - 1, by omega⟩
    have hget := fwkLayout_getD_succ W m
    rw [List.getD_eq_default W 0 (by omega), List.getD_eq_getElem _ _ hj2] at hget
    rw [List.getElem?_eq_getElem hj2, hget]

theorem fwkCreate_layout_witness :
    1 ≤ [3, 0, 5, 2, 7].length ∧ [3, 0, 5, 2, 7].length < 2 ^ 60 ∧
      fwkLayout [3, 0, 5, 2, 7] = [0, 3, 0, 5, 2, 7, 0, 0, 0] ∧
      (fwkCreate [3, 0, 5, 2, 7]).length = 2 ^ 3 + 1 ∧
      ∃ k, (fwkCreate [3, 0, 5, 2, 7]).length = 2 ^ k + 1 ∧
        (fwkLayout [3, 0, 5, 2, 7]).length = 2 ^ k + 1 ∧
        [3, 0, 5, 2, 7].length ≤ 2 ^ k ∧ (∀ j, [3, 0, 5, 2, 7].length ≤ 2 ^ j → k ≤ j) ∧
        [3, 0, 5, 2, 7].length < (fwkCreate [3, 0, 5, 2, 7]).length ∧
        (fwkLayout [3, 0, 5, 2, 7])[0]? = some 0 ∧
        (∀ m, m < [3, 0, 5, 2, 7].length →
          (fwkLayout [3, 0, 5, 2, 7])[m + 1]? = [3, 0, 5, 2, 7][m]?) ∧
        ∀ j, [3, 0, 5, 2, 7].length + 1 ≤ j → j < (fwkLayout [3, 0, 5, 2, 7]).length →
          (fwkLayout [3, 0, 5, 2, 7])[j]? = some 0 :=
  ⟨by decide, by decide, by decide, by decide,
    fwkCreate_layout [3, 0, 5, 2, 7] (by decide) (by decide)⟩

/-! ## The interpreter: arithmetic opcodes -/

/-- A pass of the interpreter's loop over an opcode whose step succeeds. -/
theorem computeLoop_step (d : Declarations) (target : ExecutionTarget)
    (arguments : ExecutionArguments) (w : Nat) (rest : Expression) (stack stack1 : List Nat)
    (draws draws1 : Draws)
    (hc : d.keywordOf w ≠ .Int ∧ d.keywordOf w ≠ .ExpressionEnd ∧ d.keywordOf w ≠ .Unlisted)
    (hstep : computeStep d target arguments (d.keywordOf w) stack draws = .ok (stack1, draws1)) :
    computeLoop d target arguments (w :: rest) false stack draws =
      computeLoop d target arguments rest false stack1 draws1 := by
  rw [computeLoop_cons_false]
  simp only [hc.1, hc.2.1, hc.2.2, or_self, if_false, hstep]

/-- C18.  Division and modulo by zero yield zero: on a stack with `a` below `b` (on top),
`IntDivideAndFloor` replaces the two operands with 0 when `b` is 0 and with `a / b` (rounded
down) otherwise, and `IntModulo` replaces them with 0 when `b` is 0 and with `a mod b`
otherwise; the step never faults, the loop goes on with the new stack, and the result of
32-bit operands is a 32-bit word. -/
theorem divide_and_modulo_by_zero (d : Declarations) (target : ExecutionTarget)
    (arguments : ExecutionArguments) (a b : Nat) (stack : List Nat) (draws : Draws) :
    computeStep d target arguments .IntDivideAndFloor (b :: a :: stack) draws =
        .ok ((if b = 0 then 0 else a / b) :: stack, draws) ∧
      computeStep d target arguments .IntModulo (b :: a :: stack) draws =
        .ok ((if b = 0 then 0 else a % b) :: stack, draws) ∧
      (∀ (w : Nat) (rest : Expression), d.keywordOf w = .IntDivideAndFloor →
        computeLoop d target arguments (w :: rest) false (b :: a :: stack) draws =
          computeLoop d target arguments rest false ((if b = 0 then 0 else a / b) :: stack)
            draws) ∧
      (∀ (w : Nat) (rest : Expression), d.keywordOf w = .IntModulo →
        computeLoop d target arguments (w :: rest) false (b :: a :: stack) draws =
          computeLoop d target arguments rest false ((if b = 0 then 0 else a % b) :: stack)
            draws) ∧
      (a < 2 ^ 32 → (if b = 0 then 0 else a / b) < 2 ^ 32 ∧ (if b = 0 then 0 else a % b) < 2 ^ 32)
    := by
  refine ⟨rfl, rfl, ?_, ?_, ?_⟩
  · intro w rest hw
    exact computeLoop_step d target arguments w rest _ _ draws draws (by simp [hw])
      (by rw [hw]; rfl)
  · intro w rest hw
    exact computeLoop_step d target arguments w rest _ _ draws draws (by simp [hw])
      (by rw [hw]; rfl)
  · intro ha
    constructor
    · split
      · norm_num
      · exact lt_of_le_of_lt (Nat.div_le_self a b) ha
    · split
      · norm_num
      · exact lt_of_le_of_lt (Nat.mod_le a b) ha

theorem divide_and_modulo_by_zero_witness :
    computeValueExpression demoDeclarations [25, 7, 25, 0, 36] demoTarget demoArguments [] =
        .ok (0, []) ∧
      computeValueExpression demoDeclarations [25, 7, 25, 0, 41] demoTarget demoArguments [] =
        .ok (0, []) ∧
      computeValueExpression demoDeclarations [25, 7, 25, 2, 36] demoTarget demoArguments [] =
        .ok (3, []) ∧
      computeValueExpression demoDeclarations [25, 7, 25, 2, 41] demoTarget demoArguments [] =
        .ok (1, []) ∧
      computeLoop demoDeclarations demoTarget demoArguments [36] false [0, 7] [] =
        computeLoop demoDeclarations demoTarget demoArguments [] false
          [if (0 : Nat) = 0 then 0 else 7 / 0] [] :=
  ⟨by decide, by decide, by decide, by decide,
    (divide_and_modulo_by_zero demoDeclarations demoTarget demoArguments 7 0 [] []).2.2.1 36 []
      rfl⟩

/-- C19.  Overflow detection is exact: for 32-bit words `a` (below) and `b` (on top),
`IntAddOverflow` replaces the operands with 1 if the sum `a + b` is at least `2 ^ 32` and with
0 otherwise, and `IntMultiplyOverflow` replaces them with 1 if the product `a * b` is at least
`2 ^ 32` and with 0 otherwise. -/
theorem overflow_detection (d : Declarations) (target : ExecutionTarget)
    (arguments : ExecutionArguments) (a b : Nat) (stack : List Nat) (draws : Draws)
    (ha : a < 2 ^ 32) (hb : b < 2 ^ 32) :
    computeStep d target arguments .IntAddOverflow (b :: a :: stack) draws =
        .ok ((if 2 ^ 32 ≤ a + b then 1 else 0) :: stack, draws) ∧
      computeStep d target arguments .IntMultiplyOverflow (b :: a :: stack) draws =
        .ok ((if 2 ^ 32 ≤ a * b then 1 else 0) :: stack, draws) ∧
      (∀ (w : Nat) (rest : Expression), d.keywordOf w = .IntAddOverflow →
        computeLoop d target arguments (w :: rest) false (b :: a :: stack) draws =
          computeLoop d target arguments rest false ((if 2 ^ 32 ≤ a + b then 1 else 0) :: stack)
            draws) ∧
      ∀ (w : Nat) (rest : Expression), d.keywordOf w = .IntMultiplyOverflow →
        computeLoop d target arguments (w :: rest) false (b :: a :: stack) draws =
          computeLoop d target arguments rest false ((if 2 ^ 32 ≤ a * b then 1 else 0) :: stack)
            draws := by
  have hadd : computeStep d target arguments .IntAddOverflow (b :: a :: stack) draws =
      .ok ((if 2 ^ 32 ≤ a + b then 1 else 0) :: stack, draws) := by
    simp only [computeStep, onTwo, ofBool, decide_eq_true_eq]
    congr 2
    split_ifs <;> first | rfl | omega
  have hmul : computeStep d target arguments .IntMultiplyOverflow (b :: a :: stack) draws =
      .ok ((if 2 ^ 32 ≤ a * b then 1 else 0) :: stack, draws) := by
    simp only [computeStep, onTwo, ofBool]
    have hlt : b * a < 2 ^ 64 := by
      calc b * a < 2 ^ 32 * 2 ^ 32 := Nat.mul_lt_mul'' hb ha
        _ = 2 ^ 64 := by norm_num
    rw [Nat.mod_eq_of_lt hlt, Nat.mul_comm b a]
    simp only [decide_eq_true_eq]
    congr 2
  refine ⟨hadd, hmul, ?_, ?_⟩
  · intro w rest hw
    exact computeLoop_step d target arguments w rest _ _ draws draws (by simp [hw])
      (by rw [hw]; exact hadd)
  · intro w rest hw
    exact computeLoop_step d target arguments w rest _ _ draws draws (by simp [hw])
      (by rw [hw]; exact hmul)

theorem overflow_detection_witness :
    (4294967295 : Nat) < 2 ^ 32 ∧ (1 : Nat) < 2 ^ 32 ∧
      computeStep demoDeclarations demoTarget demoArguments .IntAddOverflow
          [1, 4294967295] [] = .ok ([1], []) ∧
      computeStep demoDeclarations demoTarget demoArguments .IntMultiplyOverflow
          [1, 4294967295] [] = .ok ([0], []) ∧
      computeValueExpression demoDeclarations [25, 65536, 25, 65536, 43] demoTarget
        demoArguments [] = .ok (1, []) ∧
      computeValueExpression demoDeclarations [25, 65535, 25, 65537, 43] demoTarget
        demoArguments [] = .ok (0, []) ∧
      computeValueExpression demoDeclarations [25, 4294967295, 25, 0, 28] demoTarget
        demoArguments [] = .ok (0, []) :=
  ⟨by decide, by decide,
    (overflow_detection demoDeclarations demoTarget demoArguments 4294967295 1 [] []
      (by decide) (by decide)).1,
    (overflow_detection demoDeclarations demoTarget demoArguments 4294967295 1 [] []
      (by decide) (by decide)).2.1,
    by decide, by decide, by decide⟩

/-! ## The interpreter: cyclic shifts -/

/-- Bits of a 32-bit word rotated left by `r` places, `0 < r < 32`, as the interpreter
computes it. -/
theorem rotateLeft_testBit (x r i : Nat) (hx : x < 2 ^ 32) (hr0 : 0 < r) (hr : r < 32)
    (hi : i < 32) :
    ((x * 2 ^ r) % 2 ^ 32 ||| x / 2 ^ (32 - r)).testBit i = x.testBit ((i + 32 - r) % 32) := by
  rw [Nat.testBit_or, Nat.testBit_mod_two_pow, ← Nat.shiftLeft_eq, Nat.testBit_shiftLeft,
    ← Nat.shiftRight_eq_div_pow, Nat.testBit_shiftRight]
  by_cases hir : r ≤ i
  · have h1 : (i + 32 - r) % 32 = i - r := by omega
    have h2 : x.testBit (32 - r + i) = false :=
      Nat.testBit_lt_two_pow (lt_of_lt_of_le hx (Nat.pow_le_pow_right (by norm_num) (by omega)))
    rw [h1, h2]
    simp [hi, hir]
  · have h1 : (i + 32 - r) % 32 = 32 - r + i := by omega
    rw [h1]
    simp [hir]

/-- Bits of a 32-bit word rotated right by `r` places, `0 < r < 32`, as the interpreter
computes it. -/
theorem rotateRight_testBit (x r i : Nat) (hx : x < 2 ^ 32) (hr0 : 0 < r) (hr : r < 32)
    (hi : i < 32) :
    (x / 2 ^ r ||| (x * 2 ^ (32 - r)) % 2 ^ 32).testBit i = x.testBit ((i + r) % 32) := by
  rw [Nat.testBit_or, Nat.testBit_mod_two_pow, ← Nat.shiftLeft_eq, Nat.testBit_shiftLeft,
    ← Nat.shiftRight_eq_div_pow, Nat.testBit_shiftRight]
  by_cases hir : 32 - r ≤ i
  · have h1 : (i + r) % 32 = i - (32 - r) := by omega
    have h2 : x.testBit (r + i) = false :=
      Nat.testBit_lt_two_pow (lt_of_lt_of_le hx (Nat.pow_le_pow_right (by norm_num) (by omega)))
    rw [h1, h2]
    simp [hi, hir]
  · have h1 : (i + r) % 32 = r + i := by omega
    rw [h1]
    simp [hir]

theorem rotate_lt (x r : Nat) (hx : x < 2 ^ 32) :
    (x * 2 ^ r) % 2 ^ 32 ||| x / 2 ^ (32 - r) < 2 ^ 32 ∧
      x / 2 ^ r ||| (x * 2 ^ (32 - r)) % 2 ^ 32 < 2 ^ 32 :=
  ⟨Nat.or_lt_two_pow (Nat.mod_lt _ (by norm_num)) (lt_of_le_of_lt (Nat.div_le_self _ _) hx),
    Nat.or_lt_two_pow (lt_of_le_of_lt (Nat.div_le_self _ _) hx) (Nat.mod_lt _ (by norm_num))⟩

theorem rotate_round_trip (x r : Nat) (hx : x < 2 ^ 32) (hr0 : 0 < r) (hr : r < 32) :
    ((x * 2 ^ r) % 2 ^ 32 ||| x / 2 ^ (32 - r)) / 2 ^ r |||
      (((x * 2 ^ r) % 2 ^ 32 ||| x / 2 ^ (32 - r)) * 2 ^ (32 - r)) % 2 ^ 32 = x := by
  have hy := (rotate_lt x r hx).1
  apply Nat.eq_of_testBit_eq
  intro i
  by_cases hi : i < 32
  · rw [rotateRight_testBit _ r i hy hr0 hr hi,
      rotateLeft_testBit x r _ hx hr0 hr (Nat.mod_lt _ (by norm_num))]
    congr 1
    omega
  · have h1 := (rotate_lt ((x * 2 ^ r) % 2 ^ 32 ||| x / 2 ^ (32 - r)) r hy).2
    have hle : 2 ^ 32 ≤ 2 ^ i := Nat.pow_le_pow_right (by norm_num) (by omega)
    rw [Nat.testBit_lt_two_pow (lt_of_lt_of_le h1 hle),
      Nat.testBit_lt_two_pow (lt_of_lt_of_le hx hle)]

/-- With a count of 0 both cyclic shifts give the operand back. -/
theorem rotate_zero (x : Nat) (hx : x < 2 ^ 32) :
    (x * 2 ^ 0) % 2 ^ 32 ||| x / 2 ^ (32 - 0) = x ∧
      x / 2 ^ 0 ||| (x * 2 ^ (32 - 0)) % 2 ^ 32 = x := by
  have h1 : x / 2 ^ (32 - 0) = 0 := Nat.div_eq_of_lt hx
  have h2 : (x * 2 ^ (32 - 0)) % 2 ^ 32 = 0 := Nat.mul_mod_left _ _
  rw [h1, h2, pow_zero, Nat.mul_one, Nat.div_one, Nat.mod_eq_of_lt hx, Nat.or_zero]
  exact ⟨rfl, rfl⟩

/-- C20 (cyclic shifts).  For all 32-bit words `x` (below) and every count `n` (top):
`IntCyclicLeftShift` yields the 32-bit left rotation of `x` by `n mod 32` bits (bit `i` of the
result is bit `i - n mod 32`, taken modulo 32, of `x`) and `IntCyclicRightShift` yields the
right rotation by `n mod 32` bits (bit `i` of the result is bit `i + n mod 32`, taken modulo
32, of `x`); rotating left by `n` and then right by `n` returns `x`; and when `n` is a
multiple of 32 the result of either opcode is `x` itself. -/
theorem cyclic_shift (d : Declarations) (target : ExecutionTarget)
    (arguments : ExecutionArguments) (stack : List Nat) (draws : Draws) (x n : Nat)
    (hx : x < 2 ^ 32) :
    (∃ y, computeStep d target arguments .IntCyclicLeftShift (n :: x :: stack) draws =
          .ok (y :: stack, draws) ∧
        y < 2 ^ 32 ∧ (∀ i, i < 32 → y.testBit i = x.testBit ((i + 32 - n % 32) % 32)) ∧
        computeStep d target arguments .IntCyclicRightShift (n :: y :: stack) draws =
          .ok (x :: stack, draws)) ∧
      (∃ y, computeStep d target arguments .IntCyclicRightShift (n :: x :: stack) draws =
          .ok (y :: stack, draws) ∧
        y < 2 ^ 32 ∧ ∀ i, i < 32 → y.testBit i = x.testBit ((i + n % 32) % 32)) ∧
      (n % 32 = 0 →
        computeStep d target arguments .IntCyclicLeftShift (n :: x :: stack) draws =
            .ok (x :: stack, draws) ∧
          computeStep d target arguments .IntCyclicRightShift (n :: x :: stack) draws =
            .ok (x :: stack, draws)) := by
  have hr : n % 32 < 32 := Nat.mod_lt _ (by norm_num)
  by_cases hn : n % 32 = 0
  · have hl : computeStep d target arguments .IntCyclicLeftShift (n :: x :: stack) draws =
        .ok (x :: stack, draws) := by
      simp only [computeStep, hn]
      rw [(rotate_zero x hx).1]
    have hrt : computeStep d target arguments .IntCyclicRightShift (n :: x :: stack) draws =
        .ok (x :: stack, draws) := by
      simp only [computeStep, hn]
      rw [(rotate_zero x hx).2]
    have hbitl : ∀ i, i < 32 → x.testBit i = x.testBit ((i + 32 - n % 32) % 32) := by
      intro i hi
      congr 1
      omega
    have hbitr : ∀ i, i < 32 → x.testBit i = x.testBit ((i + n % 32) % 32) := by
      intro i hi
      congr 1
      omega
    exact ⟨⟨x, hl, hx, hbitl, hrt⟩, ⟨x, hrt, hx, hbitr⟩, fun _ => ⟨hl, hrt⟩⟩
  · refine ⟨⟨(x * 2 ^ (n % 32)) % 2 ^ 32 ||| x / 2 ^ (32 - n % 32), ?_, (rotate_lt x _ hx).1,
      fun i hi => rotateLeft_testBit x _ i hx (by omega) hr hi, ?_⟩,
      ⟨x / 2 ^ (n % 32) ||| (x * 2 ^ (32 - n % 32)) % 2 ^ 32, ?_, (rotate_lt x _ hx).2,
        fun i hi => rotateRight_testBit x _ i hx (by omega) hr hi⟩,
      fun h => absurd h hn⟩
    · simp only [computeStep]
    · simp only [computeStep]
      rw [rotate_round_trip x (n % 32) hx (by omega) hr]
    · simp only [computeStep]

theorem cyclic_shift_witness :
    (1 : Nat) < 2 ^ 32 ∧
      computeValueExpression demoDeclarations [25, 1, 25, 0, 34] demoTarget demoArguments [] =
        .ok (1, []) ∧
      computeValueExpression demoDeclarations [25, 1, 25, 32, 35] demoTarget demoArguments [] =
        .ok (1, []) ∧
      computeValueExpression demoDeclarations [25, 1, 25, 3, 34] demoTarget demoArguments [] =
        .ok (8, []) ∧
      computeValueExpression demoDeclarations [25, 2147483649, 25, 33, 34] demoTarget
        demoArguments [] = .ok (3, []) ∧
      computeValueExpression demoDeclarations [25, 3, 25, 1, 35] demoTarget demoArguments [] =
        .ok (2147483649, []) ∧
      computeStep demoDeclarations demoTarget demoArguments .IntCyclicLeftShift [32, 1] [] =
        .ok ([1], []) ∧
      computeStep demoDeclarations demoTarget demoArguments .IntCyclicRightShift [32, 1] [] =
        .ok ([1], []) :=
  ⟨by decide, by decide, by decide, by decide, by decide, by decide,
    (cyclic_shift demoDeclarations demoTarget demoArguments [] [] 1 32 (by decide)).2.2
      (by decide)⟩

/-! ## Select, the final check, Equal and IntMinus -/

/-- C21 (Select).  With `a` deepest, then `b`, then the selector `c` on top of the stack, the
interpreter step for `Select` removes all three and pushes `a` when `c` is non-zero and `b`
when `c` is zero; the entries below are unchanged, the randomizer log is unchanged and the
depth drops by two.  The scan continues after the opcode with that stack. -/
theorem select_semantics (d : Declarations) (target : ExecutionTarget)
    (arguments : ExecutionArguments) (a b c : Nat) (stack : List Nat) (draws : Draws) :
    computeStep d target arguments .Select (c :: b :: a :: stack) draws =
        .ok ((if c ≠ 0 then a else b) :: stack, draws) ∧
      ((if c ≠ 0 then a else b) :: stack).length + 2 = (c :: b :: a :: stack).length ∧
      ∀ (w : Nat) (rest : Expression), d.keywordOf w = .Select →
        computeLoop d target arguments (w :: rest) false (c :: b :: a :: stack) draws =
          computeLoop d target arguments rest false ((if c ≠ 0 then a else b) :: stack) draws := by
  have hstep : computeStep d target arguments .Select (c :: b :: a :: stack) draws =
      .ok ((if c ≠ 0 then a else b) :: stack, draws) := by
    by_cases hc : c = 0 <;> simp [computeStep, toBool, hc]
  refine ⟨hstep, by simp, ?_⟩
  intro w rest hw
  exact computeLoop_step d target arguments w rest _ _ draws draws (by simp [hw])
    (by rw [hw]; exact hstep)

theorem select_semantics_witness :
    computeValueExpression demoDeclarations [25, 10, 25, 20, 25, 1, 15] demoTarget
        demoArguments [] = .ok (10, []) ∧
      computeValueExpression demoDeclarations [25, 10, 25, 20, 25, 0, 15] demoTarget
        demoArguments [] = .ok (20, []) ∧
      computeLoop demoDeclarations demoTarget demoArguments [15] false [1, 20, 10, 7] [] =
        computeLoop demoDeclarations demoTarget demoArguments [] false
          ((if (1 : Nat) ≠ 0 then 10 else 20) :: [7]) [] :=
  ⟨by decide, by decide,
    (select_semantics demoDeclarations demoTarget demoArguments 10 20 1 [7] []).2.2 15 [] rfl⟩

/-- C23 (the final check looks only at the top of the stack).  When the scan of an expression
finishes without a step error, leaving the abstract stack `kinds`, the validator accepts the
expression for the expected kind `type` exactly when `kinds` is non-empty and its top entry
is `type`; what lies below the top is not looked at. -/
theorem final_check_top_only (d : Declarations) (type : StackValueType)
    (expression : Expression) (states states1 : EffectAttributeStates)
    (kinds : List StackValueType)
    (hscan : validateLoop d expression false [] states = (.ok kinds, states1)) :
    (validateValueExpression d type expression states).1 = none ↔
      ∃ below, kinds = type :: below := by
  unfold validateValueExpression
  rw [hscan]
  rcases kinds with _ | ⟨top, below⟩
  · simp [frontIs]
  · by_cases h : top = type <;> simp [frontIs, h]

theorem final_check_top_only_witness :
    validateLoop demoDeclarations [19, 25, 5] false [] .initial =
        (.ok [.Integer, .Direction], .initial) ∧
      ((validateValueExpression demoDeclarations .Integer [19, 25, 5] .initial).1 = none ↔
        ∃ below, [StackValueType.Integer, .Direction] = .Integer :: below) ∧
      (validateValueExpression demoDeclarations .Integer [19, 25, 5] .initial).1 = none ∧
      (validateValueExpression demoDeclarations .Integer [25, 1, 25, 2] .initial).1 = none ∧
      (validateValueExpression demoDeclarations .Direction [19, 25, 5] .initial).1 ≠ none :=
  ⟨by decide,
    final_check_top_only demoDeclarations .Integer [19, 25, 5] .initial .initial
      [.Integer, .Direction] (by decide),
    by decide, by decide, by decide⟩

/-- C25 (Equal and Select accept operands of any shared kind).  The validator step for `Equal`
on two top entries of the same kind `T` (any of the three kinds) succeeds and replaces them
by one `Integer`; it fails on every other stack (top two differ, or fewer than two entries).
The step for `Select` on an `Integer` selector above two entries of the same kind `T`
succeeds and replaces the three by one `T`; it fails on every other stack (selector not
`Integer`, branches of different kinds, or fewer than three entries).  A failing step leaves
the effect states as they were. -/
theorem equal_select_any_kind (states : EffectAttributeStates) :
    (∀ (T : StackValueType) (below : List StackValueType),
        validateStep .Equal (T :: T :: below) states = (.ok (.Integer :: below), states)) ∧
      (∀ kinds : List StackValueType, (¬ ∃ T below, kinds = T :: T :: below) →
        ∃ log, validateStep .Equal kinds states = (.error log, states)) ∧
      (∀ (T : StackValueType) (below : List StackValueType),
        validateStep .Select (.Integer :: T :: T :: below) states =
          (.ok (T :: below), states)) ∧
      ∀ kinds : List StackValueType, (¬ ∃ T below, kinds = .Integer :: T :: T :: below) →
        ∃ log, validateStep .Select kinds states = (.error log, states) := by
  refine ⟨?_, ?_, ?_, ?_⟩
  · intro T below
    cases T <;> simp [validateStep, frontIs]
  · intro kinds hk
    rcases kinds with _ | ⟨k1, _ | ⟨k2, below⟩⟩
    · exact ⟨_, rfl⟩
    · exact ⟨_, by simp [validateStep, frontIs]; rfl⟩
    · have hne : ¬ k2 = k1 := fun h => hk ⟨k1, below, by rw [h]⟩
      exact ⟨_, by simp [validateStep, frontIs, hne]; rfl⟩
  · intro T below
    cases T <;> simp [validateStep, frontIs]
  · intro kinds hk
    rcases kinds with _ | ⟨k0, _ | ⟨k1, _ | ⟨k2, below⟩⟩⟩
    · exact ⟨_, by simp [validateStep, frontIs]; rfl⟩
    · by_cases h0 : k0 = .Integer
      · exact ⟨_, by simp [validateStep, frontIs, h0]; rfl⟩
      · exact ⟨_, by simp [validateStep, frontIs, h0]; rfl⟩
    · by_cases h0 : k0 = .Integer
      · exact ⟨_, by simp [validateStep, frontIs, h0]; rfl⟩
      · exact ⟨_, by simp [validateStep, frontIs, h0]; rfl⟩
    · by_cases h0 : k0 = .Integer
      · have hne : ¬ k2 = k1 := fun h => hk ⟨k1, below, by rw [h0, h]⟩
        exact ⟨_, by simp [validateStep, frontIs, h0, hne]; rfl⟩
      · exact ⟨_, by simp [validateStep, frontIs, h0]; rfl⟩


theorem equal_select_any_kind_witness :
    validateStep .Equal [.Direction, .Direction] .initial = (.ok [.Integer], .initial) ∧
      (∃ log, validateStep .Equal [.Direction, .Integer] .initial = (.error log, .initial)) ∧
      validateStep .Select [.Integer, .Acceleration, .Acceleration] .initial =
        (.ok [.Acceleration], .initial) ∧
      (∃ log, validateStep .Select [.Direction, .Integer, .Integer] .initial =
        (.error log, .initial)) ∧
      (∃ log, validateStep .Select [.Integer, .Integer, .Direction] .initial =
        (.error log, .initial)) :=
  ⟨(equal_select_any_kind .initial).1 .Direction [],
    (equal_select_any_kind .initial).2.1 [.Direction, .Integer] (by simp),
    (equal_select_any_kind .initial).2.2.1 .Acceleration [],
    (equal_select_any_kind .initial).2.2.2 [.Direction, .Integer, .Integer] (by simp),
    (equal_select_any_kind .initial).2.2.2 [.Integer, .Integer, .Direction] (by simp)⟩

/-- Subtracting a 32-bit word from the all-ones word flips each of its 32 bits. -/
theorem complement_eq_xor (x : Nat) (hx : x < 2 ^ 32) :
    2 ^ 32 - 1 - x = x ^^^ (2 ^ 32 - 1) := by
  apply Nat.eq_of_testBit_eq
  intro i
  have h1 : 2 ^ 32 - 1 - x = 2 ^ 32 - (x + 1) := by omega
  rw [h1, Nat.testBit_two_pow_sub_succ hx, Nat.testBit_xor, Nat.testBit_two_pow_sub_one]
  by_cases hi : i < 32
  · simp [hi]
  · have : x.testBit i = false := by
      apply Nat.testBit_lt_two_pow
      exact lt_of_lt_of_le hx (Nat.pow_le_pow_right (by norm_num) (by omega))
    simp [hi, this]

/-- C29 (IntMinus is the bitwise complement).  For a 32-bit word `x` on top of the stack the
interpreter step for `IntMinus` replaces it by `2^32 - 1 - x`, which is the result of the
step for `IntBitNot` and is `x` xor-ed with the all-ones word; hence `x + IntMinus(x)` is
`2^32 - 1` modulo `2^32`, not `0`. -/
theorem intMinus_is_complement (d : Declarations) (target : ExecutionTarget)
    (arguments : ExecutionArguments) (x : Nat) (stack : List Nat) (draws : Draws)
    (hx : x < 2 ^ 32) :
    computeStep d target arguments .IntMinus (x :: stack) draws =
        .ok ((2 ^ 32 - 1 - x) :: stack, draws) ∧
      computeStep d target arguments .IntMinus (x :: stack) draws =
        computeStep d target arguments .IntBitNot (x :: stack) draws ∧
      2 ^ 32 - 1 - x = x ^^^ (2 ^ 32 - 1) ∧
      (x + (2 ^ 32 - 1 - x)) % 2 ^ 32 = 2 ^ 32 - 1 ∧
      (x + (2 ^ 32 - 1 - x)) % 2 ^ 32 ≠ 0 := by
  refine ⟨rfl, rfl, complement_eq_xor x hx, ?_, ?_⟩ <;> omega

theorem intMinus_is_complement_witness :
    (5 : Nat) < 2 ^ 32 ∧
      computeValueExpression demoDeclarations [25, 5, 40] demoTarget demoArguments [] =
        .ok (4294967290, []) ∧
      computeStep demoDeclarations demoTarget demoArguments .IntMinus [5] [] =
        computeStep demoDeclarations demoTarget demoArguments .IntBitNot [5] [] :=
  ⟨by decide, by decide,
    (intMinus_is_complement demoDeclarations demoTarget demoArguments 5 [] []
      (by decide)).2.1⟩

/-! ## Terminator and literals -/

/-- When the scan runs through `ws`, validating `ws ++ rest` depends on `rest` only through
the validation of `rest` from the flag reached at the end of `ws`. -/
theorem validateLoop_append_congr (d : Declarations) (ws rest1 rest2 : Expression)
    (reached : Bool)
    (hrest : ∀ kinds states, validateLoop d rest1 reached kinds states =
      validateLoop d rest2 reached kinds states) :
    ∀ (isInteger : Bool) (kinds : List StackValueType) (states : EffectAttributeStates),
      scanReaches d ws isInteger = some reached →
      validateLoop d (ws ++ rest1) isInteger kinds states =
        validateLoop d (ws ++ rest2) isInteger kinds states := by
  induction ws with
  | nil =>
      intro isInteger kinds states hr
      simp only [scanReaches, Option.some.injEq] at hr
      rw [List.nil_append, List.nil_append, hr]
      exact hrest kinds states
  | cons w ws ih =>
      intro isInteger kinds states hr
      cases isInteger with
      | true =>
          simp only [scanReaches] at hr
          simp only [validateLoop, List.cons_append]
          exact ih false _ _ hr
      | false =>
          rw [scanReaches_cons_false] at hr
          rw [List.cons_append, List.cons_append, validateLoop_cons_false,
            validateLoop_cons_false]
          by_cases h1 : d.keywordOf w = .Int
          · simp only [h1, if_true] at hr ⊢
            exact ih true _ _ hr
          · simp only [h1, if_false] at hr ⊢
            by_cases h2 : d.keywordOf w = .ExpressionEnd ∨ d.keywordOf w = .Unlisted
            · simp [h2] at hr
            · simp only [h2, if_false] at hr ⊢
              rcases validateStep (d.keywordOf w) kinds states with ⟨_ | kinds1, states1⟩
              · rfl
              · exact ih false _ _ hr

/-- When the scan runs through `ws`, evaluating `ws ++ rest` depends on `rest` only through
the evaluation of `rest` from the flag reached at the end of `ws`. -/
theorem computeLoop_append_congr (d : Declarations) (target : ExecutionTarget)
    (arguments : ExecutionArguments) (ws rest1 rest2 : Expression) (reached : Bool)
    (hrest : ∀ stack draws, computeLoop d target arguments rest1 reached stack draws =
      computeLoop d target arguments rest2 reached stack draws) :
    ∀ (isInteger : Bool) (stack : List Nat) (draws : Draws),
      scanReaches d ws isInteger = some reached →
      computeLoop d target arguments (ws ++ rest1) isInteger stack draws =
        computeLoop d target arguments (ws ++ rest2) isInteger stack draws := by
  induction ws with
  | nil =>
      intro isInteger stack draws hr
      simp only [scanReaches, Option.some.injEq] at hr
      rw [List.nil_append, List.nil_append, hr]
      exact hrest stack draws
  | cons w ws ih =>
      intro isInteger stack draws hr
      cases isInteger with
      | true =>
          simp only [scanReaches] at hr
          simp only [computeLoop, List.cons_append]
          exact ih false _ _ hr
      | false =>
          rw [scanReaches_cons_false] at hr
          rw [List.cons_append, List.cons_append, computeLoop_cons_false,
            computeLoop_cons_false]
          by_cases h1 : d.keywordOf w = .Int
          · simp only [h1, if_true] at hr ⊢
            exact ih true _ _ hr
          · simp only [h1, if_false] at hr ⊢
            by_cases h2 : d.keywordOf w = .ExpressionEnd ∨ d.keywordOf w = .Unlisted
            · simp [h2] at hr
            · simp only [h2, if_false] at hr ⊢
              rcases computeStep d target arguments (d.keywordOf w) stack draws with
                _ | ⟨stack1, draws1⟩
              · rfl
              · exact ih false _ _ hr

/-- When the scan runs through `ws` without a fault, evaluating `ws ++ rest` continues on
`rest` from the stack, flag and request log reached at the end of `ws`. -/
theorem computeLoop_append (d : Declarations) (target : ExecutionTarget)
    (arguments : ExecutionArguments) (ws rest : Expression) :
    ∀ (isInteger reached : Bool) (stack stack1 : List Nat) (draws draws1 : Draws),
      scanReaches d ws isInteger = some reached →
      computeLoop d target arguments ws isInteger stack draws = .ok (stack1, draws1) →
      computeLoop d target arguments (ws ++ rest) isInteger stack draws =
        computeLoop d target arguments rest reached stack1 draws1 := by
  induction ws with
  | nil =>
      intro isInteger reached stack stack1 draws draws1 hr hv
      simp only [scanReaches, Option.some.injEq] at hr
      simp only [computeLoop, Except.ok.injEq, Prod.mk.injEq] at hv
      rw [List.nil_append, hr, hv.1, hv.2]
  | cons w ws ih =>
      intro isInteger reached stack stack1 draws draws1 hr hv
      cases isInteger with
      | true =>
          simp only [scanReaches] at hr
          simp only [computeLoop, List.cons_append] at hv ⊢
          exact ih false reached _ _ _ _ hr hv
      | false =>
          rw [scanReaches_cons_false] at hr
          rw [computeLoop_cons_false] at hv
          rw [List.cons_append, computeLoop_cons_false]
          by_cases h1 : d.keywordOf w = .Int
          · simp only [h1, if_true] at hr hv ⊢
            exact ih true reached _ _ _ _ hr hv
          · simp only [h1, if_false] at hr hv ⊢
            by_cases h2 : d.keywordOf w = .ExpressionEnd ∨ d.keywordOf w = .Unlisted
            · simp [h2] at hr
            · simp only [h2, if_false] at hr hv ⊢
              rcases hs : computeStep d target arguments (d.keywordOf w) stack draws with
                _ | ⟨stack2, draws2⟩
              · rw [hs] at hv; simp at hv
              · rw [hs] at hv
                exact ih false reached _ _ _ _ hr hv

/-- C22 (nothing after the terminator is inspected).  When the scan runs through the words
`ws` and then meets the opcode `ExpressionEnd` (at an opcode position, not as the literal of
an `Int`), the validator's result and the effect states it leaves, and the interpreter's value
and request log, are those of `ws` alone: whatever words `after` follow the terminator, they
change nothing. -/
theorem nothing_after_terminator (d : Declarations) (ws after : Expression) (w : Nat)
    (hreach : scanReaches d ws false = some false)
    (hw : d.keywordOf w = .ExpressionEnd) :
    (∀ (type : StackValueType) (states : EffectAttributeStates),
        validateValueExpression d type (ws ++ w :: after) states =
          validateValueExpression d type ws states) ∧
      ∀ (target : ExecutionTarget) (arguments : ExecutionArguments) (draws : Draws),
        computeValueExpression d (ws ++ w :: after) target arguments draws =
          computeValueExpression d ws target arguments draws := by
  constructor
  · intro type states
    have h := validateLoop_append_congr d ws (w :: after) [] false
      (fun kinds st => by rw [validateLoop_cons_false]; simp [hw, validateLoop])
      false [] states hreach
    unfold validateValueExpression
    rw [h, List.append_nil]
  · intro target arguments draws
    have h := computeLoop_append_congr d target arguments ws (w :: after) [] false
      (fun stack dr => by rw [computeLoop_cons_false]; simp [hw, computeLoop])
      false [] draws hreach
    unfold computeValueExpression
    rw [h, List.append_nil]

theorem nothing_after_terminator_witness :
    scanReaches demoDeclarations [25, 3, 25, 4, 26] false = some false ∧
      demoDeclarations.keywordOf 44 = .ExpressionEnd ∧
      validateValueExpression demoDeclarations .Integer
          ([25, 3, 25, 4, 26] ++ 44 :: [3, 22, 21, 900]) .initial =
        validateValueExpression demoDeclarations .Integer [25, 3, 25, 4, 26] .initial ∧
      validateValueExpression demoDeclarations .Integer [25, 3, 25, 4, 26] .initial =
        (none, .initial) ∧
      computeValueExpression demoDeclarations ([25, 3, 25, 4, 26] ++ 44 :: [3, 22, 21, 900])
          demoTarget demoArguments [] = .ok (7, []) :=
  ⟨by decide, by decide,
    (nothing_after_terminator demoDeclarations [25, 3, 25, 4, 26] [3, 22, 21, 900] 44
      (by decide) (by decide)).1 .Integer .initial,
    by decide, by decide⟩

/-- C24 (literal words are never interpreted as opcodes).  When the scan runs through `ws` and
ends right behind an `Int` opcode, replacing the following word `literal` by any other word
leaves the validator's result and the effect states (random flag and parameter kind) as they
are; the interpreter pushes `literal` verbatim on the stack it reached and continues the scan
with the word after it. -/
theorem literal_never_opcode (d : Declarations) (ws after : Expression)
    (literal other : Nat) (hreach : scanReaches d ws false = some true) :
    (∀ (type : StackValueType) (states : EffectAttributeStates),
        validateValueExpression d type (ws ++ literal :: after) states =
          validateValueExpression d type (ws ++ other :: after) states) ∧
      ∀ (target : ExecutionTarget) (arguments : ExecutionArguments) (draws draws1 : Draws)
        (stack1 : List Nat),
        computeLoop d target arguments ws false [] draws = .ok (stack1, draws1) →
        computeLoop d target arguments (ws ++ literal :: after) false [] draws =
          computeLoop d target arguments after false (literal :: stack1) draws1 := by
  refine ⟨?_, ?_⟩
  · intro type states
    have h := validateLoop_append_congr d ws (literal :: after) (other :: after) true
      (fun kinds st => by simp only [validateLoop]) false [] states hreach
    unfold validateValueExpression
    rw [h]
  · intro target arguments draws draws1 stack1 hws
    rw [computeLoop_append d target arguments ws (literal :: after) false true [] stack1
      draws draws1 hreach hws]
    simp only [computeLoop]

theorem literal_never_opcode_witness :
    scanReaches demoDeclarations [25] false = some true ∧
      validateValueExpression demoDeclarations .Integer ([25] ++ 44 :: [25, 1, 26]) .initial =
        validateValueExpression demoDeclarations .Integer ([25] ++ 5 :: [25, 1, 26]) .initial ∧
      validateValueExpression demoDeclarations .Integer [25, 3, 25, 22, 26] .initial =
        (none, .initial) ∧
      computeValueExpression demoDeclarations [25, 44, 25, 1, 26] demoTarget demoArguments [] =
        .ok (45, []) ∧
      computeValueExpression demoDeclarations [25, 3, 25, 22, 26] demoTarget demoArguments [] =
        .ok (25, []) :=
  ⟨by decide,
    (literal_never_opcode demoDeclarations [25] [25, 1, 26] 44 5 (by decide)).1 .Integer
      .initial,
    by decide, by decide, by decide⟩

/-! ## Independence of the randomizer -/

/-- A step for an opcode that is not a random generator does not consult the randomizer: it
is the same under any two argument records that differ in the randomizer only, and it leaves
the request log as it was. -/
theorem computeStep_no_random (d : Declarations) (target : ExecutionTarget)
    (arguments1 arguments2 : ExecutionArguments) (kw : ObjectBehaviorKeyword)
    (stack : List Nat) (draws : Draws)
    (hprev : arguments1.previousSnakeDirection = arguments2.previousSnakeDirection)
    (hparam : arguments1.parameter = arguments2.parameter)
    (hkw : isRandomOpcode kw = false) :
    computeStep d target arguments1 kw stack draws =
        computeStep d target arguments2 kw stack draws ∧
      ∀ stack1 draws1, computeStep d target arguments1 kw stack draws = .ok (stack1, draws1) →
        draws1 = draws := by
  constructor
  · cases kw <;> simp_all [computeStep, isRandomOpcode]
  · intro stack1 draws1 h
    cases kw <;> simp [isRandomOpcode] at hkw <;>
      rcases stack with _ | ⟨a, _ | ⟨b, _ | ⟨c, rest⟩⟩⟩ <;>
      simp only [computeStep, onFront, onTwo] at h <;>
      (try split_ifs at h) <;> cases h <;> rfl

/-- The scan of an expression without random-generator opcodes at its scanned positions does
not consult the randomizer. -/
theorem computeLoop_no_random (d : Declarations) (target : ExecutionTarget)
    (arguments1 arguments2 : ExecutionArguments)
    (hprev : arguments1.previousSnakeDirection = arguments2.previousSnakeDirection)
    (hparam : arguments1.parameter = arguments2.parameter) (expression : Expression) :
    ∀ (isInteger : Bool) (stack : List Nat) (draws : Draws),
      (∀ kw ∈ scannedOpcodes d expression isInteger, isRandomOpcode kw = false) →
      computeLoop d target arguments1 expression isInteger stack draws =
          computeLoop d target arguments2 expression isInteger stack draws ∧
        ∀ stack1 draws1,
          computeLoop d target arguments1 expression isInteger stack draws =
            .ok (stack1, draws1) → draws1 = draws := by
  induction expression with
  | nil =>
      intro isInteger stack draws _
      refine ⟨rfl, ?_⟩
      intro stack1 draws1 h
      simp only [computeLoop, Except.ok.injEq, Prod.mk.injEq] at h
      exact h.2.symm
  | cons w rest ih =>
      intro isInteger stack draws hall
      cases isInteger with
      | true =>
          simp only [scannedOpcodes] at hall
          simp only [computeLoop]
          exact ih false _ _ hall
      | false =>
          rw [scannedOpcodes_cons_false] at hall
          rw [computeLoop_cons_false, computeLoop_cons_false]
          by_cases h1 : d.keywordOf w = .Int
          · simp only [h1, if_true] at hall ⊢
            exact ih true _ _ (fun kw hk => hall kw (List.mem_cons_of_mem _ hk))
          · simp only [h1, if_false] at hall ⊢
            by_cases h2 : d.keywordOf w = .ExpressionEnd ∨ d.keywordOf w = .Unlisted
            · simp only [h2, if_true]
              refine ⟨trivial, ?_⟩
              intro stack1 draws1 h
              simp only [Except.ok.injEq, Prod.mk.injEq] at h
              exact h.2.symm
            · simp only [h2, if_false] at hall ⊢
              have hs := computeStep_no_random d target arguments1 arguments2 (d.keywordOf w)
                stack draws hprev hparam (hall _ (List.mem_cons_self _ _))
              rw [← hs.1]
              rcases hstep : computeStep d target arguments1 (d.keywordOf w) stack draws with
                _ | ⟨stack2, draws2⟩
              · exact ⟨rfl, fun _ _ h => by simp at h⟩
              · have hd := hs.2 stack2 draws2 hstep
                subst hd
                exact ih false _ _ (fun kw hk => hall kw (List.mem_cons_of_mem _ hk))

/-- Evaluating an expression without random-generator opcodes at its scanned positions does
not consult the randomizer. -/
theorem computeValueExpression_no_random (d : Declarations) (target : ExecutionTarget)
    (arguments1 arguments2 : ExecutionArguments)
    (hprev : arguments1.previousSnakeDirection = arguments2.previousSnakeDirection)
    (hparam : arguments1.parameter = arguments2.parameter) (expression : Expression)
    (draws : Draws)
    (hall : ∀ kw ∈ scannedOpcodes d expression false, isRandomOpcode kw = false) :
    computeValueExpression d expression target arguments1 draws =
        computeValueExpression d expression target arguments2 draws ∧
      ∀ value draws1,
        computeValueExpression d expression target arguments1 draws = .ok (value, draws1) →
          draws1 = draws := by
  have h := computeLoop_no_random d target arguments1 arguments2 hprev hparam expression
    false [] draws hall
  unfold computeValueExpression
  rw [← h.1]
  refine ⟨rfl, ?_⟩
  intro value draws1 hv
  rcases hl : computeLoop d target arguments1 expression false [] draws with
    _ | ⟨_ | ⟨top, below⟩, draws2⟩
  · rw [hl] at hv; simp at hv
  · rw [hl] at hv; simp at hv
  · rw [hl] at hv
    simp only [Except.ok.injEq, Prod.mk.injEq] at hv
    rw [← hv.2]
    exact h.2 _ _ hl

/-- The condition loop of `activate` over conditions without random-generator opcodes does
not consult the randomizer. -/
theorem selectCommandIndex_no_random (d : Declarations) (target : ExecutionTarget)
    (arguments1 arguments2 : ExecutionArguments)
    (hprev : arguments1.previousSnakeDirection = arguments2.previousSnakeDirection)
    (hparam : arguments1.parameter = arguments2.parameter) (conditions : List Expression) :
    ∀ (commandIndex : Nat) (draws : Draws),
      (∀ expression ∈ conditions, ∀ kw ∈ scannedOpcodes d expression false,
        isRandomOpcode kw = false) →
      selectCommandIndex d target arguments1 conditions commandIndex draws =
          selectCommandIndex d target arguments2 conditions commandIndex draws ∧
        ∀ k draws1,
          selectCommandIndex d target arguments1 conditions commandIndex draws =
            .ok (k, draws1) → draws1 = draws := by
  induction conditions with
  | nil =>
      intro commandIndex draws _
      refine ⟨rfl, ?_⟩
      intro k draws1 h
      simp only [selectCommandIndex, Except.ok.injEq, Prod.mk.injEq] at h
      exact h.2.symm
  | cons expression rest ih =>
      intro commandIndex draws hall
      have he := computeValueExpression_no_random d target arguments1 arguments2 hprev hparam
        expression draws (hall _ (List.mem_cons_self _ _))
      simp only [selectCommandIndex]
      rw [← he.1]
      rcases hv : computeValueExpression d expression target arguments1 draws with
        _ | ⟨value, draws2⟩
      · exact ⟨rfl, fun _ _ h => by simp at h⟩
      · have hd := he.2 _ _ hv
        subst hd
        by_cases hb : toBool value = true
        · simp only [hb, if_true]
          refine ⟨trivial, ?_⟩
          intro k draws1 h
          simp only [Except.ok.injEq, Prod.mk.injEq] at h
          exact h.2.symm
        · simp only [hb]
          exact ih _ _ (fun e he2 => hall e (List.mem_cons_of_mem _ he2))

/-- The command switch of `activate` does not consult the randomizer when the
modify-expression of a command that evaluates it has no random-generator opcode. -/
theorem applyCommand_no_random (d : Declarations) (target : ExecutionTarget)
    (arguments1 arguments2 : ExecutionArguments)
    (hprev : arguments1.previousSnakeDirection = arguments2.previousSnakeDirection)
    (hparam : arguments1.parameter = arguments2.parameter) (command : ObjectCommand)
    (expression : Expression) (draws : Draws)
    (hall : commandIsValidated command = true →
      ∀ kw ∈ scannedOpcodes d expression false, isRandomOpcode kw = false) :
    applyCommand d command expression target arguments1 draws =
        applyCommand d command expression target arguments2 draws ∧
      ∀ target1 draws1,
        applyCommand d command expression target arguments1 draws = .ok (target1, draws1) →
          draws1 = draws := by
  cases command
  case KillSnake =>
    exact ⟨rfl, fun _ _ h => by simp only [applyCommand, Except.ok.injEq, Prod.mk.injEq] at h; exact h.2.symm⟩
  case StopSnake =>
    exact ⟨rfl, fun _ _ h => by simp only [applyCommand, Except.ok.injEq, Prod.mk.injEq] at h; exact h.2.symm⟩
  case NoOp =>
    exact ⟨rfl, fun _ _ h => by simp only [applyCommand, Except.ok.injEq, Prod.mk.injEq] at h; exact h.2.symm⟩
  all_goals
    have he := computeValueExpression_no_random d target arguments1 arguments2 hprev hparam
      expression draws (hall rfl)
    simp only [applyCommand]
    rw [← he.1]
    rcases hv : computeValueExpression d expression target arguments1 draws with
      _ | ⟨value, draws2⟩
    · exact ⟨rfl, fun _ _ h => by simp at h⟩
    · refine ⟨rfl, ?_⟩
      intro target1 draws1 h
      simp only [Except.ok.injEq, Prod.mk.injEq] at h
      rw [← h.2]
      exact he.2 _ _ hv

/-- C26 (RequiresRandom == false implies independence of the randomizer).  For every
successfully compiled program whose RequiresRandom flag is false, every target and every
arguments, `activate` makes no request to the randomizer (the request log it returns is the
one it was started with), so its outcome, the resulting target included, is the same under
any two argument records that differ in the randomizer only. -/
theorem requiresRandom_false_independent (d : Declarations) (self compiled : ObjectBehavior)
    (parameters : CompileParameters) (h : compile d self parameters = (none, compiled))
    (hflag : compiled.m_properties.RequiresRandom = false)
    (target : ExecutionTarget) (arguments1 arguments2 : ExecutionArguments)
    (hprev : arguments1.previousSnakeDirection = arguments2.previousSnakeDirection)
    (hparam : arguments1.parameter = arguments2.parameter) (draws : Draws) :
    activate d compiled target arguments1 draws =
        activate d compiled target arguments2 draws ∧
      ∀ target1 draws1, activate d compiled target arguments1 draws = .ok (target1, draws1) →
        draws1 = draws := by
  obtain ⟨states, rfl, hr, -⟩ := compile_states d self compiled parameters h
  have hnr : ∀ kw ∈ programOpcodes d parameters, isRandomOpcode kw = false := by
    have hany : (programOpcodes d parameters).any isRandomOpcode = false := by
      have : states.requiresRandom = false := hflag
      rw [this] at hr
      simpa [EffectAttributeStates.initial] using hr.symm
    intro kw hkw
    by_contra hc
    have : (programOpcodes d parameters).any isRandomOpcode = true :=
      List.any_eq_true.mpr ⟨kw, hkw, by simpa using hc⟩
    rw [hany] at this
    exact Bool.noConfusion this
  have hcond : ∀ expression ∈
      (List.range parameters.conditionCount).map parameters.condExpressions,
      ∀ kw ∈ scannedOpcodes d expression false, isRandomOpcode kw = false := by
    intro expression he kw hkw
    obtain ⟨i, hi, rfl⟩ := List.mem_map.mp he
    apply hnr
    unfold programOpcodes
    refine List.mem_flatMap.mpr ⟨(.Integer, parameters.condExpressions i), ?_, hkw⟩
    unfold validatedExpressions
    exact List.mem_append_left _ (List.mem_map.mpr ⟨i, hi, rfl⟩)
  have hmod : ∀ k, k < parameters.conditionCount + 1 →
      commandIsValidated (parameters.commands k) = true →
      ∀ kw ∈ scannedOpcodes d (parameters.modifyExpressions k) false,
        isRandomOpcode kw = false := by
    intro k hk hval kw hkw
    obtain ⟨kind, hkind⟩ : ∃ kind, expectedKind (parameters.commands k) = some kind := by
      cases hc : parameters.commands k <;> rw [hc] at hval <;>
        first
        | exact ⟨_, rfl⟩
        | exact Bool.noConfusion hval
    apply hnr
    unfold programOpcodes
    refine List.mem_flatMap.mpr ⟨(kind, parameters.modifyExpressions k), ?_, hkw⟩
    unfold validatedExpressions
    refine List.mem_append_right _ (List.mem_filterMap.mpr ⟨k, List.mem_range.mpr hk, ?_⟩)
    rw [hkind]
    rfl
  have hsel := selectCommandIndex_no_random d target arguments1 arguments2 hprev hparam
    ((List.range parameters.conditionCount).map parameters.condExpressions) 0 draws hcond
  have hne : ((List.range (parameters.conditionCount + 1)).map parameters.commands).isEmpty =
      false := by
    simp [List.isEmpty_iff]
  unfold activate
  simp only [compiledObject, hne, Bool.false_eq_true, if_false]
  rw [← hsel.1]
  rcases hs : selectCommandIndex d target arguments1
      ((List.range parameters.conditionCount).map parameters.condExpressions) 0 draws with
    _ | ⟨k, draws2⟩
  · exact ⟨rfl, fun _ _ h => by simp at h⟩
  · have hd := hsel.2 _ _ hs
    subst hd
    by_cases hk : k ≥ ((List.range (parameters.conditionCount + 1)).map
        parameters.commands).length
    · simp only [hk, if_true]
      exact ⟨trivial, fun _ _ h => by
        simp only [Except.ok.injEq, Prod.mk.injEq] at h; exact h.2.symm⟩
    · simp only [hk, if_false]
      have hk2 : k < parameters.conditionCount + 1 := by
        simpa using hk
      have hm : ((List.range (parameters.conditionCount + 1)).map
          parameters.modifyExpressions)[k]? = some (parameters.modifyExpressions k) := by
        simp [hk2]
      have hc : ((List.range (parameters.conditionCount + 1)).map
          parameters.commands).getD k .NoOp = parameters.commands k := by
        simp [List.getD, hk2]
      rw [hm, hc]
      exact applyCommand_no_random d target arguments1 arguments2 hprev hparam _ _ _
        (hmod k hk2)

theorem requiresRandom_false_independent_witness :
    compile demoDeclarations ObjectBehavior.default branchProgram =
        (none, branchProgramCompiled) ∧
      branchProgramCompiled.m_properties.RequiresRandom = false ∧
      activate demoDeclarations branchProgramCompiled demoTarget demoArguments [] =
        .ok ({ demoTarget with snakeAcceleration := 2 }, []) ∧
      (activate demoDeclarations branchProgramCompiled demoTarget demoArguments [] =
          activate demoDeclarations branchProgramCompiled demoTarget
            { demoArguments with randomizer := fun _ => 99 } [] ∧
        ∀ target1 draws1,
          activate demoDeclarations branchProgramCompiled demoTarget demoArguments [] =
            .ok (target1, draws1) → draws1 = []) :=
  ⟨by decide, by decide, by decide,
    requiresRandom_false_independent demoDeclarations ObjectBehavior.default
      branchProgramCompiled branchProgram (by decide) (by decide) demoTarget demoArguments
      { demoArguments with randomizer := fun _ => 99 } rfl rfl []⟩

/-! ## The Fenwick tree: saturation of `rankQuery` -/

/-- The descent of `rankQuery` on a created tree, for any 64-bit `v`: the result `r` is the
largest index up to `size - 1` whose first `r` weights sum to at most `v`. -/
theorem fwkCreate_rankQuery_descent (W : List Nat) (h1 : 1 ≤ W.length)
    (hlen : W.length < 2 ^ 60) (hsum : W.sum < 2 ^ 64) (v : Nat) (hv : v < 2 ^ 64) :
    ∃ K r, (fwkCreate W).length = 1 + 2 ^ K ∧ W.length ≤ 2 ^ K ∧
      FenwickTree.rankQuery (fwkCreate W) v = some r ∧ r ≤ 2 ^ K ∧
      (W.take r).sum ≤ v ∧ (r + 1 ≤ 2 ^ K → v < (W.take (r + 1)).sum) := by
  have hW64 : ∀ w ∈ W, w < 2 ^ 64 := fun w hw =>
    lt_of_le_of_lt (List.single_le_sum (fun _ _ => Nat.zero_le _) w hw) hsum
  obtain ⟨ht, hN, K, hK, hle⟩ := fwkCreate_isTree W h1 hlen hW64
  have h0 : (fwkCreate W).getD 0 0 = 0 := by
    rw [fwkCreate, init_getD_zero, fwkLayout_getD_zero]
  obtain ⟨r, hr, hrK, hpre, hnext⟩ := rankQueryLoop_spec W h1 hlen hsum K hK v (K + 1)
    (1 + 2 ^ K) 0 (by have := Nat.lt_two_pow K; omega) (by simp) (by simp)
    (by intro h; rw [pow_succ] at h; have : 0 < 2 ^ K := by positivity
        omega)
  refine ⟨K, r, hK, hle, ?_, hrK, hpre, hnext⟩
  rw [rankQuery_eq _ _ (by omega), h0, hK]
  have hj : 2 ^ (K + 1) / 2 = 2 ^ K := by rw [pow_succ]; omega
  simp only [Nat.mul_zero, List.take_zero, List.sum_nil, Nat.sub_zero, hj] at hr
  simp only [Nat.add_sub_cancel_left, Nat.sub_zero]
  rw [show (v + 2 ^ 64) % 2 ^ 64 = v by omega]
  exact hr

/-- C28 (rankQuery saturates).  For every tree created from an array `W` of `n ≥ 1`
non-negative weights whose total fits the 64-bit `Value` type, with `size` the length of the
tree array: for every 64-bit `v ≥ sum(W)`, `rankQuery(v)` returns `size - 1`, which is at
least `n` and so not an index of a weight; and over all 64-bit `v`, `rankQuery` is
monotonically non-decreasing in `v`. -/
theorem rankQuery_saturates (W : List Nat) (h1 : 1 ≤ W.length) (hlen : W.length < 2 ^ 60)
    (hsum : W.sum < 2 ^ 64) :
    (∀ v, W.sum ≤ v → v < 2 ^ 64 →
        FenwickTree.rankQuery (fwkCreate W) v = some ((fwkCreate W).length - 1) ∧
          W.length ≤ (fwkCreate W).length - 1) ∧
      ∀ v1 v2, v1 ≤ v2 → v2 < 2 ^ 64 →
        ∃ r1 r2, FenwickTree.rankQuery (fwkCreate W) v1 = some r1 ∧
          FenwickTree.rankQuery (fwkCreate W) v2 = some r2 ∧ r1 ≤ r2 := by
  constructor
  · intro v hge hv
    obtain ⟨K, r, hK, hle, hr, hrK, hpre, hnext⟩ :=
      fwkCreate_rankQuery_descent W h1 hlen hsum v hv
    have hrfull : r = 2 ^ K := by
      by_contra hc
      have h2 := hnext (by omega)
      have h3 := sum_take_le_sum W (r + 1)
      omega
    rw [hr, hK, hrfull]
    exact ⟨by simp, by omega⟩
  · intro v1 v2 h12 hv2
    obtain ⟨K, r1, hK, hle, hr1, hrK1, hpre1, hnext1⟩ :=
      fwkCreate_rankQuery_descent W h1 hlen hsum v1 (by omega)
    obtain ⟨K2, r2, hK2, -, hr2, hrK2, hpre2, hnext2⟩ :=
      fwkCreate_rankQuery_descent W h1 hlen hsum v2 hv2
    refine ⟨r1, r2, hr1, hr2, ?_⟩
    by_contra hc
    have hKK : 2 ^ K2 = 2 ^ K := by omega
    have h2 := hnext2 (by omega)
    have h3 := sum_take_mono W (r2 + 1) r1 (by omega)
    omega

theorem rankQuery_saturates_witness :
    1 ≤ [3, 0, 5, 2].length ∧ [3, 0, 5, 2].length < 2 ^ 60 ∧ [3, 0, 5, 2].sum < 2 ^ 64 ∧
      (fwkCreate [3, 0, 5, 2]).length - 1 = 4 ∧
      (List.range 14).map (fun v => FenwickTree.rankQuery (fwkCreate [3, 0, 5, 2]) v) =
        [some 0, some 0, some 0, some 2, some 2, some 2, some 2, some 2, some 3, some 3,
          some 4, some 4, some 4, some 4] ∧
      FenwickTree.rankQuery (fwkCreate [3, 0, 5, 2]) 10 =
        some ((fwkCreate [3, 0, 5, 2]).length - 1) ∧
      [3, 0, 5, 2].length ≤ (fwkCreate [3, 0, 5, 2]).length - 1 :=
  ⟨by decide, by decide, by decide, by decide, by decide,
    (rankQuery_saturates [3, 0, 5, 2] (by decide) (by decide) (by decide)).1 10 (by decide)
      (by decide)⟩

/-! ## The Fenwick tree: `init` and `fini` -/

theorem finiStep_length (data : List Nat) (i : Nat) :
    (finiStep data i).length = data.length := by
  unfold finiStep
  simp only
  split <;> simp

theorem finiStep_getD (data : List Nat) (i j : Nat) :
    (finiStep data i).getD j 0 =
      if getNext i = j ∧ j < data.length then
        (data.getD j 0 + (2 ^ 64 - data.getD i 0)) % 2 ^ 64
      else data.getD j 0 := by
  unfold finiStep
  simp only
  by_cases h : getNext i < data.length
  · simp only [h, if_true]
    by_cases hj : getNext i = j
    · subst hj
      simp [h, List.getD_eq_getElem?_getD, List.getElem?_set]
    · simp [hj, List.getD_eq_getElem?_getD, List.getElem?_set]
  · simp only [h, if_false]
    have : ¬ (getNext i = j ∧ j < data.length) := fun hc => h (hc.1 ▸ hc.2)
    simp [this]

/-- Two arrays of the same length whose slots agree are equal. -/
theorem ext_getD (l1 l2 : List Nat) (hlen : l1.length = l2.length)
    (h : ∀ j, j < l1.length → l1.getD j 0 = l2.getD j 0) : l1 = l2 := by
  apply List.ext_getElem hlen
  intro j h1 h2
  have := h j h1
  rwa [List.getD_eq_getElem _ _ h1, List.getD_eq_getElem _ _ h2] at this

/-- The step of `fini` for `i` undoes the step of `init` for `i`. -/
theorem finiStep_initStep (data : List Nat) (i : Nat) (h0 : 0 < i) (hi : i < 2 ^ 64)
    (hb : ∀ j, data.getD j 0 < 2 ^ 64) : finiStep (initStep data i) i = data := by
  have hne := getNext_gt i h0 hi
  apply ext_getD _ _ (by rw [finiStep_length, initStep_length])
  intro j _
  rw [finiStep_getD, initStep_length, initStep_getD, initStep_getD]
  by_cases hj : getNext i = j ∧ j < data.length
  · obtain ⟨rfl, hjlt⟩ := hj
    have hij : ¬ (getNext i = i ∧ i < data.length) := fun hc => by omega
    simp only [hjlt, hij, and_self, if_true, if_false]
    have h1 := hb (getNext i)
    have h2 := hb i
    omega
  · simp only [hj, if_false]

/-- The step of `init` for `i` undoes the step of `fini` for `i`. -/
theorem initStep_finiStep (data : List Nat) (i : Nat) (h0 : 0 < i) (hi : i < 2 ^ 64)
    (hb : ∀ j, data.getD j 0 < 2 ^ 64) : initStep (finiStep data i) i = data := by
  have hne := getNext_gt i h0 hi
  apply ext_getD _ _ (by rw [initStep_length, finiStep_length])
  intro j _
  rw [initStep_getD, finiStep_length, finiStep_getD, finiStep_getD]
  by_cases hj : getNext i = j ∧ j < data.length
  · obtain ⟨rfl, hjlt⟩ := hj
    have hij : ¬ (getNext i = i ∧ i < data.length) := fun hc => by omega
    simp only [hjlt, hij, and_self, if_true, if_false]
    have h1 := hb (getNext i)
    have h2 := hb i
    omega
  · simp only [hj, if_false]

theorem initStep_bound (data : List Nat) (i : Nat) (hb : ∀ j, data.getD j 0 < 2 ^ 64) :
    ∀ j, (initStep data i).getD j 0 < 2 ^ 64 := by
  intro j
  rw [initStep_getD]
  split
  · exact Nat.mod_lt _ (by norm_num)
  · exact hb j

theorem finiStep_bound (data : List Nat) (i : Nat) (hb : ∀ j, data.getD j 0 < 2 ^ 64) :
    ∀ j, (finiStep data i).getD j 0 < 2 ^ 64 := by
  intro j
  rw [finiStep_getD]
  split
  · exact Nat.mod_lt _ (by norm_num)
  · exact hb j

/-- Running steps over a list of indices and then the undoing steps over the reversed list
gives back the array. -/
theorem fold_cancel (s t : List Nat → Nat → List Nat) (l : List Nat)
    (hs : ∀ data i, i ∈ l → (∀ j, data.getD j 0 < 2 ^ 64) →
      (∀ j, (s data i).getD j 0 < 2 ^ 64) ∧ t (s data i) i = data) :
    ∀ data, (∀ j, data.getD j 0 < 2 ^ 64) → l.reverse.foldl t (l.foldl s data) = data := by
  induction l with
  | nil => intro data _; rfl
  | cons i l ih =>
      intro data hb
      have h1 := hs data i (List.mem_cons_self _ _) hb
      rw [List.foldl_cons, List.reverse_cons, List.foldl_append, List.foldl_cons,
        List.foldl_nil,
        ih (fun data i hi => hs data i (List.mem_cons_of_mem _ hi)) _ h1.1]
      exact h1.2

theorem fini_length (data : List Nat) : (fini data).length = data.length := by
  unfold fini
  generalize (List.range' 1 (data.length - 1)).reverse = l
  induction l generalizing data with
  | nil => rfl
  | cons i l ih => rw [List.foldl_cons, ih, finiStep_length]

theorem fini_getD_zero (data : List Nat) : (fini data).getD 0 0 = data.getD 0 0 := by
  unfold fini
  have key : ∀ (l : List Nat) (data : List Nat), (∀ i ∈ l, 0 < i) →
      (l.foldl finiStep data).getD 0 0 = data.getD 0 0 := by
    intro l
    induction l with
    | nil => intro data _; rfl
    | cons i l ih =>
        intro data hl
        rw [List.foldl_cons, ih _ (fun k hk => hl k (List.mem_cons_of_mem _ hk)),
          finiStep_getD]
        have hi : 0 < i := hl i (List.mem_cons_self _ _)
        have : ¬ (getNext i = 0 ∧ 0 < data.length) := by
          unfold getNext
          omega
        simp only [this, if_false]
  apply key
  intro i hi
  rw [List.mem_reverse, List.mem_range'_1] at hi
  omega

/-- C30 (fini undoes init and init undoes fini).  For every array `A` of 64-bit words, of any
length an `Idx` can index, `fini(init(A)) = A` and `init(fini(A)) = A`, element by element,
and both functions leave slot 0 as it was. -/
theorem fini_init_round_trip (A : List Nat) (hN : A.length ≤ 2 ^ 63)
    (hA : ∀ x ∈ A, x < 2 ^ 64) :
    fini (init A) = A ∧ init (fini A) = A ∧
      (init A).getD 0 0 = A.getD 0 0 ∧ (fini A).getD 0 0 = A.getD 0 0 := by
  have hb : ∀ j, A.getD j 0 < 2 ^ 64 := by
    intro j
    by_cases hj : j < A.length
    · rw [List.getD_eq_getElem _ _ hj]
      exact hA _ (List.getElem_mem _)
    · rw [List.getD_eq_default _ _ (by omega)]
      norm_num
  have hidx : ∀ i ∈ List.range' 1 (A.length - 1), 0 < i ∧ i < 2 ^ 64 := by
    intro i hi
    rw [List.mem_range'_1] at hi
    have : (2 : Nat) ^ 63 < 2 ^ 64 := by norm_num
    omega
  refine ⟨?_, ?_, init_getD_zero A, fini_getD_zero A⟩
  · unfold fini
    rw [init_length]
    unfold init
    exact fold_cancel initStep finiStep _
      (fun data i hi hd => ⟨initStep_bound data i hd,
        finiStep_initStep data i (hidx i hi).1 (hidx i hi).2 hd⟩) A hb
  · unfold init
    rw [fini_length]
    unfold fini
    have h := fold_cancel finiStep initStep (List.range' 1 (A.length - 1)).reverse
      (fun data i hi hd => ⟨finiStep_bound data i hd,
        initStep_finiStep data i (hidx i (List.mem_reverse.mp hi)).1
          (hidx i (List.mem_reverse.mp hi)).2 hd⟩) A hb
    rwa [List.reverse_reverse] at h

theorem fini_init_round_trip_witness :
    [9, 3, 0, 5, 2, 18446744073709551615].length ≤ 2 ^ 63 ∧
      (∀ x ∈ [9, 3, 0, 5, 2, 18446744073709551615], x < 2 ^ 64) ∧
      init [9, 3, 0, 5, 2, 18446744073709551615] = [9, 3, 3, 5, 10, 18446744073709551615] ∧
      fini [9, 3, 0, 5, 2, 18446744073709551615] =
        [9, 3, 18446744073709551613, 5, 18446744073709551613, 18446744073709551615] ∧
      (fini (init [9, 3, 0, 5, 2, 18446744073709551615]) =
          [9, 3, 0, 5, 2, 18446744073709551615] ∧
        init (fini [9, 3, 0, 5, 2, 18446744073709551615]) =
          [9, 3, 0, 5, 2, 18446744073709551615] ∧
        (init [9, 3, 0, 5, 2, 18446744073709551615]).getD 0 0 =
          [9, 3, 0, 5, 2, 18446744073709551615].getD 0 0 ∧
        (fini [9, 3, 0, 5, 2, 18446744073709551615]).getD 0 0 =
          [9, 3, 0, 5, 2, 18446744073709551615].getD 0 0) :=
  ⟨by decide, by decide, by decide, by decide,
    fini_init_round_trip [9, 3, 0, 5, 2, 18446744073709551615] (by decide) (by decide)⟩

/-! ## The Fenwick tree: `update` and the prefix sums -/

/-- Adding its lowest set bit to `r < 2 ^ t` does not pass `2 ^ t`. -/
theorem add_lowBit_le (t r : Nat) (hr0 : 0 < r) (hr : r < 2 ^ t) (h64 : r < 2 ^ 64) :
    r + lowBit r ≤ 2 ^ t := by
  obtain ⟨s, u, rfl⟩ := exists_two_pow_mul_odd r hr0
  rw [lowBit_two_pow_mul_odd s u h64]
  have hst : s < t := by
    have h1 : 2 ^ s ≤ 2 ^ s * (2 * u + 1) := Nat.le_mul_of_pos_right _ (by omega)
    exact (Nat.pow_lt_pow_iff_right (by norm_num)).1 (lt_of_le_of_lt h1 hr)
  have e : 2 ^ t = 2 ^ s * (2 * 2 ^ (t - s - 1)) := by
    rw [← pow_succ', ← pow_add]; congr 1; omega
  rw [e] at hr ⊢
  have hpos : 0 < 2 ^ s := by positivity
  have h2 : 2 * u + 1 < 2 * 2 ^ (t - s - 1) := Nat.lt_of_mul_lt_mul_left hr
  calc 2 ^ s * (2 * u + 1) + 2 ^ s = 2 ^ s * (2 * u + 2) := by ring
    _ ≤ 2 ^ s * (2 * 2 ^ (t - s - 1)) := Nat.mul_le_mul_left _ (by omega)

/-- Node `j` covers the slots after its parent up to `j`.  For `j ≠ i`, node `j` covers slot
`i` exactly when it covers slot `getNext i`: the chain of `update` from `i` visits the nodes
that cover `i`. -/
theorem covers_getNext (i j : Nat) (hi0 : 0 < i) (hi : i < 2 ^ 64) (hj : j < 2 ^ 64)
    (hij : j ≠ i) :
    (getParent j < i ∧ i ≤ j) ↔ (getParent j < getNext i ∧ getNext i ≤ j) := by
  have hnext := getNext_gt i hi0 hi
  rcases Nat.eq_zero_or_pos j with hj0 | hj0
  · subst hj0
    constructor
    · intro h; omega
    · intro h; omega
  obtain ⟨t, m, rfl⟩ := exists_two_pow_mul_odd j hj0
  rw [getParent_two_pow_mul_odd t m hj]
  have hpt : 0 < 2 ^ t := by positivity
  have hP : 2 ^ t * (2 * m + 1) - 2 ^ t = 2 ^ t * (2 * m) := by
    have : 2 ^ t * (2 * m + 1) = 2 ^ t * (2 * m) + 2 ^ t := by ring
    omega
  have hJ : 2 ^ t * (2 * m + 1) = 2 ^ t * (2 * m) + 2 ^ t := by ring
  rw [hP]
  constructor
  · rintro ⟨h1, h2⟩
    obtain ⟨r, hr⟩ : ∃ r, i = 2 ^ t * (2 * m) + r := ⟨i - 2 ^ t * (2 * m), by omega⟩
    have hr0 : 0 < r := by omega
    have hrt : r < 2 ^ t := by omega
    have hlow : lowBit i = lowBit r := by
      rw [hr]; exact lowBit_add t (2 * m) r hr0 hrt (by rw [← hr]; exact hi)
    have hA := add_lowBit_le t r hr0 hrt (by omega)
    unfold getNext
    rw [hlow]
    omega
  · rintro ⟨h1, h2⟩
    refine ⟨?_, by omega⟩
    by_contra hc
    obtain ⟨s, u, rfl⟩ := exists_two_pow_mul_odd i hi0
    have hps : 0 < 2 ^ s := by positivity
    have hn : getNext (2 ^ s * (2 * u + 1)) = 2 ^ s * (2 * u + 2) := by
      unfold getNext
      rw [lowBit_two_pow_mul_odd s u hi]
      ring
    rw [hn] at h1 h2
    rcases Nat.lt_or_ge t s with hts | hst
    · have e : 2 ^ s = 2 ^ t * (2 * 2 ^ (s - t - 1)) := by
        rw [← pow_succ', ← pow_add]; congr 1; omega
      have e2 : 2 ^ s * (2 * u + 2) = 2 ^ t * (2 * (2 ^ (s - t - 1) * (2 * u + 2))) := by
        rw [e]; ring
      rw [e2] at h1 h2
      have h3 := Nat.lt_of_mul_lt_mul_left h1
      have h4 := Nat.le_of_mul_le_mul_left h2 hpt
      omega
    · have e : 2 ^ t * (2 * m) = 2 ^ s * (2 * (2 ^ (t - s) * m)) := by
        have : 2 ^ t = 2 ^ s * 2 ^ (t - s) := by rw [← pow_add]; congr 1; omega
        rw [this]; ring
      rw [e] at h1 hc
      have h3 := Nat.lt_of_mul_lt_mul_left h1
      have h4 : 2 * u + 1 ≤ 2 * (2 ^ (t - s) * m) :=
        Nat.le_of_mul_le_mul_left (Nat.le_of_not_lt hc) hps
      omega

/-- The loop of `update` started at `i ≥ 1` ends and adds `v` to exactly the nodes that cover
slot `i`. -/
theorem updateLoop_spec (v : Nat) :
    ∀ (fuel i : Nat) (data : List Nat), 0 < i → data.length ≤ 2 ^ 63 →
      data.length ≤ fuel + i →
      ∃ data1, updateLoop v fuel i data = some data1 ∧ data1.length = data.length ∧
        ∀ j, j < data.length → data1.getD j 0 =
          if getParent j < i ∧ i ≤ j then (data.getD j 0 + v) % 2 ^ 64 else data.getD j 0 := by
  intro fuel
  induction fuel with
  | zero =>
      intro i data _ _ hfuel
      refine ⟨data, ?_, rfl, ?_⟩
      · simp only [updateLoop]
        rw [if_neg (by omega)]
      · intro j hj
        rw [if_neg (by omega)]
  | succ fuel ih =>
      intro i data hi0 hN hfuel
      by_cases hi : i < data.length
      · have h63 : (2 : Nat) ^ 63 < 2 ^ 64 := by norm_num
        have hnext := getNext_gt i hi0 (by omega)
        obtain ⟨data1, h1, hlen, hval⟩ := ih (getNext i)
          (data.set i ((data.getD i 0 + v) % 2 ^ 64)) (by omega)
          (by rw [List.length_set]; exact hN) (by rw [List.length_set]; omega)
        rw [List.length_set] at hlen hval
        refine ⟨data1, ?_, hlen, ?_⟩
        · simp only [updateLoop]
          rw [if_pos hi]
          exact h1
        · intro j hj
          rw [hval j hj]
          by_cases hji : j = i
          · subst hji
            have hp : getParent j < j := by
              have := lowBit_pos j hi0 (by omega)
              unfold getParent
              omega
            rw [if_neg (by omega), if_pos ⟨hp, le_refl _⟩]
            simp [List.getD_eq_getElem?_getD, List.getElem?_set, hj]
          · have hc := covers_getNext i j hi0 (by omega) (by omega) hji
            have hset : (data.set i ((data.getD i 0 + v) % 2 ^ 64)).getD j 0 =
                data.getD j 0 := by
              simp [List.getD_eq_getElem?_getD, List.getElem?_set, Ne.symm hji]
            rw [hset]
            by_cases hcov : getParent j < i ∧ i ≤ j
            · rw [if_pos hcov, if_pos (hc.1 hcov)]
            · rw [if_neg hcov, if_neg (fun h => hcov (hc.2 h))]
      · refine ⟨data, ?_, rfl, ?_⟩
        · simp only [updateLoop]
          rw [if_neg hi]
        · intro j hj
          rw [if_neg (by omega)]

/-- The loop of `getSum` on two arrays that differ by `v` on the nodes that cover slot `i`:
both runs end, and the second sum exceeds the first by the difference of the starting sums,
plus `v` when the chain from `k` passes a node that covers `i`, that is when `i ≤ k`. -/
theorem getSumLoop_shift (data data1 : List Nat) (i v : Nat) (hi0 : 0 < i)
    (hlen : data1.length = data.length) (hN : data.length ≤ 2 ^ 63)
    (hval : ∀ j, 0 < j → j < data.length → data1.getD j 0 =
      if getParent j < i ∧ i ≤ j then (data.getD j 0 + v) % 2 ^ 64 else data.getD j 0) :
    ∀ (fuel k sum sum1 : Nat), k < data.length → k < fuel → sum < 2 ^ 64 → sum1 < 2 ^ 64 →
      ∃ s s1, getSumLoop data fuel k sum = some s ∧ getSumLoop data1 fuel k sum1 = some s1 ∧
        s < 2 ^ 64 ∧ s1 < 2 ^ 64 ∧
        (s1 : ZMod (2 ^ 64)) - (s : ZMod (2 ^ 64)) =
          (sum1 : ZMod (2 ^ 64)) - (sum : ZMod (2 ^ 64)) +
            if i ≤ k then (v : ZMod (2 ^ 64)) else 0 := by
  intro fuel
  induction fuel with
  | zero => intro k sum sum1 _ h; omega
  | succ fuel ih =>
      intro k sum sum1 hk hfuel hs hs1
      by_cases hk0 : k = 0
      · subst hk0
        refine ⟨sum, sum1, by simp [getSumLoop], by simp [getSumLoop], hs, hs1, ?_⟩
        rw [if_neg (by omega), add_zero]
      · have hkpos : 0 < k := Nat.pos_of_ne_zero hk0
        have h63 : (2 : Nat) ^ 63 < 2 ^ 64 := by norm_num
        have hlow := lowBit_pos k hkpos (by omega)
        have hp : getParent k < k := by unfold getParent; omega
        obtain ⟨s, s1, h1, h2, hb, hb1, hrel⟩ := ih (getParent k)
          ((sum + data.getD k 0) % 2 ^ 64) ((sum1 + data1.getD k 0) % 2 ^ 64) (by omega)
          (by omega) (Nat.mod_lt _ (by norm_num)) (Nat.mod_lt _ (by norm_num))
        refine ⟨s, s1, ?_, ?_, hb, hb1, ?_⟩
        · simp only [getSumLoop]
          rw [if_pos hk0, getElem?_eq_some_getD data k hk]
          exact h1
        · simp only [getSumLoop]
          rw [if_pos hk0, getElem?_eq_some_getD data1 k (by omega)]
          exact h2
        · rw [hrel, hval k hkpos hk, ZMod.natCast_mod, ZMod.natCast_mod, Nat.cast_add,
            Nat.cast_add]
          by_cases hcov : getParent k < i ∧ i ≤ k
          · rw [if_pos hcov, if_neg (by omega), if_pos hcov.2, ZMod.natCast_mod, Nat.cast_add]
            ring
          · rw [if_neg hcov]
            by_cases hik : i ≤ k
            · rw [if_pos (by omega), if_pos hik]
              ring
            · rw [if_neg (by omega), if_neg hik]
              ring

/-- A 64-bit word whose residue is that of `s + v` is `(s + v) % 2 ^ 64`. -/
theorem eq_add_mod_of_cast (s s1 v : Nat) (hs1 : s1 < 2 ^ 64)
    (h : (s1 : ZMod (2 ^ 64)) - (s : ZMod (2 ^ 64)) = (v : ZMod (2 ^ 64))) :
    s1 = (s + v) % 2 ^ 64 := by
  have h2 : ((s1 : Nat) : ZMod (2 ^ 64)) = ((s + v : Nat) : ZMod (2 ^ 64)) := by
    rw [Nat.cast_add, ← h]; ring
  have h3 := (ZMod.natCast_eq_natCast_iff' s1 (s + v) (2 ^ 64)).1 h2
  rw [Nat.mod_eq_of_lt hs1] at h3
  exact h3

/-- The first loop of `rangeSum` reads no slot 0. -/
theorem rangeSumUpper_agree (data data0 : List Nat)
    (hag : ∀ j, 0 < j → data0[j]? = data[j]?) (i : Nat) :
    ∀ (fuel j sum : Nat),
      rangeSumUpper data0 i fuel j sum = rangeSumUpper data i fuel j sum := by
  intro fuel
  induction fuel with
  | zero => intro j sum; rfl
  | succ fuel ih =>
      intro j sum
      simp only [rangeSumUpper]
      by_cases hj : j > i
      · rw [if_pos hj, if_pos hj, hag j (by omega)]
        rcases data[j]? with _ | x
        · rfl
        · exact ih _ _
      · rw [if_neg hj, if_neg hj]

/-- The second loop of `rangeSum` reads no slot 0. -/
theorem rangeSumLower_agree (data data0 : List Nat)
    (hag : ∀ j, 0 < j → data0[j]? = data[j]?) (j : Nat) :
    ∀ (fuel i sum : Nat),
      rangeSumLower data0 j fuel i sum = rangeSumLower data j fuel i sum := by
  intro fuel
  induction fuel with
  | zero => intro i sum; rfl
  | succ fuel ih =>
      intro i sum
      simp only [rangeSumLower]
      by_cases hi : i > j
      · rw [if_pos hi, if_pos hi, hag i (by omega)]
        rcases data[i]? with _ | x
        · rfl
        · exact ih _ _
      · rw [if_neg hi, if_neg hi]

/-- The function `rangeSum` reads no slot 0. -/
theorem rangeSum_agree (data data0 : List Nat)
    (hag : ∀ j, 0 < j → data0[j]? = data[j]?) (a b : Nat) :
    rangeSum data0 a b = rangeSum data a b := by
  unfold rangeSum
  rw [rangeSumUpper_agree data data0 hag]
  rcases rangeSumUpper data a (b + 1) b 0 with _ | ⟨j1, sum⟩
  · rfl
  · exact rangeSumLower_agree data data0 hag _ _ _ _

/-- The function `getSum` starts its loop with the word in slot 0. -/
theorem getSum_of_head (data : List Nat) (x k : Nat) (h : data[0]? = some x) :
    getSum data k = getSumLoop data (k + 1) k x := by
  unfold getSum
  rw [h]

/-- C27 (update shifts the prefix sums).  For every tree array of 64-bit words, of length
`size`, and every `delta`: for every index `i` with `1 ≤ i < size`, `update(i, delta)` ends
and increases `getSum(k)` by `delta` (modulo `2^64`) for every `k` with `i ≤ k < size`, and
leaves `getSum(k)` unchanged for every `k < i`; `update(0, delta)` changes only slot 0, so
it increases every `getSum(k)` by `delta` and leaves every `rangeSum` and every `get` result
unchanged. -/
theorem update_shifts_getSum (data : List Nat) (h1 : 1 ≤ data.length)
    (hN : data.length ≤ 2 ^ 63) (hb : ∀ x ∈ data, x < 2 ^ 64) (delta : Nat) :
    (∀ i, 1 ≤ i → i < data.length →
        ∃ data1, update data i delta = some data1 ∧
          (∀ k, i ≤ k → k < data.length →
            ∃ s, getSum data k = some s ∧ getSum data1 k = some ((s + delta) % 2 ^ 64)) ∧
          ∀ k, k < i → getSum data1 k = getSum data k) ∧
      ∃ data0, update data 0 delta = some data0 ∧
        data0.getD 0 0 = (data.getD 0 0 + delta) % 2 ^ 64 ∧
        (∀ j, 0 < j → data0[j]? = data[j]?) ∧
        (∀ k, k < data.length →
          ∃ s, getSum data k = some s ∧ getSum data0 k = some ((s + delta) % 2 ^ 64)) ∧
        (∀ a b, rangeSum data0 a b = rangeSum data a b) ∧
        ∀ a, get data0 a = get data a := by
  obtain ⟨x, rest, rfl⟩ : ∃ x rest, data = x :: rest := by
    rcases data with _ | ⟨x, rest⟩
    · simp at h1
    · exact ⟨x, rest, rfl⟩
  have hx : x < 2 ^ 64 := hb x (List.mem_cons_self _ _)
  constructor
  · intro i hi1 hi
    obtain ⟨data1, hu, hlen, hval⟩ := updateLoop_spec delta (x :: rest).length i (x :: rest)
      (by omega) hN (by omega)
    have h0 : data1[0]? = some x := by
      rw [getElem?_eq_some_getD data1 0 (by rw [hlen]; omega), hval 0 (by omega),
        if_neg (by omega)]
      rfl
    have hshift := getSumLoop_shift (x :: rest) data1 i delta (by omega) hlen hN
      (fun j _ hj => hval j hj)
    refine ⟨data1, ?_, ?_, ?_⟩
    · unfold update
      rw [if_neg (by omega)]
      exact hu
    · intro k hik hk
      obtain ⟨s, s1, hs, hs1, hbs, hbs1, hrel⟩ := hshift (k + 1) k x x hk (by omega) hx hx
      rw [if_pos hik, sub_self, zero_add] at hrel
      refine ⟨s, ?_, ?_⟩
      · rw [getSum_of_head _ x k (by simp), hs]
      · rw [getSum_of_head _ x k h0, hs1, eq_add_mod_of_cast s s1 delta hbs1 hrel]
    · intro k hki
      obtain ⟨s, s1, hs, hs1, hbs, hbs1, hrel⟩ := hshift (k + 1) k x x (by omega) (by omega)
        hx hx
      rw [if_neg (by omega), sub_self, zero_add] at hrel
      have hss : s1 = s := by
        have := eq_add_mod_of_cast s s1 0 hbs1 (by rw [hrel]; simp)
        rw [this, Nat.add_zero, Nat.mod_eq_of_lt hbs]
      rw [getSum_of_head _ x k h0, getSum_of_head _ x k (by simp), hs, hs1, hss]
  · have hag : ∀ j, 0 < j → ((x + delta) % 2 ^ 64 :: rest)[j]? = (x :: rest)[j]? := by
      intro j hj
      obtain ⟨j, rfl⟩ : ∃ m, j = m + 1 := ⟨j - 1, by omega⟩
      rfl
    refine ⟨(x + delta) % 2 ^ 64 :: rest, rfl, rfl, hag, ?_,
      rangeSum_agree _ _ hag, fun a => rangeSum_agree _ _ hag _ _⟩
    intro k hk
    have hshift := getSumLoop_shift (x :: rest) ((x + delta) % 2 ^ 64 :: rest)
      (x :: rest).length delta (by simp) rfl hN
      (fun j hj0 hj => by
        rw [if_neg (by omega)]
        obtain ⟨j, rfl⟩ : ∃ m, j = m + 1 := ⟨j - 1, by omega⟩
        rfl)
    obtain ⟨s, s1, hs, hs1, hbs, hbs1, hrel⟩ := hshift (k + 1) k x ((x + delta) % 2 ^ 64) hk
      (by omega) hx (Nat.mod_lt _ (by norm_num))
    rw [if_neg (by omega), add_zero, ZMod.natCast_mod, Nat.cast_add, add_sub_cancel_left]
      at hrel
    refine ⟨s, ?_, ?_⟩
    · rw [getSum_of_head _ x k (by simp), hs]
    · rw [getSum_of_head _ ((x + delta) % 2 ^ 64) k (by simp), hs1,
        eq_add_mod_of_cast s s1 delta hbs1 hrel]

theorem update_shifts_getSum_witness :
    1 ≤ [0, 3, 3, 5, 10].length ∧ [0, 3, 3, 5, 10].length ≤ 2 ^ 63 ∧
      (∀ x ∈ [0, 3, 3, 5, 10], x < 2 ^ 64) ∧
      update [0, 3, 3, 5, 10] 2 7 = some [0, 3, 10, 5, 17] ∧
      (List.range 5).map (getSum [0, 3, 3, 5, 10]) =
        [some 0, some 3, some 3, some 8, some 10] ∧
      (List.range 5).map (getSum [0, 3, 10, 5, 17]) =
        [some 0, some 3, some 10, some 15, some 17] ∧
      update [0, 3, 3, 5, 10] 0 7 = some [7, 3, 3, 5, 10] ∧
      (List.range 5).map (getSum [7, 3, 3, 5, 10]) =
        [some 7, some 10, some 10, some 15, some 17] ∧
      ∃ data1, update [0, 3, 3, 5, 10] 2 7 = some data1 ∧
        (∀ k, 2 ≤ k → k < [0, 3, 3, 5, 10].length →
          ∃ s, getSum [0, 3, 3, 5, 10] k = some s ∧
            getSum data1 k = some ((s + 7) % 2 ^ 64)) ∧
        ∀ k, k < 2 → getSum data1 k = getSum [0, 3, 3, 5, 10] k :=
  ⟨by decide, by decide, by decide, by decide, by decide, by decide, by decide, by decide,
    (update_shifts_getSum [0, 3, 3, 5, 10] (by decide) (by decide) (by decide) 7).1 2
      (by decide) (by decide)⟩

end Bulletworm
